import Mathlib

/-!
# miniTri: the CSR sparse-matrix engine

A shallow embedding of `miniTri/linearAlgebra/openmp/CSRMatrix.cc` and proofs about it.

Conventions of the embedding.

* The C++ `int` fields (dimensions, counts, column indices, values, vertex ids) are
  carried as `Nat`: on every in-range input they are non-negative, and no arithmetic in
  the modelled functions can wrap.  The only subtraction on a counter
  (`nnzInRow[rownum]--` in `matmat`) is shown never to be applied to zero
  (`stripSingles_count`).
* `std::vector<T>` is a `List T`; `resize` is `resize`; an indexed read is `List.getD` with
  the value-initialised element as default and an indexed write is `List.set` /
  `modifyAt`.  Reads and writes outside the bounds are undefined behaviour in the source;
  the theorems carry the in-range hypotheses under which none occurs, and for the two
  asserting operations `createTriMatrixRun` and `createIncidentMatrixRun` tell a call that
  leaves a vector from one that completes.
* A method takes its receiver and its operands as separate values: the modelled call is the
  one whose receiver is an object distinct from the operands.  The call `Z.matmat(Z, B)`,
  which reads rows of the receiver it has already reset, is modelled apart
  (`matmatAliased`).
* `std::map<int,T>` is `StdMap T`, an association list kept in strictly increasing key
  order, so that iterating the list is iterating the map; `std::set<int>` is `StdSet`.
* The OpenMP `parallel for` loops of the source write disjoint rows and combine their
  counters with a sum reduction; they are modelled as a sequential left fold over the rows.
* The parallel regions of `SpMV1` and `computeKCounts`, whose workers fill a private shadow
  vector and merge it inside a critical section, take a schedule as an explicit argument:
  the rows handed to each worker, the workers in the order they enter the critical section.
* `unsigned int` arithmetic that can wrap (`choose2`) is computed modulo `2^32`.
-/

namespace MiniTri

/-! ## Containers -/

/-- The `std::vector::resize(k)` operation: truncate to `k` elements or pad with the
value-initialised element `d`. -/
def resize {α : Type} (v : List α) (k : Nat) (d : α) : List α :=
  v.take k ++ List.replicate (k - v.length) d

/-- Update in place of element `i` of a vector (`v[i].op(...)`); no element is touched when
`i` is out of range. -/
def modifyAt {α : Type} (f : α → α) : List α → Nat → List α
  | [], _ => []
  | x :: xs, 0 => f x :: xs
  | x :: xs, i + 1 => x :: modifyAt f xs i

/-- The loop `for (iter ...) { buf[idx] = *iter; idx++; }` writing the sequence `xs` into
`buf` from position `start` on. -/
def writeSeq {α : Type} (buf : List α) (start : Nat) : List α → List α
  | [] => buf
  | x :: xs => writeSeq (buf.set start x) (start + 1) xs

/-- A `std::map<int,T>`: key/value pairs in strictly increasing key order. -/
abbrev StdMap (β : Type) := List (Nat × β)

/-- A `std::set<int>`: elements in strictly increasing order. -/
abbrev StdSet := List Nat

/-- The lookup `std::map::find`. -/
def StdMap.find {β : Type} : StdMap β → Nat → Option β
  | [], _ => none
  | (k, v) :: t, key => if key = k then some v else StdMap.find t key

/-- The insertion `std::map::insert`: the pair is placed at its sorted position; an already
present key keeps its value. -/
def StdMap.insert {β : Type} : StdMap β → Nat → β → StdMap β
  | [], key, val => [(key, val)]
  | (k, v) :: t, key, val =>
    if key < k then (key, val) :: (k, v) :: t
    else if key = k then (k, v) :: t
    else (k, v) :: StdMap.insert t key val

/-- The assignment `map[key] = val`: insert at the sorted position, or overwrite. -/
def StdMap.assign {β : Type} : StdMap β → Nat → β → StdMap β
  | [], key, val => [(key, val)]
  | (k, v) :: t, key, val =>
    if key < k then (key, val) :: (k, v) :: t
    else if key = k then (k, val) :: t
    else (k, v) :: StdMap.assign t key val

/-- An update through an iterator obtained by `find`: `(*it).second = f((*it).second)`. -/
def StdMap.modify {β : Type} : StdMap β → Nat → (β → β) → StdMap β
  | [], _, _ => []
  | (k, v) :: t, key, f =>
    if key = k then (k, f v) :: t else (k, v) :: StdMap.modify t key f

/-- The insertion `std::set::insert`. -/
def StdSet.insert : StdSet → Nat → StdSet
  | [], x => [x]
  | y :: t, x =>
    if x < y then x :: y :: t
    else if x = y then y :: t
    else y :: StdSet.insert t x

/-! ## The matrix -/

/-- Modelled from the spec: the structural kind tag declared in the header `CSRMatrix.h` of
`miniTri/linearAlgebra/openmp`, which is not part of the sources at hand; the four
enumerators are the ones `CSRMatrix.cc` uses. -/
inductive matrixtype where
  | UNDEFINED
  | LOWERTRI
  | UPPERTRI
  | INCIDENCE
  deriving DecidableEq, Repr

/-- Modelled from the spec: the edge record `edge_t` of the edge-list readers (header
`mmUtil.h`, not part of the sources at hand): the two endpoints of an edge. -/
structure edge_t where
  v0 : Nat
  v1 : Nat
  deriving DecidableEq, Repr

/-- Modelled from the spec: the data members of class `CSRMat` (header `CSRMatrix.h` of
`miniTri/linearAlgebra/openmp`, not part of the sources at hand), as `CSRMatrix.cc` uses
them: kind tag, dimensions, nonzero count, and the per-row vectors. -/
structure CSRMat where
  type : matrixtype
  m : Nat
  n : Nat
  nnz : Nat
  nnzInRow : List Nat
  cols : List (List Nat)
  vals : List (List Nat)
  vals2 : List (List Nat)
  deriving DecidableEq, Repr

/-- Modelled from the spec: the constructor `CSRMat(matrixtype)` of the missing header: an
empty matrix of the given kind. -/
def CSRMat.fresh (t : matrixtype) : CSRMat :=
  { type := t, m := 0, n := 0, nnz := 0, nnzInRow := [], cols := [], vals := [], vals2 := [] }

/-- Accessor `getM`. -/
def CSRMat.getM (A : CSRMat) : Nat := A.m

/-- Accessor `getN`. -/
def CSRMat.getN (A : CSRMat) : Nat := A.n

/-- Accessor `getNNZ`. -/
def CSRMat.getNNZ (A : CSRMat) : Nat := A.nnz

/-- Accessor `getNNZInRow`. -/
def CSRMat.getNNZInRow (A : CSRMat) (rnum : Nat) : Nat := A.nnzInRow.getD rnum 0

/-- Accessor `getCol`. -/
def CSRMat.getCol (A : CSRMat) (rowi nzindx : Nat) : Nat := (A.cols.getD rowi []).getD nzindx 0

/-- Accessor `getVal`. -/
def CSRMat.getVal (A : CSRMat) (rowi nzindx : Nat) : Nat := (A.vals.getD rowi []).getD nzindx 0

/-- Accessor `getVal2`. -/
def CSRMat.getVal2 (A : CSRMat) (rowi nzindx : Nat) : Nat :=
  (A.vals2.getD rowi []).getD nzindx 0

/-! ## matmat -/

/-- The function `addNZ` (CSRMatrix.cc 627-646): append `elemToAdd` to the list of an
existing column and return 0, or insert a new one-element list and return 1. -/
def addNZ (nzMap : StdMap (List Nat)) (col elemToAdd : Nat) : StdMap (List Nat) × Nat :=
  match nzMap.find col with
  | some _ => (nzMap.modify col (fun l => l ++ [elemToAdd]), 0)
  | none => (nzMap.insert col [elemToAdd], 1)

/-- The loop over `nzindxB` of `matmat` (lines 218-223); the state is `newNZs` and the
counter `nnzInRow[rownum]`. -/
def matmatInner (B : CSRMat) (colA : Nat) (st : StdMap (List Nat) × Nat) :
    StdMap (List Nat) × Nat :=
  (List.range (B.getNNZInRow colA)).foldl
    (fun acc nzindxB =>
      let colB := B.getCol colA nzindxB
      let r := addNZ acc.1 colB colA
      (r.1, acc.2 + r.2))
    st

/-- The loop over `nzindxA` of `matmat` (lines 207-224), starting from
`nnzInRow[rownum] = 0` and an empty `newNZs`. -/
def matmatAccum (A B : CSRMat) (rownum : Nat) : StdMap (List Nat) × Nat :=
  (List.range (A.getNNZInRow rownum)).foldl
    (fun acc nzindxA => matmatInner B (A.getCol rownum nzindxA) acc)
    ([], 0)

/-- The stripping loop of `matmat` (lines 233-246): erase every entry whose list has size 1,
decrementing the counter each time. -/
def stripSingles : StdMap (List Nat) → Nat → StdMap (List Nat) × Nat
  | [], cnt => ([], cnt)
  | (k, l) :: t, cnt =>
    if l.length = 1 then stripSingles t (cnt - 1)
    else ((k, l) :: (stripSingles t cnt).1, (stripSingles t cnt).2)

/-- One iteration of the row loop of `matmat` (lines 205-287); the state is the receiver and
the reduction variable `tmpNNZ`. -/
def matmatRow (A B : CSRMat) (st : CSRMat × Nat) (rownum : Nat) : CSRMat × Nat :=
  let Z := st.1
  let acc := matmatAccum A B rownum
  let stripped := stripSingles acc.1 acc.2
  let newNZs := stripped.1
  let cnt := stripped.2
  let Z1 : CSRMat := { Z with nnzInRow := Z.nnzInRow.set rownum cnt }
  let Z2 : CSRMat :=
    if cnt > 0 then
      { Z1 with
        cols := modifyAt (fun r => writeSeq (resize r cnt 0) 0 (newNZs.map (fun e => e.1)))
          Z1.cols rownum
        vals := modifyAt
          (fun r => writeSeq (resize r cnt 0) 0 (newNZs.map (fun e => e.2.getD 0 0)))
          Z1.vals rownum
        vals2 := modifyAt
          (fun r => writeSeq (resize r cnt 0) 0 (newNZs.map (fun e => e.2.getD 1 0)))
          Z1.vals2 rownum }
    else Z1
  (Z2, st.2 + cnt)

/-- The method `CSRMat::matmat` (lines 180-291), `self` being the receiver before the
call, an object distinct from the operands `A` and `B`, which the call reads while it writes
the receiver (for the receiver passed as `A` see `matmatAliased`). -/
def matmat (self A B : CSRMat) : CSRMat :=
  let oldM := self.m
  let m := A.getM
  let n := B.getN
  let Z0 : CSRMat :=
    if oldM ≠ m then
      { self with
        m := m
        n := n
        nnzInRow := resize self.nnzInRow m 0
        cols := resize self.cols m []
        vals := resize self.vals m []
        vals2 := resize self.vals2 m [] }
    else { self with m := m, n := n }
  let Z1 : CSRMat := { Z0 with nnz := 0 }
  let r := (List.range m).foldl (matmatRow A B) (Z1, 0)
  { r.1 with nnz := r.2 }

/-! ## The edge-list builders -/

/-- The copy loop body shared by the builders (e.g. lines 367-380): commit the entries
collected for row `rownum` (`nnzInRow[rownum] = nnzToAdd; nnz += nnzToAdd;` resize of
`cols[rownum]` and `vals[rownum]`, and the element-by-element copy). -/
def copyRow (Z : CSRMat) (rownum : Nat) (entries : List (Nat × Nat)) : CSRMat :=
  let nnzToAdd := entries.length
  { Z with
    nnzInRow := Z.nnzInRow.set rownum nnzToAdd
    nnz := Z.nnz + nnzToAdd
    cols := modifyAt (fun r => writeSeq (resize r nnzToAdd 0) 0 (entries.map (fun e => e.1)))
      Z.cols rownum
    vals := modifyAt (fun r => writeSeq (resize r nnzToAdd 0) 0 (entries.map (fun e => e.2)))
      Z.vals rownum }

/-- The allocation and copy phase of the edge-list builders (lines 354-381 and 450-477):
resize the row vectors to `m`, reset `nnz`, and copy every temporary row map. -/
def copyRowSets (Z : CSRMat) (rowSets : List (StdMap Nat)) : CSRMat :=
  let Z0 : CSRMat :=
    { Z with
      nnzInRow := resize Z.nnzInRow Z.m 0
      cols := resize Z.cols Z.m []
      vals := resize Z.vals Z.m []
      nnz := 0 }
  (List.range Z.m).foldl (fun acc rownum => copyRow acc rownum (rowSets.getD rownum [])) Z0

/-- The body of the edge loop of `readMMMatrix` (lines 322-342), vertex ids being 1-based. -/
def readMMStep (type : matrixtype) (rowSets : List (StdMap Nat)) (e : edge_t) :
    List (StdMap Nat) :=
  let tmpval := 1
  match type with
  | .UNDEFINED => modifyAt (fun s => s.assign (e.v1 - 1) tmpval) rowSets (e.v0 - 1)
  | .LOWERTRI =>
    if e.v0 > e.v1 then modifyAt (fun s => s.assign (e.v1 - 1) tmpval) rowSets (e.v0 - 1)
    else rowSets
  | .UPPERTRI =>
    if e.v0 < e.v1 then modifyAt (fun s => s.assign (e.v0 - 1) tmpval) rowSets (e.v0 - 1)
    else rowSets
  | .INCIDENCE => rowSets

/-- The method `CSRMat::readMMMatrix` (lines 296-384) after `buildEdgeListFromMM` has
delivered the vertex count and the edge list (`numEdges` is the length of the list). -/
def readMMMatrix (self : CSRMat) (numVerts : Nat) (edgeList : List edge_t) : CSRMat :=
  let Z : CSRMat := { self with m := numVerts, n := numVerts }
  let rowSets := edgeList.foldl (readMMStep Z.type) (List.replicate Z.m [])
  copyRowSets Z rowSets

/-- The body of the edge loop of `readBinMatrix` (lines 417-438), with `base = 0`. -/
def readBinStep (type : matrixtype) (rowSets : List (StdMap Nat)) (e : edge_t) :
    List (StdMap Nat) :=
  let base := 0
  let tmpval := 1
  match type with
  | .UNDEFINED =>
    modifyAt (fun s => s.assign (e.v0 - base) tmpval)
      (modifyAt (fun s => s.assign (e.v1 - base) tmpval) rowSets (e.v0 - base)) (e.v1 - base)
  | .LOWERTRI =>
    if e.v0 > e.v1 then
      modifyAt (fun s => s.assign (e.v1 - base) tmpval) rowSets (e.v0 - base)
    else rowSets
  | .UPPERTRI =>
    if e.v0 < e.v1 then
      modifyAt (fun s => s.assign (e.v0 - base) tmpval) rowSets (e.v0 - base)
    else rowSets
  | .INCIDENCE => rowSets

/-- The method `CSRMat::readBinMatrix` (lines 389-480) after `readBinEdgeFile` has delivered
the vertex count and the edge list. -/
def readBinMatrix (self : CSRMat) (numVerts : Nat) (edgeList : List edge_t) : CSRMat :=
  let Z : CSRMat := { self with m := numVerts, n := numVerts }
  let rowSets := edgeList.foldl (readBinStep Z.type) (List.replicate Z.m [])
  copyRowSets Z rowSets

/-! ## createTriMatrix -/

/-- The loop over the source entries of one row in `createTriMatrix` (lines 506-525). -/
def triRowMap (matSrc : CSRMat) (type : matrixtype) (rownum : Nat) : StdMap Nat :=
  (List.range (matSrc.getNNZInRow rownum)).foldl
    (fun nzMap nzindxSrc =>
      let colSrc := matSrc.getCol rownum nzindxSrc
      let valSrc := matSrc.getVal rownum nzindxSrc
      if type = .LOWERTRI ∧ rownum > colSrc then nzMap.assign colSrc valSrc
      else if type = .UPPERTRI ∧ rownum < colSrc then nzMap.assign colSrc valSrc
      else nzMap)
    []

/-- The method `CSRMat::createTriMatrix` (lines 485-546); `none` is a failed assertion.
The member `type` tested on lines 516 and 520 holds `mtype` since line 493. -/
def createTriMatrix (self matSrc : CSRMat) (mtype : matrixtype) : Option CSRMat :=
  let m := matSrc.getM
  let n := matSrc.getN
  if m ≠ n then none
  else if ¬ (mtype = .LOWERTRI ∨ mtype = .UPPERTRI) then none
  else
    let Z0 : CSRMat :=
      { self with
        m := m
        n := n
        type := mtype
        nnz := 0
        nnzInRow := resize self.nnzInRow m 0
        cols := resize self.cols m []
        vals := resize self.vals m [] }
    some ((List.range m).foldl
      (fun acc rownum => copyRow acc rownum (triRowMap matSrc mtype rownum)) Z0)

/-! ## createIncidentMatrix -/

/-- The body of the inner loop of the first phase of `createIncidentMatrix`
(lines 580-589); the state is `colsInRow`, `eIndices` and `eCnt`. The write
`colsInRow[colnum]` with `colnum >= m` is outside the vector in the source and leaves the
state untouched here; `incidentInBounds` says that no such write occurs. -/
def incidentStep (rownum : Nat) (st : List StdSet × StdMap (StdMap Nat) × Nat)
    (colnum : Nat) : List StdSet × StdMap (StdMap Nat) × Nat :=
  let colsInRow := st.1
  let eIndices := st.2.1
  let eCnt := st.2.2
  if rownum < colnum then
    (modifyAt (fun s => s.insert eCnt) (modifyAt (fun s => s.insert eCnt) colsInRow rownum)
        colnum,
      eIndices.assign rownum (((eIndices.find rownum).getD []).assign colnum eCnt),
      eCnt + 1)
  else st

/-- The first phase of `createIncidentMatrix` (lines 570-593). -/
def incidentScan (matSrc : CSRMat) (m : Nat) (eIndices : StdMap (StdMap Nat)) :
    List StdSet × StdMap (StdMap Nat) × Nat :=
  (List.range m).foldl
    (fun st rownum =>
      (List.range (matSrc.getNNZInRow rownum)).foldl
        (fun st2 nzindxSrc => incidentStep rownum st2 (matSrc.getCol rownum nzindxSrc))
        st)
    (List.replicate m [], eIndices, 0)

/-- The method `CSRMat::createIncidentMatrix` (lines 551-621), returning the receiver and
the index map `eIndices`; `none` is a failed assertion. -/
def createIncidentMatrix (self matSrc : CSRMat) (eIndices : StdMap (StdMap Nat)) :
    Option (CSRMat × StdMap (StdMap Nat)) :=
  let m := matSrc.getM
  if self.type ≠ .INCIDENCE then none
  else
    let Z0 : CSRMat :=
      { self with
        m := m
        nnz := 0
        nnzInRow := resize self.nnzInRow m 0
        cols := resize self.cols m []
        vals := resize self.vals m [] }
    let scan := incidentScan matSrc m eIndices
    let colsInRow := scan.1
    let Z1 : CSRMat := { Z0 with n := scan.2.2 }
    some ((List.range m).foldl
      (fun acc rownum =>
        copyRow acc rownum ((colsInRow.getD rownum []).map (fun e => (e, 1)))) Z1,
      scan.2.1)

/-! ## Specification vocabulary -/

/-- The keys of a map, in iteration order. -/
def StdMap.keys {β : Type} (mp : StdMap β) : List Nat := mp.map Prod.fst

/-- The representation invariant of a `std::map`: strictly increasing keys. -/
def StdMap.WF {β : Type} (mp : StdMap β) : Prop := mp.keys.Pairwise (· < ·)

/-- The column indices stored in row `i`, as the accessors enumerate them:
`getCol(i,0), ..., getCol(i, getNNZInRow(i)-1)`. -/
def CSRMat.rowCols (A : CSRMat) (i : Nat) : List Nat :=
  (List.range (A.getNNZInRow i)).map (A.getCol i)

/-- Row `i` of `A` stores column `j`. -/
def CSRMat.stores (A : CSRMat) (i j : Nat) : Prop := j ∈ A.rowCols i

instance (A : CSRMat) (i j : Nat) : Decidable (A.stores i j) := by
  unfold CSRMat.stores; exact inferInstance

/-- The row invariant of the data model: the row vectors have `m` entries, `cols[r]` and
`vals[r]` have `nnzInRow[r]` entries, and `nnz` is the sum of the row counts. -/
def CSRMat.RowInv (A : CSRMat) : Prop :=
  A.nnzInRow.length = A.m ∧ A.cols.length = A.m ∧ A.vals.length = A.m ∧
  (∀ r, r < A.m → (A.cols.getD r []).length = A.nnzInRow.getD r 0 ∧
    (A.vals.getD r []).length = A.nnzInRow.getD r 0) ∧
  A.nnzInRow.sum = A.nnz

instance (A : CSRMat) : Decidable A.RowInv := by
  unfold CSRMat.RowInv; exact inferInstance

/-- Every row of `A` stores pairwise distinct column indices. -/
def CSRMat.DistinctCols (A : CSRMat) : Prop := ∀ r, r < A.m → (A.rowCols r).Nodup

instance (A : CSRMat) : Decidable A.DistinctCols := by
  unfold CSRMat.DistinctCols; exact inferInstance

/-- Every column index stored in `A` is below `bound`. -/
def CSRMat.ColsBelow (A : CSRMat) (bound : Nat) : Prop :=
  ∀ r, r < A.m → ∀ c ∈ A.rowCols r, c < bound

instance (A : CSRMat) (bound : Nat) : Decidable (A.ColsBelow bound) := by
  unfold CSRMat.ColsBelow; exact inferInstance

/-- One execution of line 222 of `matmat` for the pair `p = (colB, colA)`. -/
def accStep (acc : StdMap (List Nat) × Nat) (p : Nat × Nat) : StdMap (List Nat) × Nat :=
  ((addNZ acc.1 p.1 p.2).1, acc.2 + (addNZ acc.1 p.1 p.2).2)

/-- The pairs `(colB, colA)` in the order the two nested loops of `matmat` visit them for
output row `i`. -/
def wedges (A B : CSRMat) (i : Nat) : List (Nat × Nat) :=
  (A.rowCols i).flatMap (fun k => (B.rowCols k).map (fun j => (j, k)))

/-- The intermediate indices `k`, in the order row `i` of `A` lists them, for which `(k,j)`
is stored in `B`. -/
def witnesses (A B : CSRMat) (i j : Nat) : List Nat :=
  (A.rowCols i).filter (fun k => decide (B.stores k j))

/-- The witness list a map holds for column `j` (empty when the column is absent). -/
def witOf (mp : StdMap (List Nat)) (j : Nat) : List Nat := (mp.find j).getD []

/-- The invariant of `newNZs`: sorted keys and no empty witness list. -/
def AccInv (mp : StdMap (List Nat)) : Prop :=
  mp.WF ∧ ∀ j l, mp.find j = some l → l ≠ []

/-- The map `newNZs` of output row `i` when the copy loop of `matmat` starts. -/
def newNZs (A B : CSRMat) (i : Nat) : StdMap (List Nat) :=
  (stripSingles (matmatAccum A B i).1 (matmatAccum A B i).2).1

/-- The columns committed for output row `r` of `matmat`: the keys of `newNZs`. -/
def zCols (A B : CSRMat) (r : Nat) : List Nat := (newNZs A B r).map (fun e => e.1)

/-- The first witnesses committed for output row `r` of `matmat`. -/
def zVals (A B : CSRMat) (r : Nat) : List Nat := (newNZs A B r).map (fun e => e.2.getD 0 0)

/-- The second witnesses committed for output row `r` of `matmat`. -/
def zVals2 (A B : CSRMat) (r : Nat) : List Nat := (newNZs A B r).map (fun e => e.2.getD 1 0)

/-- The witness list the accumulation loops of `matmat` build for cell `(i,j)`: the
intermediate index of every visited pair whose column is `j`, in visiting order. -/
def wedgeWitnesses (A B : CSRMat) (i j : Nat) : List Nat :=
  ((wedges A B i).filter (fun p => decide (p.1 = j))).map (fun p => p.2)

/-- The cells stored in row `i`: triples `(column, vals, vals2)` as the accessors enumerate
them. -/
def CSRMat.rowCells (Z : CSRMat) (i : Nat) : List (Nat × Nat × Nat) :=
  (List.range (Z.getNNZInRow i)).map (fun idx => (Z.getCol i idx, Z.getVal i idx, Z.getVal2 i idx))

/-- The edge list of the complete graph on the vertices 0..3 (0-based ids). -/
def k4Edges : List edge_t := [⟨1, 0⟩, ⟨2, 0⟩, ⟨2, 1⟩, ⟨3, 0⟩, ⟨3, 1⟩, ⟨3, 2⟩]

/-- The full (symmetric) adjacency matrix of the complete graph on 4 vertices, as
`readBinMatrix` builds it. -/
def k4Full : CSRMat := readBinMatrix (CSRMat.fresh .UNDEFINED) 4 k4Edges

/-- The lower-triangular adjacency matrix of the complete graph on 4 vertices, as
`createTriMatrix` builds it (the fresh receiver stands in for the unreachable failure). -/
def k4Lower : CSRMat :=
  (createTriMatrix (CSRMat.fresh .UNDEFINED) k4Full .LOWERTRI).getD (CSRMat.fresh .UNDEFINED)

/-- The lower-triangular adjacency matrix of the complete graph on the vertices 0..4, as
`readBinMatrix` builds it on a receiver of kind `LOWERTRI`. -/
def k5Lower : CSRMat :=
  readBinMatrix (CSRMat.fresh .LOWERTRI) 5
    [⟨1, 0⟩, ⟨2, 0⟩, ⟨2, 1⟩, ⟨3, 0⟩, ⟨3, 1⟩, ⟨3, 2⟩, ⟨4, 0⟩, ⟨4, 1⟩, ⟨4, 2⟩, ⟨4, 3⟩]

/-- Two vertices are adjacent in the graph a lower-triangular adjacency matrix encodes. -/
def CSRMat.adjacent (A : CSRMat) (u v : Nat) : Prop := A.stores u v ∨ A.stores v u

instance (A : CSRMat) (u v : Nat) : Decidable (A.adjacent u v) := by
  unfold CSRMat.adjacent; exact inferInstance

/-- Every stored pair `(r,c)` has `r > c`. -/
def CSRMat.LowerTri (A : CSRMat) : Prop := ∀ r, r < A.m → ∀ c ∈ A.rowCols r, c < r

instance (A : CSRMat) : Decidable A.LowerTri := by
  unfold CSRMat.LowerTri; exact inferInstance

/-- The graph encoded by `A` has no triangle. -/
def CSRMat.TriangleFree (A : CSRMat) : Prop :=
  ∀ a, a < A.m → ∀ b, b < A.m → ∀ c, c < A.m →
    ¬ (A.adjacent a b ∧ A.adjacent b c ∧ A.adjacent a c)

instance (A : CSRMat) : Decidable A.TriangleFree := by
  unfold CSRMat.TriangleFree; exact inferInstance

/-- The lower-triangular adjacency matrix of the 4-cycle 3-1-0-2-3, as `readBinMatrix`
builds it on a receiver of kind `LOWERTRI`. -/
def c4Lower : CSRMat :=
  readBinMatrix (CSRMat.fresh .LOWERTRI) 4 [⟨3, 1⟩, ⟨3, 2⟩, ⟨1, 0⟩, ⟨2, 0⟩]

/-- The incidence matrix of the complete graph on 4 vertices, as `createIncidentMatrix`
builds it with an empty index map (the fresh receiver stands in for the unreachable
failure). -/
def k4Incidence : CSRMat :=
  ((createIncidentMatrix (CSRMat.fresh .INCIDENCE) k4Full []).map (fun p => p.1)).getD
    (CSRMat.fresh .INCIDENCE)

/-- No two vertices `i`, `j` are joined by two distinct wedges `i - k1 - j` and `i - k2 - j`
stored in `A`. -/
def CSRMat.NoDoubleWedge (A : CSRMat) : Prop :=
  ∀ i, i < A.m → ∀ j, j < A.m → ∀ k1 ∈ A.rowCols i, ∀ k2 ∈ A.rowCols i,
    k1 ≠ k2 → ¬ (A.stores k1 j ∧ A.stores k2 j)

instance (A : CSRMat) : Decidable A.NoDoubleWedge := by
  unfold CSRMat.NoDoubleWedge; exact inferInstance

/-- The lower-triangular adjacency matrix of the path 0-1-2, as `readBinMatrix` builds it on
a receiver of kind `LOWERTRI`. -/
def p3Lower : CSRMat := readBinMatrix (CSRMat.fresh .LOWERTRI) 3 [⟨1, 0⟩, ⟨2, 1⟩]

/-- The row invariant of a triangle-witness matrix: the row invariant, and `vals2[r]` has
`nnzInRow[r]` entries as well. -/
def CSRMat.RowInv2 (A : CSRMat) : Prop :=
  A.RowInv ∧ A.vals2.length = A.m ∧
  ∀ r, r < A.m → (A.vals2.getD r []).length = A.nnzInRow.getD r 0

instance (A : CSRMat) : Decidable A.RowInv2 := by
  unfold CSRMat.RowInv2; exact inferInstance

/-- The vertex ids of a 1-based edge list are in range. -/
def edgesInRange1 (numVerts : Nat) (edgeList : List edge_t) : Prop :=
  ∀ e ∈ edgeList, 1 ≤ e.v0 ∧ e.v0 ≤ numVerts ∧ 1 ≤ e.v1 ∧ e.v1 ≤ numVerts

instance (numVerts : Nat) (edgeList : List edge_t) : Decidable (edgesInRange1 numVerts edgeList) := by
  unfold edgesInRange1; exact inferInstance

/-- The vertex ids of a 0-based edge list are in range. -/
def edgesInRange0 (numVerts : Nat) (edgeList : List edge_t) : Prop :=
  ∀ e ∈ edgeList, e.v0 < numVerts ∧ e.v1 < numVerts

instance (numVerts : Nat) (edgeList : List edge_t) : Decidable (edgesInRange0 numVerts edgeList) := by
  unfold edgesInRange0; exact inferInstance

/-- The `(row, column)` assignments `rowSets[row][column] = 1` one edge causes in
`readMMMatrix`, in execution order. -/
def mmPairs (type : matrixtype) (e : edge_t) : List (Nat × Nat) :=
  match type with
  | .UNDEFINED => [(e.v0 - 1, e.v1 - 1)]
  | .LOWERTRI => if e.v0 > e.v1 then [(e.v0 - 1, e.v1 - 1)] else []
  | .UPPERTRI => if e.v0 < e.v1 then [(e.v0 - 1, e.v0 - 1)] else []
  | .INCIDENCE => []

/-- The `(row, column)` assignments `rowSets[row][column] = 1` one edge causes in
`readBinMatrix`, in execution order. -/
def binPairs (type : matrixtype) (e : edge_t) : List (Nat × Nat) :=
  match type with
  | .UNDEFINED => [(e.v0, e.v1), (e.v1, e.v0)]
  | .LOWERTRI => if e.v0 > e.v1 then [(e.v0, e.v1)] else []
  | .UPPERTRI => if e.v0 < e.v1 then [(e.v0, e.v0)] else []
  | .INCIDENCE => []

/-- A run of assignments `rowSets[p.1][p.2] = 1`. -/
def assignPairs (rowSets : List (StdMap Nat)) (ps : List (Nat × Nat)) : List (StdMap Nat) :=
  ps.foldl (fun rs p => modifyAt (fun s => s.assign p.2 1) rs p.1) rowSets

/-- The number of distinct vertices `c` such that the edge list contains an edge `(v, c)`
passing the filter of the kind (`v > c` for `LOWERTRI`, `v < c` otherwise). -/
def filteredDegree (kind : matrixtype) (edgeList : List edge_t) (v : Nat) : Nat :=
  (((edgeList.filter
    (fun e => decide (e.v0 = v ∧ if kind = .LOWERTRI then e.v0 > e.v1 else e.v0 < e.v1))).map
    (fun e => e.v1)).dedup).length

/-- The entries stored in row `i`: pairs `(column, value)` as the accessors enumerate
them. -/
def CSRMat.rowEntries (Z : CSRMat) (i : Nat) : List (Nat × Nat) :=
  (List.range (Z.getNNZInRow i)).map (fun idx => (Z.getCol i idx, Z.getVal i idx))

/-- The test of lines 516 and 520 of `createTriMatrix`. -/
def triKeep (kind : matrixtype) (rownum colSrc : Nat) : Bool :=
  decide ((kind = .LOWERTRI ∧ rownum > colSrc) ∨ (kind = .UPPERTRI ∧ rownum < colSrc))

/-- A run of assignments `nzMap[e.1] = e.2`. -/
def assignAll (mp : StdMap Nat) (es : List (Nat × Nat)) : StdMap Nat :=
  es.foldl (fun acc e => acc.assign e.1 e.2) mp

/-- The stored pairs `(row, col)` of `S` with `row < col`, in the order the first phase of
`createIncidentMatrix` meets them: rows in increasing order, each row in stored order. -/
def edgePairs (S : CSRMat) : List (Nat × Nat) :=
  (List.range S.m).flatMap
    (fun r => ((S.rowCols r).filter (fun c => decide (r < c))).map (fun c => (r, c)))

/-- Lines 584-588 of `createIncidentMatrix`, executed for the pair `p = (rownum, colnum)`. -/
def incInsert (st : List StdSet × StdMap (StdMap Nat) × Nat) (p : Nat × Nat) :
    List StdSet × StdMap (StdMap Nat) × Nat :=
  (modifyAt (fun s => s.insert st.2.2) (modifyAt (fun s => s.insert st.2.2) st.1 p.1) p.2,
    st.2.1.assign p.1 (((st.2.1.find p.1).getD []).assign p.2 st.2.2),
    st.2.2 + 1)

/-! ## The dense vector and SpMV1 -/

/-- Modelled from the spec: the dense vector class `Vector` (header `Vector.h`, not part of
the sources at hand): a fixed-size array of integers, index-addressable, whose `resize`
value-initialises (zero-fills) new elements. -/
abbrev Vector := List Nat

/-- Modelled from the spec: the size query `Vector::getSize`. -/
def Vector.getSize (y : Vector) : Nat := y.length

/-- Modelled from the spec: the indexed read `Vector::operator[]`. -/
def Vector.get (y : Vector) (idx : Nat) : Nat := y.getD idx 0

/-- Modelled from the spec: the indexed write `Vector::setVal`. -/
def Vector.setVal (y : Vector) (idx val : Nat) : Vector := y.set idx val

/-- Modelled from the spec: the operation `Vector::resize`. -/
def Vector.resize (y : Vector) (size : Nat) : Vector := MiniTri.resize y size 0

/-- The body of the row loop of the transposed branch of `SpMV1` (lines 151-157): every
stored entry of row `rowID` increments `yloc` at its column. -/
def spmvRow (M : CSRMat) (yloc : Vector) (rowID : Nat) : Vector :=
  (List.range (M.nnzInRow.getD rowID 0)).foldl
    (fun yl nzindx =>
      let colA := (M.cols.getD rowID []).getD nzindx 0
      yl.setVal colA (yl.get colA + 1))
    yloc

/-- The work of one worker before the critical section (lines 146-158): its private `yloc`,
resized to `size = y.getSize()` zeros, accumulates the rows the schedule hands to it. -/
def spmvWorker (M : CSRMat) (size : Nat) (rows : List Nat) : Vector :=
  rows.foldl (spmvRow M) (Vector.resize [] size)

/-- The critical section of `SpMV1` (lines 163-166): `y[j] += yloc[j]` for every `j`. -/
def spmvMerge (y yloc : Vector) : Vector :=
  (List.range yloc.getSize).foldl (fun acc j => acc.setVal j (acc.get j + yloc.get j)) y

/-- The method `CSRMat::SpMV1` (lines 129-172).  The parallel region of the transposed branch
is described by `sched`: one list of rows per worker, the rows the dynamic schedule hands to
that worker, the workers listed in the order they enter the critical section. -/
def SpMV1 (M : CSRMat) (trans : Bool) (y : Vector) (sched : List (List Nat)) : Vector :=
  if trans = false then
    (List.range M.getM).foldl (fun acc rowID => acc.setVal rowID (M.nnzInRow.getD rowID 0)) y
  else
    sched.foldl (fun acc rows => spmvMerge acc (spmvWorker M y.getSize rows)) y

/-! ## computeKCounts -/

/-- The function `choose2` (lines 748-759) on `unsigned int`: the product `k*(k-1)` wraps
modulo `2^32`. -/
def choose2 (k : Nat) : Nat :=
  if k = 1 then 0
  else if k > 1 then (k * (k - 1)) % 2 ^ 32 / 2
  else 0

/-- The lookup `edgeInds.find(a)->second.find(b)->second` of `computeKCounts`, `none` when
one of the two `find` calls returns `end()`. -/
def edgeFind (edgeInds : StdMap (StdMap Nat)) (a b : Nat) : Option Nat :=
  (edgeInds.find a).bind (fun inner => inner.find b)

/-- The test of line 678 of `computeKCounts`, "removes redundant triangles". -/
def dedupPred (v1 v2 v3 : Nat) : Bool := decide (v1 > v2 ∧ v1 > v3)

/-- The value `tvMin` of line 684. -/
def cellTvMin (vTriDegrees : Vector) (v1 v2 v3 : Nat) : Nat :=
  min (min (vTriDegrees.get v1) (vTriDegrees.get v2)) (vTriDegrees.get v3)

/-- The three keys `(outer, inner)` of the lookups of lines 693-704, in the order `e1`,
`e2`, `e3`. -/
def cellKeys (v1 v2 v3 : Nat) : List (Nat × Nat) :=
  if v2 < v3 then [(v2, v3), (v2, v1), (v3, v1)] else [(v3, v2), (v3, v1), (v2, v1)]

/-- The value `teMin` of line 706; a lookup that misses (undefined behaviour in the source)
reads as edge id 0. -/
def cellTeMin (eTriDegrees : Vector) (edgeInds : StdMap (StdMap Nat)) (v1 v2 v3 : Nat) : Nat :=
  let e1 := (edgeFind edgeInds ((cellKeys v1 v2 v3).getD 0 (0, 0)).1
    ((cellKeys v1 v2 v3).getD 0 (0, 0)).2).getD 0
  let e2 := (edgeFind edgeInds ((cellKeys v1 v2 v3).getD 1 (0, 0)).1
    ((cellKeys v1 v2 v3).getD 1 (0, 0)).2).getD 0
  let e3 := (edgeFind edgeInds ((cellKeys v1 v2 v3).getD 2 (0, 0)).1
    ((cellKeys v1 v2 v3).getD 2 (0, 0)).2).getD 0
  min (min (eTriDegrees.get e1) (eTriDegrees.get e2)) (eTriDegrees.get e3)

/-- The two bounds tested on line 715 for level `k`. -/
def levelBound (tvMin teMin k : Nat) : Prop := tvMin ≥ choose2 (k - 1) ∧ teMin ≥ k - 2

instance (tvMin teMin k : Nat) : Decidable (levelBound tvMin teMin k) := by
  unfold levelBound; exact inferInstance

/-- The level loop of lines 713-723 from loop variable `k` and current `maxK`, with `fuel`
the number of iterations left before `k` reaches `kCounts.size()`. -/
def kLoop (tvMin teMin : Nat) : Nat → Nat → Nat → Nat
  | 0, _, maxK => maxK
  | fuel + 1, k, maxK =>
    if levelBound tvMin teMin k then kLoop tvMin teMin fuel (k + 1) k else maxK

/-- The value of `maxK` on line 724 for a histogram of `size` entries: the loop starts at
`k = 3` with `maxK = 3` and runs while `k < size`, that is `size - 3` times at most (the
`unsigned int` counter `k` does not wrap for a `size` below `2^32`). -/
def maxKFor (tvMin teMin size : Nat) : Nat := kLoop tvMin teMin (size - 3) 3 3

/-- The body of the inner loop of `computeKCounts` (lines 673-726) for the cell
`(v1, v2, v3)`: a cell passing the test of line 678 increments `localK[maxK]`. -/
def kCell (vTriDegrees eTriDegrees : Vector) (edgeInds : StdMap (StdMap Nat)) (size : Nat)
    (v1 v2 v3 : Nat) (localK : List Nat) : List Nat :=
  if dedupPred v1 v2 v3 = true then
    let tvMin := cellTvMin vTriDegrees v1 v2 v3
    let teMin := cellTeMin eTriDegrees edgeInds v1 v2 v3
    let maxK := maxKFor tvMin teMin size
    modifyAt (fun x => x + 1) localK maxK
  else localK

/-- The loop over the cells of row `rownum` in `computeKCounts` (lines 671-727). -/
def kRow (Z : CSRMat) (vTriDegrees eTriDegrees : Vector) (edgeInds : StdMap (StdMap Nat))
    (size : Nat) (localK : List Nat) (rownum : Nat) : List Nat :=
  (List.range (Z.nnzInRow.getD rownum 0)).foldl
    (fun lk nzIdx =>
      kCell vTriDegrees eTriDegrees edgeInds size rownum
        ((Z.vals.getD rownum []).getD nzIdx 0) ((Z.vals2.getD rownum []).getD nzIdx 0) lk)
    localK

/-- The work of one worker of `computeKCounts` before the critical section
(lines 666-728): its private `localK`, resized to `size = kCounts.size()` zeros, accumulates
the rows the schedule hands to it. -/
def kWorker (Z : CSRMat) (vTriDegrees eTriDegrees : Vector) (edgeInds : StdMap (StdMap Nat))
    (size : Nat) (rows : List Nat) : List Nat :=
  rows.foldl (kRow Z vTriDegrees eTriDegrees edgeInds size) (resize [] size 0)

/-- The critical section of `computeKCounts` (lines 733-736): `kCounts[j] += localK[j]`. -/
def kMerge (kCounts localK : List Nat) : List Nat :=
  (List.range localK.length).foldl (fun acc j => acc.set j (acc.getD j 0 + localK.getD j 0))
    kCounts

/-- The method `CSRMat::computeKCounts` (lines 655-742), returning `kCounts`.  The parallel
region is described by `sched` as for `SpMV1`. -/
def computeKCounts (Z : CSRMat) (vTriDegrees eTriDegrees : Vector)
    (edgeInds : StdMap (StdMap Nat)) (kCounts : List Nat) (sched : List (List Nat)) :
    List Nat :=
  sched.foldl
    (fun acc rows =>
      kMerge acc (kWorker Z vTriDegrees eTriDegrees edgeInds kCounts.length rows))
    kCounts

/-- The edge list of the triangle on the vertices 0, 1, 2 (0-based ids). -/
def k3Edges : List edge_t := [⟨1, 0⟩, ⟨2, 0⟩, ⟨2, 1⟩]

/-- The full adjacency matrix of the triangle, as `readBinMatrix` builds it. -/
def k3Full : CSRMat := readBinMatrix (CSRMat.fresh .UNDEFINED) 3 k3Edges

/-- The lower-triangular adjacency matrix of the triangle, as `createTriMatrix` builds it. -/
def k3Lower : CSRMat :=
  (createTriMatrix (CSRMat.fresh .UNDEFINED) k3Full .LOWERTRI).getD (CSRMat.fresh .UNDEFINED)

/-- The incidence matrix of the triangle, as `createIncidentMatrix` builds it. -/
def k3Incidence : CSRMat :=
  ((createIncidentMatrix (CSRMat.fresh .INCIDENCE) k3Full []).map (fun p => p.1)).getD
    (CSRMat.fresh .INCIDENCE)

/-- The incidence index of the triangle, as `createIncidentMatrix` builds it from an empty
map. -/
def k3Index : StdMap (StdMap Nat) :=
  ((createIncidentMatrix (CSRMat.fresh .INCIDENCE) k3Full []).map (fun p => p.2)).getD []

/-- The triangle-witness matrix of the triangle: `matmat(L, B)` on a fresh receiver. -/
def k3Witness : CSRMat := matmat (CSRMat.fresh .UNDEFINED) k3Lower k3Incidence

/-- The number of stored entries with column index `c` in the rows listed in `rows`. -/
def colCountIn (M : CSRMat) (rows : List Nat) (c : Nat) : Nat :=
  (rows.map (fun r => (M.rowCols r).count c)).sum

/-- The number of stored entries of `M` whose column index is `c`. -/
def colCount (M : CSRMat) (c : Nat) : Nat := colCountIn M (List.range M.m) c

/-- A schedule hands every row `0..m-1` to exactly one worker. -/
def IsSchedule (m : Nat) (sched : List (List Nat)) : Prop := sched.flatten.Perm (List.range m)

instance (m : Nat) (sched : List (List Nat)) : Decidable (IsSchedule m sched) := by
  unfold IsSchedule; exact inferInstance

/-- The witness pairs `(vals, vals2)` of the cells stored in row `r`, in stored order. -/
def CSRMat.rowWitnesses (Z : CSRMat) (r : Nat) : List (Nat × Nat) :=
  (List.range (Z.getNNZInRow r)).map (fun idx => (Z.getVal r idx, Z.getVal2 r idx))

/-- The number of cells of row `r` that pass the test of line 678 of `computeKCounts`. -/
def passCount (Z : CSRMat) (r : Nat) : Nat :=
  ((Z.rowWitnesses r).filter (fun p => dedupPred r p.1 p.2)).length

/-- A witness matrix holding, over all its rows, exactly the three row-perspective cells of
the triangle `a`, `b`, `c`: row `a` with witnesses `b, c`, row `b` with witnesses `a, c` and
row `c` with witnesses `a, b`. -/
def HoldsTriangle (Z : CSRMat) (a b c : Nat) : Prop :=
  a < Z.m ∧ b < Z.m ∧ c < Z.m ∧
  ∀ r, r < Z.m → Z.rowWitnesses r =
    if r = a then [(b, c)] else if r = b then [(a, c)] else if r = c then [(a, b)] else []

instance (Z : CSRMat) (a b c : Nat) : Decidable (HoldsTriangle Z a b c) := by
  unfold HoldsTriangle; exact inferInstance

/-- A witness matrix with three rows holding the three row-perspective cells of the triangle
0, 1, 2 (all at column 0). -/
def threeCells : CSRMat :=
  { type := .UNDEFINED, m := 3, n := 3, nnz := 3, nnzInRow := [1, 1, 1],
    cols := [[0], [0], [0]], vals := [[1], [0], [0]], vals2 := [[2], [2], [1]] }

/-- Every row of `A` stores its column indices in strictly increasing order. -/
def CSRMat.SortedRows (A : CSRMat) : Prop := ∀ r, r < A.m → (A.rowCols r).Pairwise (· < ·)

instance (A : CSRMat) : Decidable A.SortedRows := by
  unfold CSRMat.SortedRows; exact inferInstance

/-- Structural symmetry of a square matrix: every stored pair `(r,c)` has `c` a row index and
the pair `(c,r)` stored too, so that `S` is the adjacency matrix of an undirected graph on
the vertices `0..m-1`. -/
def CSRMat.StructSymmetric (S : CSRMat) : Prop :=
  ∀ r, r < S.m → ∀ c ∈ S.rowCols r, c < S.m ∧ S.stores c r

instance (S : CSRMat) : Decidable S.StructSymmetric := by
  unfold CSRMat.StructSymmetric; exact inferInstance

/-- The vertices `a < b < c` form a triangle of the graph whose adjacency matrix is `S`. -/
def CSRMat.IsTriangle (S : CSRMat) (a b c : Nat) : Prop :=
  a < b ∧ b < c ∧ c < S.m ∧ S.stores a b ∧ S.stores a c ∧ S.stores b c

instance (S : CSRMat) (a b c : Nat) : Decidable (S.IsTriangle a b c) := by
  unfold CSRMat.IsTriangle; exact inferInstance

/-- The triangles of `S` whose largest vertex is `c`, each listed once as the pair `(a, b)`
of its two smaller vertices. -/
def trianglesAt (S : CSRMat) (c : Nat) : List (Nat × Nat) :=
  (List.range c).flatMap
    (fun b => ((List.range b).filter (fun a => decide (S.IsTriangle a b c))).map
      (fun a => (a, b)))

/-- The number of triangles of the graph whose adjacency matrix is `S`. -/
def numTriangles (S : CSRMat) : Nat :=
  ((List.range S.m).map (fun c => (trianglesAt S c).length)).sum

/-! ## Outcomes of the asserting operations -/

/-- The ways a call of `createTriMatrix` or `createIncidentMatrix` can end: an `assert`
aborts the program, a vector is subscripted outside its bounds (undefined behaviour in the
source), or the call returns with its result. -/
inductive Outcome (α : Type) where
  | assertFailed : Outcome α
  | outOfBounds : Outcome α
  | completed : α → Outcome α
  deriving DecidableEq

/-- Every read of the source matrix made by the row loops of `createTriMatrix` (lines
508-513) and `createIncidentMatrix` (lines 576-580) subscripts a vector within its bounds:
`getNNZInRow(rownum)` reads `nnzInRow[rownum]` for `rownum < m`, `getCol(rownum, nzindxSrc)`
reads `cols[rownum][nzindxSrc]` for `nzindxSrc < nnzInRow[rownum]`, and, when `withVals`,
`getVal(rownum, nzindxSrc)` reads `vals[rownum][nzindxSrc]`. -/
def CSRMat.readsInBounds (matSrc : CSRMat) (withVals : Bool) : Prop :=
  ∀ rownum, rownum < matSrc.getM →
    rownum < matSrc.nnzInRow.length ∧
    ∀ nzindxSrc, nzindxSrc < matSrc.getNNZInRow rownum →
      (rownum < matSrc.cols.length ∧ nzindxSrc < (matSrc.cols.getD rownum []).length) ∧
      (withVals = true →
        rownum < matSrc.vals.length ∧ nzindxSrc < (matSrc.vals.getD rownum []).length)

instance (matSrc : CSRMat) (withVals : Bool) : Decidable (matSrc.readsInBounds withVals) := by
  unfold CSRMat.readsInBounds; exact inferInstance

/-- Every subscript `colsInRow[colnum]` of line 585 of `createIncidentMatrix` is within the
vector of `m` sets declared on line 570; the subscript `colsInRow[rownum]` of line 584 always
is, since `rownum < m`. -/
def incidentInBounds (matSrc : CSRMat) : Prop :=
  ∀ rownum, rownum < matSrc.getM →
    ∀ nzindxSrc, nzindxSrc < matSrc.getNNZInRow rownum →
      rownum < matSrc.getCol rownum nzindxSrc → matSrc.getCol rownum nzindxSrc < matSrc.getM

instance (matSrc : CSRMat) : Decidable (incidentInBounds matSrc) := by
  unfold incidentInBounds; exact inferInstance

/-- A call of `createTriMatrix` with its outcome, the receiver being an object distinct from
`matSrc`. The assertions of lines 491-492 come before every subscript; the receiver's vectors
are resized to `m` (lines 499-501) and each row to `nnzToAdd` (lines 532-533) before they are
written, so the only subscripts that can leave a vector are the reads of the source. -/
def createTriMatrixRun (self matSrc : CSRMat) (mtype : matrixtype) : Outcome CSRMat :=
  match createTriMatrix self matSrc mtype with
  | none => .assertFailed
  | some Z => if matSrc.readsInBounds true then .completed Z else .outOfBounds

/-- A call of `createIncidentMatrix` with its outcome, the receiver being an object distinct
from `matSrc`. The assertion of line 556 comes before every subscript; the subscripts that
can leave a vector are the reads of the source and `colsInRow[colnum]` on line 585, the
receiver's vectors being resized before they are written (lines 562-564 and 606-607). -/
def createIncidentMatrixRun (self matSrc : CSRMat) (eIndices : StdMap (StdMap Nat)) :
    Outcome (CSRMat × StdMap (StdMap Nat)) :=
  match createIncidentMatrix self matSrc eIndices with
  | none => .assertFailed
  | some r =>
    if matSrc.readsInBounds false ∧ incidentInBounds matSrc then .completed r
    else .outOfBounds

/-- One iteration of the row loop of `matmat` in the call `Z.matmat(Z, B)`, where the
receiver is also the operand `A` and `B` is a distinct object: line 207 has set
`nnzInRow[rownum]` to 0 when line 210 reads it through `A.getNNZInRow(rownum)`, and row
`rownum` of the receiver is not written again before the loop over `nzindxA` has ended. -/
def matmatRowAliased (B : CSRMat) (st : CSRMat × Nat) (rownum : Nat) : CSRMat × Nat :=
  matmatRow { st.1 with nnzInRow := st.1.nnzInRow.set rownum 0 } B st rownum

/-- The call `Z.matmat(Z, B)` of `CSRMat::matmat` (lines 180-291), `self` being `Z` before
the call and `B` a distinct object: `m = A.getM()` leaves `m` as it was, so `oldM == m` and
no vector is resized. -/
def matmatAliased (self B : CSRMat) : CSRMat :=
  let m := self.getM
  let n := B.getN
  let Z0 : CSRMat := { self with m := m, n := n }
  let Z1 : CSRMat := { Z0 with nnz := 0 }
  let r := (List.range m).foldl (matmatRowAliased B) (Z1, 0)
  { r.1 with nnz := r.2 }

/-! # Proofs -/

/-! ### Vectors -/

theorem resize_length {α : Type} (v : List α) (k : Nat) (d : α) : (resize v k d).length = k := by
  simp [resize]; omega

theorem resize_nil {α : Type} (k : Nat) (d : α) : resize ([] : List α) k d = List.replicate k d := by
  simp [resize]

theorem writeSeq_length {α : Type} (xs : List α) : ∀ (buf : List α) (k : Nat),
    (writeSeq buf k xs).length = buf.length := by
  induction xs with
  | nil => intro buf k; rfl
  | cons x xs ih => intro buf k; simp [writeSeq, ih]

theorem writeSeq_eq {α : Type} (xs : List α) : ∀ (buf : List α) (k : Nat),
    k + xs.length = buf.length → writeSeq buf k xs = buf.take k ++ xs := by
  induction xs with
  | nil => intro buf k h; simp at h; simp [writeSeq, h]
  | cons x xs ih =>
    intro buf k h
    simp only [List.length_cons] at h
    rw [writeSeq, ih (buf.set k x) (k + 1) (by simp; omega)]
    have hk : k < buf.length := by omega
    rw [List.take_succ]
    simp [List.getElem?_set, hk, List.take_set_of_lt]
    rw [List.set_take]; exact List.set_eq_of_length_le (by simp)

theorem writeSeq_resize {α : Type} (r xs : List α) (d : α) :
    writeSeq (resize r xs.length d) 0 xs = xs := by
  rw [writeSeq_eq _ _ _ (by simp [resize_length])]; simp

theorem modifyAt_length {α : Type} (f : α → α) : ∀ (l : List α) (i : Nat),
    (modifyAt f l i).length = l.length := by
  intro l
  induction l with
  | nil => intro i; rfl
  | cons x xs ih => intro i; cases i <;> simp [modifyAt, ih]

theorem getElem?_modifyAt {α : Type} (f : α → α) : ∀ (l : List α) (i j : Nat),
    (modifyAt f l i)[j]? = if j = i then l[i]?.map f else l[j]? := by
  intro l
  induction l with
  | nil => intro i j; simp [modifyAt]
  | cons x xs ih =>
    intro i j
    cases i with
    | zero => cases j <;> simp [modifyAt]
    | succ i => cases j <;> simp [modifyAt, ih]

theorem set_eq_modifyAt {α : Type} (v : α) : ∀ (l : List α) (i : Nat),
    l.set i v = modifyAt (fun _ => v) l i := by
  intro l
  induction l with
  | nil => intro i; rfl
  | cons x xs ih => intro i; cases i <;> simp [modifyAt, ih]

theorem foldl_modifyAt_range {α : Type} (g : Nat → α → α) (m : Nat) (l0 : List α) (i : Nat) :
    ((List.range m).foldl (fun l r => modifyAt (g r) l r) l0)[i]? =
      if i < m then l0[i]?.map (g i) else l0[i]? := by
  induction m generalizing i with
  | zero => simp
  | succ m ih =>
    rw [List.range_succ, List.foldl_append]
    simp only [List.foldl_cons, List.foldl_nil]
    simp only [getElem?_modifyAt, ih]
    by_cases h1 : i = m
    · subst h1; simp
    · by_cases h2 : i < m
      · simp [h1, h2, Nat.lt_succ_of_lt h2]
      · have : ¬ i < m + 1 := by omega
        simp [h1, h2, this]

theorem foldl_modifyAt_range_length {α : Type} (g : Nat → α → α) (m : Nat) (l0 : List α) :
    ((List.range m).foldl (fun l r => modifyAt (g r) l r) l0).length = l0.length := by
  induction m with
  | zero => simp
  | succ m ih =>
    rw [List.range_succ, List.foldl_append]
    simp only [List.foldl_cons, List.foldl_nil, modifyAt_length, ih]

theorem foldl_modifyAt_range_eq {α : Type} (g : Nat → α → α) (m : Nat) (l0 : List α) (d : α)
    (h : l0.length = m) :
    (List.range m).foldl (fun l r => modifyAt (g r) l r) l0 =
      (List.range m).map (fun r => g r (l0.getD r d)) := by
  apply List.ext_getElem?
  intro i
  rw [foldl_modifyAt_range]
  by_cases hi : i < m
  · have hi2 : i < l0.length := by omega
    simp [hi, List.getElem?_range, List.getD_eq_getElem?_getD, List.getElem?_eq_getElem hi2]
  · have hi2 : l0.length ≤ i := by omega
    have hi3 : (List.range m).length ≤ i := by simp; omega
    simp [hi, List.getElem?_eq_none hi2, List.getElem?_eq_none hi3]

/-! ### Ordered maps and sets -/

theorem StdMap.find_insert_of_none {β : Type} (mp : StdMap β) (k : Nat) (v : β) (j : Nat)
    (h : mp.find k = none) :
    (mp.insert k v).find j = if j = k then some v else mp.find j := by
  induction mp with
  | nil => simp [StdMap.insert, StdMap.find]
  | cons e t ih =>
    obtain ⟨k0, v0⟩ := e
    simp only [StdMap.find] at h
    by_cases hk : k = k0
    · simp [hk] at h
    · simp only [hk, if_false] at h
      simp only [StdMap.insert]
      by_cases hlt : k < k0
      · simp [hlt, StdMap.find]
      · simp only [hlt, hk, if_false, StdMap.find, ih h]
        by_cases hj : j = k0
        · have : j ≠ k := by omega
          simp [hj, Ne.symm hk]
        · simp [hj]

theorem StdMap.find_modify {β : Type} (mp : StdMap β) (k : Nat) (f : β → β) (j : Nat) :
    (mp.modify k f).find j = if j = k then (mp.find k).map f else mp.find j := by
  induction mp with
  | nil => simp [StdMap.modify, StdMap.find]
  | cons e t ih =>
    obtain ⟨k0, v0⟩ := e
    simp only [StdMap.modify]
    by_cases hk : k = k0
    · subst hk
      by_cases hj : j = k <;> simp [StdMap.find, hj]
    · simp only [hk, if_false, StdMap.find, ih]
      by_cases hj : j = k0
      · have : j ≠ k := fun h => hk (h ▸ hj)
        simp [hj, Ne.symm hk]
      · simp [hj]

theorem StdMap.find_assign {β : Type} (mp : StdMap β) (k : Nat) (v : β) (j : Nat) :
    (mp.assign k v).find j = if j = k then some v else mp.find j := by
  induction mp with
  | nil => simp [StdMap.assign, StdMap.find]
  | cons e t ih =>
    obtain ⟨k0, v0⟩ := e
    simp only [StdMap.assign]
    by_cases hlt : k < k0
    · simp [hlt, StdMap.find]
    · by_cases hk : k = k0
      · subst hk
        by_cases hj : j = k <;> simp [StdMap.find, hj]
      · simp only [hlt, hk, if_false, StdMap.find, ih]
        by_cases hj : j = k0
        · simp [hj, Ne.symm hk]
        · simp [hj]

theorem StdMap.mem_keys_iff {β : Type} (mp : StdMap β) (k : Nat) :
    k ∈ mp.keys ↔ (mp.find k).isSome = true := by
  induction mp with
  | nil => simp [StdMap.keys, StdMap.find]
  | cons e t ih =>
    obtain ⟨k0, v0⟩ := e
    simp only [StdMap.keys, List.map_cons, List.mem_cons, StdMap.find] at ih ⊢
    by_cases hk : k = k0
    · simp [hk]
    · simp [hk, ih]

theorem StdMap.keys_modify {β : Type} (mp : StdMap β) (k : Nat) (f : β → β) :
    (mp.modify k f).keys = mp.keys := by
  induction mp with
  | nil => rfl
  | cons e t ih =>
    obtain ⟨k0, v0⟩ := e
    simp only [StdMap.modify]
    by_cases hk : k = k0
    · simp [hk, StdMap.keys]
    · simp only [StdMap.keys] at ih
      simp [hk, StdMap.keys, ih]

theorem StdMap.mem_keys_insert {β : Type} (mp : StdMap β) (k : Nat) (v : β) (x : Nat) :
    x ∈ (mp.insert k v).keys ↔ x = k ∨ x ∈ mp.keys := by
  induction mp with
  | nil => simp [StdMap.insert, StdMap.keys]
  | cons e t ih =>
    obtain ⟨k0, v0⟩ := e
    simp only [StdMap.insert]
    simp only [StdMap.keys] at ih
    by_cases hlt : k < k0
    · simp [hlt, StdMap.keys]
    · by_cases hk : k = k0
      · simp [hk, StdMap.keys]
      · simp only [hlt, hk, if_false, StdMap.keys, List.map_cons, List.mem_cons, ih]
        tauto

theorem StdMap.mem_keys_assign {β : Type} (mp : StdMap β) (k : Nat) (v : β) (x : Nat) :
    x ∈ (mp.assign k v).keys ↔ x = k ∨ x ∈ mp.keys := by
  simp only [StdMap.mem_keys_iff, StdMap.find_assign]
  by_cases h : x = k <;> simp [h]

theorem StdMap.WF_insert {β : Type} (mp : StdMap β) (k : Nat) (v : β) (h : mp.WF) :
    (mp.insert k v).WF := by
  induction mp with
  | nil => simp [StdMap.insert, StdMap.WF, StdMap.keys]
  | cons e t ih =>
    obtain ⟨k0, v0⟩ := e
    have ht : StdMap.WF t := by
      simp only [StdMap.WF, StdMap.keys, List.map_cons, List.pairwise_cons] at h ⊢
      exact h.2
    have hhd : ∀ x ∈ StdMap.keys t, k0 < x := by
      simp only [StdMap.WF, StdMap.keys, List.map_cons, List.pairwise_cons] at h ⊢
      exact h.1
    simp only [StdMap.insert]
    by_cases hlt : k < k0
    · simp only [hlt, if_true]
      show (StdMap.keys ((k, v) :: (k0, v0) :: t)).Pairwise (· < ·)
      rw [show StdMap.keys ((k, v) :: (k0, v0) :: t) = k :: StdMap.keys ((k0, v0) :: t) from rfl,
        List.pairwise_cons]
      refine ⟨?_, h⟩
      intro x hx
      rw [show StdMap.keys ((k0, v0) :: t) = k0 :: StdMap.keys t from rfl] at hx
      simp only [List.mem_cons] at hx
      rcases hx with rfl | hx
      · exact hlt
      · exact lt_trans hlt (hhd x hx)
    · by_cases hk : k = k0
      · simpa [hlt, hk] using h
      · simp only [hlt, hk, if_false]
        have := ih ht
        show (StdMap.keys ((k0, v0) :: StdMap.insert t k v)).Pairwise (· < ·)
        rw [show StdMap.keys ((k0, v0) :: StdMap.insert t k v) = k0 :: StdMap.keys (StdMap.insert t k v)
          from rfl, List.pairwise_cons]
        refine ⟨?_, this⟩
        intro x hx
        rcases (StdMap.mem_keys_insert t k v x).1 hx with rfl | hx
        · omega
        · exact hhd x hx

theorem StdMap.WF_assign {β : Type} (mp : StdMap β) (k : Nat) (v : β) (h : mp.WF) :
    (mp.assign k v).WF := by
  induction mp with
  | nil => simp [StdMap.assign, StdMap.WF, StdMap.keys]
  | cons e t ih =>
    obtain ⟨k0, v0⟩ := e
    have ht : StdMap.WF t := by
      simp only [StdMap.WF, StdMap.keys, List.map_cons, List.pairwise_cons] at h ⊢
      exact h.2
    have hhd : ∀ x ∈ StdMap.keys t, k0 < x := by
      simp only [StdMap.WF, StdMap.keys, List.map_cons, List.pairwise_cons] at h ⊢
      exact h.1
    simp only [StdMap.assign]
    by_cases hlt : k < k0
    · simp only [hlt, if_true]
      show (StdMap.keys ((k, v) :: (k0, v0) :: t)).Pairwise (· < ·)
      rw [show StdMap.keys ((k, v) :: (k0, v0) :: t) = k :: StdMap.keys ((k0, v0) :: t) from rfl,
        List.pairwise_cons]
      refine ⟨?_, h⟩
      intro x hx
      rw [show StdMap.keys ((k0, v0) :: t) = k0 :: StdMap.keys t from rfl] at hx
      simp only [List.mem_cons] at hx
      rcases hx with rfl | hx
      · exact hlt
      · exact lt_trans hlt (hhd x hx)
    · by_cases hk : k = k0
      · simpa [hlt, hk, StdMap.WF, StdMap.keys] using h
      · simp only [hlt, hk, if_false]
        have := ih ht
        show (StdMap.keys ((k0, v0) :: StdMap.assign t k v)).Pairwise (· < ·)
        rw [show StdMap.keys ((k0, v0) :: StdMap.assign t k v) = k0 :: StdMap.keys (StdMap.assign t k v)
          from rfl, List.pairwise_cons]
        refine ⟨?_, this⟩
        intro x hx
        rcases (StdMap.mem_keys_assign t k v x).1 hx with rfl | hx
        · omega
        · exact hhd x hx

theorem StdMap.WF_modify {β : Type} (mp : StdMap β) (k : Nat) (f : β → β) (h : mp.WF) :
    (mp.modify k f).WF := by
  simpa [StdMap.WF, StdMap.keys_modify] using h

theorem StdMap.length_insert_of_none {β : Type} (mp : StdMap β) (k : Nat) (v : β)
    (h : mp.find k = none) : (mp.insert k v).length = mp.length + 1 := by
  induction mp with
  | nil => simp [StdMap.insert]
  | cons e t ih =>
    obtain ⟨k0, v0⟩ := e
    simp only [StdMap.find] at h
    by_cases hk : k = k0
    · simp [hk] at h
    · simp only [hk, if_false] at h
      simp only [StdMap.insert]
      by_cases hlt : k < k0
      · simp [hlt]
      · simp [hlt, hk, ih h]

theorem StdMap.length_modify {β : Type} (mp : StdMap β) (k : Nat) (f : β → β) :
    (mp.modify k f).length = mp.length := by
  have := congrArg List.length (StdMap.keys_modify mp k f)
  simpa [StdMap.keys] using this

theorem StdMap.mem_iff_find {β : Type} (mp : StdMap β) (h : mp.WF) (k : Nat) (v : β) :
    (k, v) ∈ mp ↔ mp.find k = some v := by
  induction mp with
  | nil => simp [StdMap.find]
  | cons e t ih =>
    obtain ⟨k0, v0⟩ := e
    have ht : StdMap.WF t := by
      simp only [StdMap.WF, StdMap.keys, List.map_cons, List.pairwise_cons] at h ⊢
      exact h.2
    have hhd : ∀ x ∈ StdMap.keys t, k0 < x := by
      simp only [StdMap.WF, StdMap.keys, List.map_cons, List.pairwise_cons] at h ⊢
      exact h.1
    simp only [List.mem_cons, Prod.mk.injEq, StdMap.find]
    by_cases hk : k = k0
    · subst hk
      simp only [true_and, if_true, Option.some.injEq]
      constructor
      · rintro (rfl | hmem)
        · rfl
        · have : k ∈ StdMap.keys t := List.mem_map.2 ⟨(k, v), hmem, rfl⟩
          exact absurd (hhd k this) (lt_irrefl _)
      · intro h1; exact Or.inl h1.symm
    · simp [hk, ih ht]

/-! ### The accumulation loops of matmat -/

theorem matmatInner_eq (B : CSRMat) (k : Nat) (st : StdMap (List Nat) × Nat) :
    matmatInner B k st = ((B.rowCols k).map (fun j => (j, k))).foldl accStep st := by
  simp only [matmatInner, CSRMat.rowCols, List.foldl_map, accStep]

theorem matmatAccum_eq (A B : CSRMat) (i : Nat) :
    matmatAccum A B i = (wedges A B i).foldl accStep ([], 0) := by
  simp only [matmatAccum, wedges, CSRMat.rowCols, List.flatMap_def, List.foldl_flatten,
    List.foldl_map, matmatInner_eq]

theorem addNZ_witOf (mp : StdMap (List Nat)) (j k x : Nat) :
    witOf (addNZ mp j k).1 x = if x = j then witOf mp j ++ [k] else witOf mp x := by
  unfold addNZ witOf
  cases h : mp.find j with
  | none =>
    simp only [StdMap.find_insert_of_none mp j [k] x h]
    by_cases hx : x = j <;> simp [hx]
  | some l =>
    simp only [StdMap.find_modify, h]
    by_cases hx : x = j <;> simp [hx]

theorem addNZ_inv (mp : StdMap (List Nat)) (j k : Nat) (h : AccInv mp) :
    AccInv (addNZ mp j k).1 := by
  unfold addNZ
  cases hf : mp.find j with
  | none =>
    refine ⟨StdMap.WF_insert mp j [k] h.1, ?_⟩
    intro x l hx
    rw [StdMap.find_insert_of_none mp j [k] x hf] at hx
    by_cases hxj : x = j
    · simp [hxj] at hx; simp [← hx]
    · simp only [hxj, if_false] at hx; exact h.2 x l hx
  | some l0 =>
    refine ⟨StdMap.WF_modify mp j _ h.1, ?_⟩
    intro x l hx
    rw [StdMap.find_modify] at hx
    by_cases hxj : x = j
    · simp [hxj, hf] at hx; simp [← hx]
    · simp only [hxj, if_false] at hx; exact h.2 x l hx

theorem addNZ_length (mp : StdMap (List Nat)) (j k : Nat) :
    (addNZ mp j k).1.length = mp.length + (addNZ mp j k).2 := by
  unfold addNZ
  cases hf : mp.find j with
  | none => simp [StdMap.length_insert_of_none mp j [k] hf]
  | some l0 => simp [StdMap.length_modify]

theorem foldl_accStep_inv (ps : List (Nat × Nat)) (acc : StdMap (List Nat) × Nat)
    (h : AccInv acc.1) : AccInv (ps.foldl accStep acc).1 := by
  induction ps generalizing acc with
  | nil => exact h
  | cons p ps ih => exact ih _ (addNZ_inv acc.1 p.1 p.2 h)

theorem foldl_accStep_witOf (ps : List (Nat × Nat)) (acc : StdMap (List Nat) × Nat) (j : Nat) :
    witOf (ps.foldl accStep acc).1 j =
      witOf acc.1 j ++ (ps.filter (fun p => decide (p.1 = j))).map (fun p => p.2) := by
  induction ps generalizing acc with
  | nil => simp
  | cons p ps ih =>
    rw [List.foldl_cons, ih]
    simp only [accStep, addNZ_witOf]
    by_cases hp : p.1 = j
    · simp [hp, List.filter_cons]
    · have : ¬ j = p.1 := fun h => hp h.symm
      simp [hp, this, List.filter_cons]

theorem foldl_accStep_count (ps : List (Nat × Nat)) (acc : StdMap (List Nat) × Nat) :
    (ps.foldl accStep acc).2 + acc.1.length = acc.2 + (ps.foldl accStep acc).1.length := by
  induction ps generalizing acc with
  | nil => simp
  | cons p ps ih =>
    rw [List.foldl_cons]
    have h1 := ih (accStep acc p)
    have h2 := addNZ_length acc.1 p.1 p.2
    simp only [accStep] at h1 h2 ⊢
    omega

theorem AccInv_nil : AccInv [] := by
  refine ⟨by simp [StdMap.WF, StdMap.keys], ?_⟩
  intro j l h
  simp [StdMap.find] at h

theorem matmatAccum_inv (A B : CSRMat) (i : Nat) : AccInv (matmatAccum A B i).1 := by
  rw [matmatAccum_eq]; exact foldl_accStep_inv _ _ AccInv_nil

theorem matmatAccum_witOf (A B : CSRMat) (i j : Nat) :
    witOf (matmatAccum A B i).1 j =
      ((wedges A B i).filter (fun p => decide (p.1 = j))).map (fun p => p.2) := by
  rw [matmatAccum_eq, foldl_accStep_witOf]; simp [witOf, StdMap.find]

/-- The counter `nnzInRow[rownum]` equals the size of `newNZs` when the stripping loop
starts. -/
theorem matmatAccum_count (A B : CSRMat) (i : Nat) :
    (matmatAccum A B i).2 = (matmatAccum A B i).1.length := by
  have := foldl_accStep_count (wedges A B i) ([], 0)
  rw [← matmatAccum_eq] at this
  simpa using this

theorem stripSingles_fst (mp : StdMap (List Nat)) (cnt : Nat) :
    (stripSingles mp cnt).1 = mp.filter (fun e => decide (e.2.length ≠ 1)) := by
  induction mp generalizing cnt with
  | nil => rfl
  | cons e t ih =>
    obtain ⟨k, l⟩ := e
    simp only [stripSingles]
    by_cases h : l.length = 1
    · simp [h, ih, List.filter_cons]
    · simp [h, ih, List.filter_cons]

/-- The decrement of the stripping loop is never applied to a zero counter: started with the
size of the map, the counter ends as the size of the stripped map. -/
theorem stripSingles_count (mp : StdMap (List Nat)) (cnt : Nat) (h : mp.length ≤ cnt) :
    (stripSingles mp cnt).2 + mp.length = cnt + (stripSingles mp cnt).1.length := by
  induction mp generalizing cnt with
  | nil => simp [stripSingles]
  | cons e t ih =>
    obtain ⟨k, l⟩ := e
    simp only [List.length_cons] at h
    simp only [stripSingles]
    by_cases hl : l.length = 1
    · have := ih (cnt - 1) (by omega)
      simp only [hl, if_true, List.length_cons]
      omega
    · have := ih cnt (by omega)
      simp only [hl, if_false, List.length_cons]
      omega

theorem newNZs_count (A B : CSRMat) (i : Nat) :
    (stripSingles (matmatAccum A B i).1 (matmatAccum A B i).2).2 = (newNZs A B i).length := by
  have := stripSingles_count (matmatAccum A B i).1 (matmatAccum A B i).2
    (by rw [matmatAccum_count])
  rw [matmatAccum_count] at this ⊢
  simp only [newNZs]
  rw [matmatAccum_count]
  omega

/-! ### The row loop of matmat -/

theorem modifyAt_id {α : Type} : ∀ (l : List α) (i : Nat), modifyAt (fun x => x) l i = l := by
  intro l
  induction l with
  | nil => intro i; rfl
  | cons x xs ih => intro i; cases i <;> simp [modifyAt, ih]

theorem matmatRow_eq (A B : CSRMat) (Z : CSRMat) (t r : Nat) :
    matmatRow A B (Z, t) r =
      ({ Z with
          nnzInRow := modifyAt (fun _ => (newNZs A B r).length) Z.nnzInRow r
          cols := modifyAt (fun old => if 0 < (newNZs A B r).length then zCols A B r else old)
            Z.cols r
          vals := modifyAt (fun old => if 0 < (newNZs A B r).length then zVals A B r else old)
            Z.vals r
          vals2 := modifyAt
            (fun old => if 0 < (newNZs A B r).length then zVals2 A B r else old) Z.vals2 r },
        t + (newNZs A B r).length) := by
  have hc := newNZs_count A B r
  simp only [matmatRow, hc, set_eq_modifyAt]
  by_cases h : 0 < (newNZs A B r).length
  · have e1 : ∀ old : List Nat, writeSeq (resize old (newNZs A B r).length 0) 0
        (List.map (fun e => e.1) (newNZs A B r)) = zCols A B r := by
      intro old
      have := writeSeq_resize old (List.map (fun e => e.1) (newNZs A B r)) 0
      simpa [zCols] using this
    have e2 : ∀ old : List Nat, writeSeq (resize old (newNZs A B r).length 0) 0
        (List.map (fun e => e.2.getD 0 0) (newNZs A B r)) = zVals A B r := by
      intro old
      have := writeSeq_resize old (List.map (fun e => e.2.getD 0 0) (newNZs A B r)) 0
      simpa [zVals] using this
    have e3 : ∀ old : List Nat, writeSeq (resize old (newNZs A B r).length 0) 0
        (List.map (fun e => e.2.getD 1 0) (newNZs A B r)) = zVals2 A B r := by
      intro old
      have := writeSeq_resize old (List.map (fun e => e.2.getD 1 0) (newNZs A B r)) 0
      simpa [zVals2] using this
    simp only [newNZs] at e1 e2 e3 h ⊢
    simp only [h, if_true, e1, e2, e3, gt_iff_lt]
  · simp only [newNZs] at h ⊢
    simp [h, modifyAt_id]

theorem foldl_matmatRow (A B : CSRMat) (rs : List Nat) (Z : CSRMat) (t : Nat) :
    rs.foldl (matmatRow A B) (Z, t) =
      ({ Z with
          nnzInRow := rs.foldl (fun l r => modifyAt (fun _ => (newNZs A B r).length) l r)
            Z.nnzInRow
          cols := rs.foldl (fun l r => modifyAt
            (fun old => if 0 < (newNZs A B r).length then zCols A B r else old) l r) Z.cols
          vals := rs.foldl (fun l r => modifyAt
            (fun old => if 0 < (newNZs A B r).length then zVals A B r else old) l r) Z.vals
          vals2 := rs.foldl (fun l r => modifyAt
            (fun old => if 0 < (newNZs A B r).length then zVals2 A B r else old) l r) Z.vals2 },
        t + (rs.map (fun r => (newNZs A B r).length)).sum) := by
  induction rs generalizing Z t with
  | nil => simp
  | cons r rs ih =>
    rw [List.foldl_cons, matmatRow_eq, ih]
    simp [Nat.add_assoc]

theorem zCols_length (A B : CSRMat) (r : Nat) : (zCols A B r).length = (newNZs A B r).length := by
  simp [zCols]

theorem zVals_length (A B : CSRMat) (r : Nat) : (zVals A B r).length = (newNZs A B r).length := by
  simp [zVals]

theorem zVals2_length (A B : CSRMat) (r : Nat) :
    (zVals2 A B r).length = (newNZs A B r).length := by
  simp [zVals2]

theorem ite_len_replicate {α β : Type} (l : List α) (f : List α → List β) (m r : Nat)
    (hf : (f l).length = l.length) :
    (if 0 < l.length then f l else (List.replicate m ([] : List β)).getD r []) = f l := by
  by_cases h : 0 < l.length
  · simp [h]
  · have h0 : (f l).length = 0 := by omega
    have h1 : (List.replicate m ([] : List β)).getD r [] = [] := by
      rw [List.getD_eq_getElem?_getD]
      by_cases hr : r < m
      · simp [hr]
      · simp [hr]
    simp [h, List.length_eq_zero.1 h0, h1]

/-- Closed form of `matmat` on a freshly constructed receiver. -/
theorem matmat_fresh (t : matrixtype) (A B : CSRMat) :
    matmat (CSRMat.fresh t) A B =
      { type := t
        m := A.m
        n := B.n
        nnz := ((List.range A.m).map (fun r => (newNZs A B r).length)).sum
        nnzInRow := (List.range A.m).map (fun r => (newNZs A B r).length)
        cols := (List.range A.m).map (zCols A B)
        vals := (List.range A.m).map (zVals A B)
        vals2 := (List.range A.m).map (zVals2 A B) } := by
  simp only [matmat, CSRMat.fresh, CSRMat.getM, CSRMat.getN]
  by_cases h : (0 : Nat) = A.m
  · simp [← h]
  · simp only [ne_eq, h, not_false_eq_true, if_true, resize_nil, foldl_matmatRow]
    rw [foldl_modifyAt_range_eq _ A.m _ 0 (by simp),
      foldl_modifyAt_range_eq _ A.m _ [] (by simp),
      foldl_modifyAt_range_eq _ A.m _ [] (by simp),
      foldl_modifyAt_range_eq _ A.m _ [] (by simp)]
    simp only [Nat.zero_add, CSRMat.mk.injEq, true_and]
    refine ⟨?_, ?_, ?_⟩
    · apply List.map_congr_left; intro r _
      exact ite_len_replicate (newNZs A B r) (fun l => l.map (fun e => e.1)) A.m r (by simp)
    · apply List.map_congr_left; intro r _
      exact ite_len_replicate (newNZs A B r) (fun l => l.map (fun e => e.2.getD 0 0)) A.m r
        (by simp)
    · apply List.map_congr_left; intro r _
      exact ite_len_replicate (newNZs A B r) (fun l => l.map (fun e => e.2.getD 1 0)) A.m r
        (by simp)

/-! ### The content of one output row of matmat -/

theorem find_eq_some_witOf (mp : StdMap (List Nat)) (j : Nat) (l : List Nat)
    (h : mp.find j = some l) : witOf mp j = l := by
  simp [witOf, h]

theorem mem_newNZs (A B : CSRMat) (i j : Nat) (l : List Nat) :
    (j, l) ∈ newNZs A B i ↔ l = wedgeWitnesses A B i j ∧ 2 ≤ l.length := by
  have hinv := matmatAccum_inv A B i
  have hw := matmatAccum_witOf A B i j
  simp only [newNZs, stripSingles_fst, List.mem_filter, StdMap.mem_iff_find _ hinv.1,
    decide_eq_true_eq]
  constructor
  · rintro ⟨hf, hl⟩
    have h1 : l ≠ [] := hinv.2 j l hf
    have h2 : 0 < l.length := List.length_pos.2 h1
    refine ⟨?_, by omega⟩
    rw [wedgeWitnesses, ← hw, find_eq_some_witOf _ _ _ hf]
  · rintro ⟨hl, h2⟩
    refine ⟨?_, by omega⟩
    cases hf : (matmatAccum A B i).1.find j with
    | none =>
      have : witOf (matmatAccum A B i).1 j = [] := by simp [witOf, hf]
      rw [hw] at this
      rw [wedgeWitnesses, this] at hl
      subst hl
      simp at h2
    | some l0 =>
      rw [wedgeWitnesses, ← hw, find_eq_some_witOf _ _ _ hf] at hl
      rw [hl]

theorem newNZs_WF (A B : CSRMat) (i : Nat) : (newNZs A B i).WF := by
  have hinv := (matmatAccum_inv A B i).1
  simp only [newNZs, stripSingles_fst]
  unfold StdMap.WF StdMap.keys at hinv ⊢
  exact hinv.sublist (List.Sublist.map _ (List.filter_sublist _))

theorem filter_eq_of_nodup (l : List Nat) (j : Nat) (h : l.Nodup) :
    l.filter (fun x => decide (x = j)) = if j ∈ l then [j] else [] := by
  rw [List.filter_eq]
  by_cases hj : j ∈ l
  · simp [hj, List.count_eq_one_of_mem h hj]
  · simp [hj, List.count_eq_zero_of_not_mem hj]

theorem wedge_filter_aux (B : CSRMat) (j : Nat) (ks : List Nat)
    (hB : ∀ k ∈ ks, (B.rowCols k).Nodup) :
    (((ks.flatMap (fun k => (B.rowCols k).map (fun j0 => (j0, k)))).filter
        (fun p => decide (p.1 = j))).map (fun p => p.2)) =
      ks.filter (fun k => decide (B.stores k j)) := by
  induction ks with
  | nil => simp
  | cons k ks ih =>
    have hk : (B.rowCols k).Nodup := hB k (List.mem_cons_self _ _)
    have ih2 := ih (fun k0 hk0 => hB k0 (List.mem_cons_of_mem _ hk0))
    simp only [List.flatMap_cons, List.filter_append, List.map_append, ih2, List.filter_map]
    have : (List.filter ((fun p : Nat × Nat => decide (p.1 = j)) ∘ fun j0 => (j0, k))
        (B.rowCols k)) = (B.rowCols k).filter (fun x => decide (x = j)) := rfl
    rw [this, filter_eq_of_nodup _ _ hk]
    by_cases hj : j ∈ B.rowCols k
    · simp [hj, List.filter_cons, CSRMat.stores]
    · simp [hj, List.filter_cons, CSRMat.stores]

theorem wedgeWitnesses_eq (A B : CSRMat) (i j : Nat)
    (hB : ∀ k ∈ A.rowCols i, (B.rowCols k).Nodup) :
    wedgeWitnesses A B i j = witnesses A B i j := by
  simp only [wedgeWitnesses, wedges, witnesses]
  exact wedge_filter_aux B j _ hB

theorem range_map_getD {α : Type} (l : List α) (d : α) :
    (List.range l.length).map (fun idx => l.getD idx d) = l := by
  apply List.ext_getElem?
  intro i
  by_cases hi : i < l.length
  · simp [hi, List.getElem?_range, List.getD_eq_getElem?_getD]
  · have h1 : (List.range l.length).length ≤ i := by simp; omega
    have h2 : l.length ≤ i := by omega
    simp [List.getElem?_eq_none h2]
    omega

theorem getD_range_map {α : Type} (f : Nat → α) (m i : Nat) (d : α) (h : i < m) :
    ((List.range m).map f).getD i d = f i := by
  simp [List.getD_eq_getElem?_getD, List.getElem?_range, h]

theorem rowCols_eq_rowCells (Z : CSRMat) (i : Nat) :
    Z.rowCols i = (Z.rowCells i).map (fun c => c.1) := by
  simp [CSRMat.rowCols, CSRMat.rowCells, List.map_map, Function.comp_def]

theorem matmat_fresh_rowCells (t : matrixtype) (A B : CSRMat) (i : Nat) (hi : i < A.m) :
    (matmat (CSRMat.fresh t) A B).rowCells i =
      (newNZs A B i).map (fun e => (e.1, e.2.getD 0 0, e.2.getD 1 0)) := by
  rw [matmat_fresh]
  simp only [CSRMat.rowCells, CSRMat.getNNZInRow, CSRMat.getCol, CSRMat.getVal, CSRMat.getVal2]
  rw [getD_range_map _ _ _ _ hi, getD_range_map _ _ _ _ hi, getD_range_map _ _ _ _ hi,
    getD_range_map _ _ _ _ hi]
  apply List.ext_getElem?
  intro idx
  by_cases h : idx < (newNZs A B i).length
  · simp [h, List.getElem?_range, zCols, zVals, zVals2, List.getD_eq_getElem?_getD]
  · have h2 : (newNZs A B i).length ≤ idx := by omega
    simp [List.getElem?_eq_none, h2]

theorem matmat_fresh_rowCols (t : matrixtype) (A B : CSRMat) (i : Nat) (hi : i < A.m) :
    (matmat (CSRMat.fresh t) A B).rowCols i = zCols A B i := by
  rw [rowCols_eq_rowCells, matmat_fresh_rowCells t A B i hi]
  simp [zCols, List.map_map, Function.comp_def]

/-! ### Claims on the product -/

theorem two_le_length_iff_of_nodup (l : List Nat) (h : l.Nodup) :
    2 ≤ l.length ↔ ∃ a b, a ≠ b ∧ a ∈ l ∧ b ∈ l := by
  constructor
  · intro h2
    match l, h, h2 with
    | a :: b :: t, h, _ =>
      refine ⟨a, b, ?_, by simp, by simp⟩
      intro hab
      subst hab
      simp at h
  · rintro ⟨a, b, hab, ha, hb⟩
    match l, ha, hb with
    | [x], ha, hb =>
      simp at ha hb
      exact absurd (ha.trans hb.symm) hab
    | x :: y :: t, _, _ => simp

theorem mem_zCols_iff (A B : CSRMat) (i j : Nat) :
    j ∈ zCols A B i ↔ 2 ≤ (wedgeWitnesses A B i j).length := by
  simp only [zCols, List.mem_map]
  constructor
  · rintro ⟨⟨j0, l⟩, hmem, rfl⟩
    have := (mem_newNZs A B i j0 l).1 hmem
    rw [← this.1]; exact this.2
  · intro h
    exact ⟨(j, wedgeWitnesses A B i j), (mem_newNZs A B i j _).2 ⟨rfl, h⟩, rfl⟩

theorem nodup_rows_of (A B : CSRMat) (hBd : B.DistinctCols) (hAB : A.ColsBelow B.m) (i : Nat)
    (hi : i < A.m) : ∀ k ∈ A.rowCols i, (B.rowCols k).Nodup :=
  fun k hk => hBd k (hAB i hi k hk)

/-- C1: on a freshly constructed receiver, for matrices with pairwise distinct columns per
row and all columns of `A` valid rows of `B`, row `i` of `matmat(A,B)` stores column `j`
exactly when at least two distinct intermediate indices `k` have `(i,k)` stored in `A` and
`(k,j)` stored in `B`; a column reached through exactly one such `k` is not stored. -/
theorem matmat_stores_iff (t : matrixtype) (A B : CSRMat) (hAd : A.DistinctCols)
    (hBd : B.DistinctCols) (hAB : A.ColsBelow B.m) (i j : Nat) (hi : i < A.m) :
    ((matmat (CSRMat.fresh t) A B).stores i j ↔
      ∃ k1 k2, k1 ≠ k2 ∧ A.stores i k1 ∧ B.stores k1 j ∧ A.stores i k2 ∧ B.stores k2 j) ∧
    ((∃ k, A.stores i k ∧ B.stores k j ∧ ∀ k2, A.stores i k2 → B.stores k2 j → k2 = k) →
      ¬ (matmat (CSRMat.fresh t) A B).stores i j) := by
  have hw := wedgeWitnesses_eq A B i j (nodup_rows_of A B hBd hAB i hi)
  have hnd : (witnesses A B i j).Nodup := (hAd i hi).filter _
  have key : (matmat (CSRMat.fresh t) A B).stores i j ↔
      ∃ k1 k2, k1 ≠ k2 ∧ A.stores i k1 ∧ B.stores k1 j ∧ A.stores i k2 ∧ B.stores k2 j := by
    unfold CSRMat.stores
    rw [matmat_fresh_rowCols t A B i hi, mem_zCols_iff, hw,
      two_le_length_iff_of_nodup _ hnd]
    simp only [witnesses, List.mem_filter, decide_eq_true_eq, CSRMat.stores]
    constructor
    · rintro ⟨a, b, hab, ⟨h1, h2⟩, h3, h4⟩
      exact ⟨a, b, hab, h1, h2, h3, h4⟩
    · rintro ⟨a, b, hab, h1, h2, h3, h4⟩
      exact ⟨a, b, hab, ⟨h1, h2⟩, h3, h4⟩
  refine ⟨key, ?_⟩
  rintro ⟨k, _, _, huniq⟩ hs
  obtain ⟨k1, k2, hne, h1, h2, h3, h4⟩ := key.1 hs
  exact hne ((huniq k1 h1 h2).trans (huniq k2 h3 h4).symm)

theorem matmat_stores_iff_witness :
    k4Lower.DistinctCols ∧ k4Lower.ColsBelow k4Lower.m ∧ 3 < k4Lower.m ∧
    (((matmat (CSRMat.fresh .UNDEFINED) k4Lower k4Lower).stores 3 0 ↔
      ∃ k1 k2, k1 ≠ k2 ∧ k4Lower.stores 3 k1 ∧ k4Lower.stores k1 0 ∧ k4Lower.stores 3 k2 ∧
        k4Lower.stores k2 0) ∧
    ((∃ k, k4Lower.stores 3 k ∧ k4Lower.stores k 0 ∧
        ∀ k2, k4Lower.stores 3 k2 → k4Lower.stores k2 0 → k2 = k) →
      ¬ (matmat (CSRMat.fresh .UNDEFINED) k4Lower k4Lower).stores 3 0)) :=
  ⟨by decide, by decide, by decide,
    matmat_stores_iff .UNDEFINED k4Lower k4Lower (by decide) (by decide) (by decide) 3 0
      (by decide)⟩

theorem StdMap.find_eq_none_of_lt {β : Type} (mp : StdMap β) (j : Nat)
    (h : ∀ x ∈ StdMap.keys mp, j < x) : StdMap.find mp j = none := by
  cases hf : StdMap.find mp j with
  | none => rfl
  | some v =>
    have : j ∈ StdMap.keys mp := (StdMap.mem_keys_iff mp j).2 (by simp [hf])
    exact absurd (h j this) (lt_irrefl _)

theorem StdMap.filter_key {β : Type} (mp : StdMap β) (h : mp.WF) (j : Nat) :
    mp.filter (fun e => decide (e.1 = j)) =
      match StdMap.find mp j with
      | some v => [(j, v)]
      | none => [] := by
  induction mp with
  | nil => simp [StdMap.find]
  | cons e t ih =>
    obtain ⟨k0, v0⟩ := e
    have ht : StdMap.WF t := by
      unfold StdMap.WF at h ⊢
      rw [show StdMap.keys ((k0, v0) :: t) = k0 :: StdMap.keys t from rfl,
        List.pairwise_cons] at h
      exact h.2
    have hhd : ∀ x ∈ StdMap.keys t, k0 < x := by
      unfold StdMap.WF at h
      rw [show StdMap.keys ((k0, v0) :: t) = k0 :: StdMap.keys t from rfl,
        List.pairwise_cons] at h
      exact h.1
    by_cases hk : k0 = j
    · subst hk
      have hnone := StdMap.find_eq_none_of_lt t k0 hhd
      have ih2 := ih ht
      rw [hnone] at ih2
      simp only at ih2
      simp [List.filter_cons, StdMap.find, ih2]
    · have hk2 : ¬ j = k0 := fun h => hk h.symm
      simp only [List.filter_cons, hk, decide_False, StdMap.find, hk2, if_false]
      exact ih ht

/-- C2: for every cell `(i,j)` stored by `matmat(A,B)` on a fresh receiver (the rows of `B`
holding pairwise distinct columns, the columns of `A` being rows of `B`), the witnesses of the
cell, in the order row `i` of `A` lists them, are `k1 :: k2 :: rest`, and row `i` holds
exactly one cell for column `j`, with `vals = k1` and `vals2 = k2`: the witnesses in `rest`
are stored nowhere. -/
theorem matmat_cell_witnesses (t : matrixtype) (A B : CSRMat) (hBd : B.DistinctCols)
    (hAB : A.ColsBelow B.m) (i j : Nat) (hi : i < A.m)
    (hs : (matmat (CSRMat.fresh t) A B).stores i j) :
    ∃ k1 k2 rest, witnesses A B i j = k1 :: k2 :: rest ∧
      ((matmat (CSRMat.fresh t) A B).rowCells i).filter (fun c => decide (c.1 = j)) =
        [(j, k1, k2)] := by
  have hw := wedgeWitnesses_eq A B i j (nodup_rows_of A B hBd hAB i hi)
  unfold CSRMat.stores at hs
  rw [matmat_fresh_rowCols t A B i hi, mem_zCols_iff, hw] at hs
  have hmem : (j, witnesses A B i j) ∈ newNZs A B i :=
    (mem_newNZs A B i j _).2 ⟨hw.symm, hs⟩
  have hfind := (StdMap.mem_iff_find _ (newNZs_WF A B i) j _).1 hmem
  have hfil := StdMap.filter_key _ (newNZs_WF A B i) j
  rw [hfind] at hfil
  simp only at hfil
  match hl : witnesses A B i j, hs with
  | k1 :: k2 :: rest, _ =>
    refine ⟨k1, k2, rest, rfl, ?_⟩
    rw [matmat_fresh_rowCells t A B i hi, List.filter_map]
    have : ((fun c : Nat × Nat × Nat => decide (c.1 = j)) ∘
        fun e : Nat × List Nat => (e.1, e.2.getD 0 0, e.2.getD 1 0)) =
        fun e => decide (e.1 = j) := rfl
    rw [this, hfil, hl]
    rfl

theorem matmat_cell_witnesses_witness :
    k5Lower.DistinctCols ∧ k5Lower.ColsBelow k5Lower.m ∧ 4 < k5Lower.m ∧
    (matmat (CSRMat.fresh .UNDEFINED) k5Lower k5Lower).stores 4 0 ∧
    ∃ k1 k2 rest, witnesses k5Lower k5Lower 4 0 = k1 :: k2 :: rest ∧
      ((matmat (CSRMat.fresh .UNDEFINED) k5Lower k5Lower).rowCells 4).filter
        (fun c => decide (c.1 = 0)) = [(0, k1, k2)] :=
  ⟨by decide, by decide, by decide, by decide,
    matmat_cell_witnesses .UNDEFINED k5Lower k5Lower (by decide) (by decide) 4 0 (by decide)
      (by decide)⟩

theorem mem_rowCells_matmat (t : matrixtype) (A B : CSRMat) (i : Nat) (hi : i < A.m)
    (c : Nat × Nat × Nat) (hc : c ∈ (matmat (CSRMat.fresh t) A B).rowCells i) :
    ∃ rest, wedgeWitnesses A B i c.1 = c.2.1 :: c.2.2 :: rest := by
  rw [matmat_fresh_rowCells t A B i hi, List.mem_map] at hc
  obtain ⟨⟨j, l⟩, hmem, rfl⟩ := hc
  obtain ⟨hl, h2⟩ := (mem_newNZs A B i j l).1 hmem
  match l, h2, hl with
  | k1 :: k2 :: rest, _, hl => exact ⟨rest, by rw [← hl]; rfl⟩

theorem lowerTri_colsBelow (A : CSRMat) (hL : A.LowerTri) : A.ColsBelow A.m :=
  fun r hr c hc => lt_trans (hL r hr c hc) hr

theorem sum_map_eq_zero (l : List Nat) (f : Nat → Nat) (h : ∀ x ∈ l, f x = 0) :
    (l.map f).sum = 0 := by
  induction l with
  | nil => rfl
  | cons x xs ih =>
    simp only [List.map_cons, List.sum_cons, h x (List.mem_cons_self _ _)]
    rw [ih (fun y hy => h y (List.mem_cons_of_mem _ hy))]

/-- C3 as stated fails: the 4-cycle 3-1-0-2-3 has no triangle, yet the product of its
lower-triangular adjacency matrix with itself has one stored cell, `(3, 0, 1, 2)`, and the
vertices 3 and 0 of that cell are not adjacent. -/
theorem c4_self_product_counterexample :
    c4Lower.RowInv ∧ c4Lower.DistinctCols ∧ c4Lower.LowerTri ∧ c4Lower.TriangleFree ∧
    (matmat (CSRMat.fresh .UNDEFINED) c4Lower c4Lower).nnz = 1 ∧
    (matmat (CSRMat.fresh .UNDEFINED) c4Lower c4Lower).nnz ≠ 0 ∧
    (matmat (CSRMat.fresh .UNDEFINED) c4Lower c4Lower).rowCells 3 = [(0, 1, 2)] ∧
    ¬ c4Lower.adjacent 3 0 := by
  decide

/-- C3 amended: for a lower-triangular adjacency matrix `A` with pairwise distinct columns
per row, every cell `(i, j, k1, k2)` stored by `matmat(A,A)` on a fresh receiver certifies
two distinct wedges `i > k1 > j` and `i > k2 > j` (both `k1` and `k2` adjacent to `i` and to
`j`); and when the graph has no such pair of wedges the product has `nnz == 0`. -/
theorem matmat_self_cells (t : matrixtype) (A : CSRMat) (hAd : A.DistinctCols)
    (hL : A.LowerTri) :
    (∀ i, i < A.m → ∀ c ∈ (matmat (CSRMat.fresh t) A A).rowCells i,
      c.2.1 ≠ c.2.2 ∧ A.stores i c.2.1 ∧ A.stores c.2.1 c.1 ∧ A.stores i c.2.2 ∧
        A.stores c.2.2 c.1 ∧ c.1 < c.2.1 ∧ c.2.1 < i ∧ c.1 < c.2.2 ∧ c.2.2 < i) ∧
    (A.NoDoubleWedge → (matmat (CSRMat.fresh t) A A).nnz = 0) := by
  have hAB := lowerTri_colsBelow A hL
  have cells : ∀ i, i < A.m → ∀ c ∈ (matmat (CSRMat.fresh t) A A).rowCells i,
      c.2.1 ≠ c.2.2 ∧ A.stores i c.2.1 ∧ A.stores c.2.1 c.1 ∧ A.stores i c.2.2 ∧
        A.stores c.2.2 c.1 := by
    intro i hi c hc
    obtain ⟨rest, hw⟩ := mem_rowCells_matmat t A A i hi c hc
    rw [wedgeWitnesses_eq A A i c.1 (nodup_rows_of A A hAd hAB i hi)] at hw
    have hnd : (witnesses A A i c.1).Nodup := (hAd i hi).filter _
    have h1 : c.2.1 ∈ witnesses A A i c.1 := by rw [hw]; simp
    have h2 : c.2.2 ∈ witnesses A A i c.1 := by rw [hw]; simp
    simp only [witnesses, List.mem_filter, decide_eq_true_eq] at h1 h2
    rw [hw] at hnd
    refine ⟨?_, h1.1, h1.2, h2.1, h2.2⟩
    intro heq
    rw [heq] at hnd
    simp at hnd
  refine ⟨?_, ?_⟩
  · intro i hi c hc
    obtain ⟨hne, h1, h2, h3, h4⟩ := cells i hi c hc
    have b1 : c.2.1 < i := hL i hi _ h1
    have b2 : c.2.2 < i := hL i hi _ h3
    exact ⟨hne, h1, h2, h3, h4, hL _ (lt_trans b1 hi) _ h2, b1, hL _ (lt_trans b2 hi) _ h4, b2⟩
  · intro hno
    rw [matmat_fresh]
    apply sum_map_eq_zero
    intro i hi
    have hi2 : i < A.m := List.mem_range.1 hi
    cases hn : newNZs A A i with
    | nil => rfl
    | cons e rest =>
      exfalso
      have hc : (e.1, e.2.getD 0 0, e.2.getD 1 0) ∈ (matmat (CSRMat.fresh t) A A).rowCells i := by
        rw [matmat_fresh_rowCells t A A i hi2, hn]; simp
      obtain ⟨hne, h1, h2, h3, h4⟩ := cells i hi2 _ hc
      have b1 := hL i hi2 _ h1
      have b2 := hL i hi2 _ h3
      have b3 := hL _ (lt_trans b1 hi2) _ h2
      exact hno i hi2 e.1 (lt_trans b3 (lt_trans b1 hi2)) _ h1 _ h3 hne ⟨h2, h4⟩

theorem matmat_self_cells_witness :
    (k5Lower.DistinctCols ∧ k5Lower.LowerTri ∧
      ∀ i, i < k5Lower.m → ∀ c ∈ (matmat (CSRMat.fresh .UNDEFINED) k5Lower k5Lower).rowCells i,
        c.2.1 ≠ c.2.2 ∧ k5Lower.stores i c.2.1 ∧ k5Lower.stores c.2.1 c.1 ∧
          k5Lower.stores i c.2.2 ∧ k5Lower.stores c.2.2 c.1 ∧ c.1 < c.2.1 ∧ c.2.1 < i ∧
          c.1 < c.2.2 ∧ c.2.2 < i) ∧
    (p3Lower.DistinctCols ∧ p3Lower.LowerTri ∧ p3Lower.NoDoubleWedge ∧
      (matmat (CSRMat.fresh .UNDEFINED) p3Lower p3Lower).nnz = 0) :=
  ⟨⟨by decide, by decide,
      (matmat_self_cells .UNDEFINED k5Lower (by decide) (by decide)).1⟩,
    ⟨by decide, by decide, by decide,
      (matmat_self_cells .UNDEFINED p3Lower (by decide) (by decide)).2 (by decide)⟩⟩

/-- C4 as stated fails: for the complete graph on 4 vertices the product of the
lower-triangular adjacency matrix with itself does not have 4 stored cells. -/
theorem k4_self_product_not_four :
    ¬ (matmat (CSRMat.fresh .UNDEFINED) k4Lower k4Lower).nnz = 4 := by
  decide

/-- C4 amended: for the complete graph on 4 vertices, `matmat(A,A)` of the lower-triangular
adjacency matrix has `nnz == 1`, its one cell being row 3, column 0, witnesses 1 and 2 (row
index above both witnesses); the triangle count 4 is the `nnz` of `matmat(A,B)` with `B` the
incidence matrix, every cell of which has its row index above both witnesses. -/
theorem k4_triangle_count :
    k4Lower.rowCols 0 = [] ∧ k4Lower.rowCols 1 = [0] ∧ k4Lower.rowCols 2 = [0, 1] ∧
    k4Lower.rowCols 3 = [0, 1, 2] ∧
    (matmat (CSRMat.fresh .UNDEFINED) k4Lower k4Lower).nnz = 1 ∧
    (List.range 4).map (matmat (CSRMat.fresh .UNDEFINED) k4Lower k4Lower).rowCells =
      [[], [], [], [(0, 1, 2)]] ∧
    (matmat (CSRMat.fresh .UNDEFINED) k4Lower k4Incidence).nnz = 4 ∧
    (∀ i, i < 4 → ∀ c ∈ (matmat (CSRMat.fresh .UNDEFINED) k4Lower k4Incidence).rowCells i,
      c.2.1 < i ∧ c.2.2 < i) := by
  decide

/-! ### The copy loop of the builders -/

theorem copyRow_eq (Z : CSRMat) (r : Nat) (entries : List (Nat × Nat)) :
    copyRow Z r entries =
      { Z with
        nnzInRow := modifyAt (fun _ => entries.length) Z.nnzInRow r
        nnz := Z.nnz + entries.length
        cols := modifyAt (fun _ => entries.map (fun e => e.1)) Z.cols r
        vals := modifyAt (fun _ => entries.map (fun e => e.2)) Z.vals r } := by
  have e1 : ∀ old : List Nat, writeSeq (resize old entries.length 0) 0
      (entries.map (fun e => e.1)) = entries.map (fun e => e.1) := by
    intro old
    have := writeSeq_resize old (entries.map (fun e => e.1)) 0
    simpa using this
  have e2 : ∀ old : List Nat, writeSeq (resize old entries.length 0) 0
      (entries.map (fun e => e.2)) = entries.map (fun e => e.2) := by
    intro old
    have := writeSeq_resize old (entries.map (fun e => e.2)) 0
    simpa using this
  simp only [copyRow, set_eq_modifyAt, e1, e2]

theorem foldl_copyRow (ent : Nat → List (Nat × Nat)) (rs : List Nat) (Z : CSRMat) :
    rs.foldl (fun acc r => copyRow acc r (ent r)) Z =
      { Z with
        nnzInRow := rs.foldl (fun l r => modifyAt (fun _ => (ent r).length) l r) Z.nnzInRow
        nnz := Z.nnz + (rs.map (fun r => (ent r).length)).sum
        cols := rs.foldl (fun l r => modifyAt (fun _ => (ent r).map (fun e => e.1)) l r) Z.cols
        vals := rs.foldl (fun l r => modifyAt (fun _ => (ent r).map (fun e => e.2)) l r)
          Z.vals } := by
  induction rs generalizing Z with
  | nil => simp
  | cons r rs ih =>
    rw [List.foldl_cons, copyRow_eq, ih]
    simp [Nat.add_assoc]

/-- Closed form of the copy loop over the rows `0..m-1` on row vectors of length `m`. -/
theorem copyRows_closed (ent : Nat → List (Nat × Nat)) (m : Nat) (Z : CSRMat)
    (h1 : Z.nnzInRow.length = m) (h2 : Z.cols.length = m) (h3 : Z.vals.length = m) :
    (List.range m).foldl (fun acc r => copyRow acc r (ent r)) Z =
      { Z with
        nnzInRow := (List.range m).map (fun r => (ent r).length)
        nnz := Z.nnz + ((List.range m).map (fun r => (ent r).length)).sum
        cols := (List.range m).map (fun r => (ent r).map (fun e => e.1))
        vals := (List.range m).map (fun r => (ent r).map (fun e => e.2)) } := by
  rw [foldl_copyRow, foldl_modifyAt_range_eq _ m _ 0 h1, foldl_modifyAt_range_eq _ m _ [] h2,
    foldl_modifyAt_range_eq _ m _ [] h3]

theorem rowInv_of_rows (Z : CSRMat) (ent : Nat → List (Nat × Nat))
    (h1 : Z.nnzInRow = (List.range Z.m).map (fun r => (ent r).length))
    (h2 : Z.cols = (List.range Z.m).map (fun r => (ent r).map (fun e => e.1)))
    (h3 : Z.vals = (List.range Z.m).map (fun r => (ent r).map (fun e => e.2)))
    (h4 : Z.nnz = ((List.range Z.m).map (fun r => (ent r).length)).sum) : Z.RowInv := by
  refine ⟨by simp [h1], by simp [h2], by simp [h3], ?_, by rw [h1, h4]⟩
  intro r hr
  rw [h1, h2, h3, getD_range_map _ _ _ _ hr, getD_range_map _ _ _ _ hr,
    getD_range_map _ _ _ _ hr]
  simp

theorem copyRowSets_eq (Z : CSRMat) (rowSets : List (StdMap Nat)) :
    copyRowSets Z rowSets =
      { Z with
        nnzInRow := (List.range Z.m).map (fun r => (rowSets.getD r []).length)
        nnz := ((List.range Z.m).map (fun r => (rowSets.getD r []).length)).sum
        cols := (List.range Z.m).map (fun r => (rowSets.getD r []).map (fun e => e.1))
        vals := (List.range Z.m).map (fun r => (rowSets.getD r []).map (fun e => e.2)) } := by
  unfold copyRowSets
  simp only
  rw [copyRows_closed (fun r => rowSets.getD r []) Z.m _ (by simp [resize_length])
    (by simp [resize_length]) (by simp [resize_length])]
  simp

theorem copyRowSets_rowInv (Z : CSRMat) (rowSets : List (StdMap Nat)) :
    (copyRowSets Z rowSets).RowInv := by
  rw [copyRowSets_eq]
  exact rowInv_of_rows _ (fun r => rowSets.getD r []) rfl rfl rfl rfl

theorem createTriMatrix_eq (self S : CSRMat) (kind : matrixtype) (hsq : S.m = S.n)
    (hk : kind = .LOWERTRI ∨ kind = .UPPERTRI) :
    createTriMatrix self S kind = some
      { self with
        m := S.m
        n := S.n
        type := kind
        nnz := ((List.range S.m).map (fun r => (triRowMap S kind r).length)).sum
        nnzInRow := (List.range S.m).map (fun r => (triRowMap S kind r).length)
        cols := (List.range S.m).map (fun r => (triRowMap S kind r).map (fun e => e.1))
        vals := (List.range S.m).map (fun r => (triRowMap S kind r).map (fun e => e.2)) } := by
  unfold createTriMatrix
  simp only [CSRMat.getM, CSRMat.getN, hsq, ne_eq, not_true_eq_false, if_false, hk]
  rw [← hsq]
  rw [copyRows_closed (fun r => triRowMap S kind r) S.m _ (by simp [resize_length])
    (by simp [resize_length]) (by simp [resize_length])]
  simp

theorem createIncidentMatrix_eq (self S : CSRMat) (eIndices : StdMap (StdMap Nat))
    (ht : self.type = .INCIDENCE) :
    createIncidentMatrix self S eIndices = some
      ({ self with
          m := S.m
          n := (incidentScan S S.m eIndices).2.2
          nnz := ((List.range S.m).map
            (fun r => ((incidentScan S S.m eIndices).1.getD r []).length)).sum
          nnzInRow := (List.range S.m).map
            (fun r => ((incidentScan S S.m eIndices).1.getD r []).length)
          cols := (List.range S.m).map (fun r => (incidentScan S S.m eIndices).1.getD r [])
          vals := (List.range S.m).map
            (fun r => ((incidentScan S S.m eIndices).1.getD r []).map (fun _ => 1)) },
        (incidentScan S S.m eIndices).2.1) := by
  unfold createIncidentMatrix
  simp only [CSRMat.getM, ht, ne_eq, not_true_eq_false, if_false]
  rw [copyRows_closed
    (fun r => ((incidentScan S S.m eIndices).1.getD r []).map (fun e => (e, 1))) S.m _
    (by simp [resize_length]) (by simp [resize_length]) (by simp [resize_length])]
  simp [List.map_map, Function.comp_def]

theorem matmat_fresh_rowInv2 (t : matrixtype) (A B : CSRMat) :
    (matmat (CSRMat.fresh t) A B).RowInv2 := by
  rw [matmat_fresh]
  refine ⟨?_, by simp, ?_⟩
  · apply rowInv_of_rows _ (fun r => (newNZs A B r).map (fun e => (e.1, e.2.getD 0 0)))
    · simp
    · simp [zCols, List.map_map, Function.comp_def]
    · simp [zVals, List.map_map, Function.comp_def]
    · simp
  · intro r hr
    simp only at hr
    simp only
    rw [getD_range_map _ _ _ _ hr, getD_range_map _ _ _ _ hr, zVals2_length]

/-- C5: every construction operation run on a freshly constructed receiver with in-range
inputs (the two edge-list builders, `createTriMatrix`, `createIncidentMatrix`, `matmat`)
completes and yields a matrix satisfying the row invariant: the sum of `nnzInRow` is `nnz`
and `cols[r]`, `vals[r]` (for `matmat` also `vals2[r]`) have `nnzInRow[r]` entries. -/
theorem row_invariant_constructed :
    (∀ (t : matrixtype) (numVerts : Nat) (edgeList : List edge_t),
      edgesInRange1 numVerts edgeList →
        (readMMMatrix (CSRMat.fresh t) numVerts edgeList).RowInv) ∧
    (∀ (t : matrixtype) (numVerts : Nat) (edgeList : List edge_t),
      edgesInRange0 numVerts edgeList →
        (readBinMatrix (CSRMat.fresh t) numVerts edgeList).RowInv) ∧
    (∀ (t : matrixtype) (S : CSRMat) (kind : matrixtype),
      S.RowInv → S.m = S.n → (kind = .LOWERTRI ∨ kind = .UPPERTRI) →
        ∃ Z, createTriMatrix (CSRMat.fresh t) S kind = some Z ∧ Z.RowInv) ∧
    (∀ (S : CSRMat) (eIndices : StdMap (StdMap Nat)),
      S.RowInv → S.ColsBelow S.m →
        ∃ Z eI, createIncidentMatrix (CSRMat.fresh .INCIDENCE) S eIndices = some (Z, eI) ∧
          Z.RowInv) ∧
    (∀ (t : matrixtype) (A B : CSRMat),
      A.RowInv → B.RowInv → A.ColsBelow B.m → (matmat (CSRMat.fresh t) A B).RowInv2) := by
  refine ⟨?_, ?_, ?_, ?_, ?_⟩
  · intro t numVerts edgeList _
    exact copyRowSets_rowInv _ _
  · intro t numVerts edgeList _
    exact copyRowSets_rowInv _ _
  · intro t S kind _ hsq hk
    refine ⟨_, createTriMatrix_eq (CSRMat.fresh t) S kind hsq hk, ?_⟩
    exact rowInv_of_rows _ (fun r => triRowMap S kind r) rfl rfl rfl rfl
  · intro S eIndices _ _
    refine ⟨_, _, createIncidentMatrix_eq (CSRMat.fresh .INCIDENCE) S eIndices rfl, ?_⟩
    apply rowInv_of_rows _
      (fun r => ((incidentScan S S.m eIndices).1.getD r []).map (fun e => (e, 1)))
    · simp
    · simp [List.map_map, Function.comp_def]
    · simp [List.map_map, Function.comp_def]
    · simp
  · intro t A B _ _ _
    exact matmat_fresh_rowInv2 t A B

theorem row_invariant_constructed_witness :
    (edgesInRange1 3 [⟨2, 1⟩, ⟨3, 1⟩, ⟨3, 1⟩] ∧
      (readMMMatrix (CSRMat.fresh .LOWERTRI) 3 [⟨2, 1⟩, ⟨3, 1⟩, ⟨3, 1⟩]).RowInv) ∧
    (edgesInRange0 4 k4Edges ∧ (readBinMatrix (CSRMat.fresh .UNDEFINED) 4 k4Edges).RowInv) ∧
    (k4Full.RowInv ∧ k4Full.m = k4Full.n ∧
      ∃ Z, createTriMatrix (CSRMat.fresh .UNDEFINED) k4Full .LOWERTRI = some Z ∧ Z.RowInv) ∧
    (k4Full.RowInv ∧ k4Full.ColsBelow k4Full.m ∧
      ∃ Z eI, createIncidentMatrix (CSRMat.fresh .INCIDENCE) k4Full [] = some (Z, eI) ∧
        Z.RowInv) ∧
    (k4Lower.RowInv ∧ k4Incidence.RowInv ∧ k4Lower.ColsBelow k4Incidence.m ∧
      (matmat (CSRMat.fresh .UNDEFINED) k4Lower k4Incidence).RowInv2) :=
  ⟨⟨by decide, row_invariant_constructed.1 .LOWERTRI 3 _ (by decide)⟩,
    ⟨by decide, row_invariant_constructed.2.1 .UNDEFINED 4 k4Edges (by decide)⟩,
    ⟨by decide, by decide,
      row_invariant_constructed.2.2.1 .UNDEFINED k4Full .LOWERTRI (by decide) (by decide)
        (Or.inl rfl)⟩,
    ⟨by decide, by decide,
      row_invariant_constructed.2.2.2.1 k4Full [] (by decide) (by decide)⟩,
    ⟨by decide, by decide, by decide,
      row_invariant_constructed.2.2.2.2 .UNDEFINED k4Lower k4Incidence (by decide) (by decide)
        (by decide)⟩⟩

/-! ### The edge loops of the builders -/

theorem getD_modifyAt {α : Type} (f : α → α) (l : List α) (i j : Nat) (d : α) :
    (modifyAt f l i).getD j d = if j = i ∧ i < l.length then f (l.getD i d) else l.getD j d := by
  rw [List.getD_eq_getElem?_getD, getElem?_modifyAt, List.getD_eq_getElem?_getD,
    List.getD_eq_getElem?_getD]
  by_cases hj : j = i
  · subst hj
    by_cases hl : j < l.length
    · simp [hl]
    · have : l.length ≤ j := by omega
      simp [hl, List.getElem?_eq_none this]
  · simp [hj]

theorem readMMStep_eq (type : matrixtype) (rowSets : List (StdMap Nat)) (e : edge_t) :
    readMMStep type rowSets e = assignPairs rowSets (mmPairs type e) := by
  cases type <;> simp only [readMMStep, mmPairs, assignPairs]
  · rfl
  · by_cases h : e.v0 > e.v1 <;> simp [h]
  · by_cases h : e.v0 < e.v1 <;> simp [h]
  · rfl

theorem readBinStep_eq (type : matrixtype) (rowSets : List (StdMap Nat)) (e : edge_t) :
    readBinStep type rowSets e = assignPairs rowSets (binPairs type e) := by
  cases type <;> simp only [readBinStep, binPairs, assignPairs]
  · rfl
  · by_cases h : e.v0 > e.v1 <;> simp [h]
  · by_cases h : e.v0 < e.v1 <;> simp [h]
  · rfl

theorem assignPairs_append (rs : List (StdMap Nat)) (ps qs : List (Nat × Nat)) :
    assignPairs rs (ps ++ qs) = assignPairs (assignPairs rs ps) qs := by
  simp [assignPairs, List.foldl_append]

theorem foldl_step_eq_assignPairs (step : List (StdMap Nat) → edge_t → List (StdMap Nat))
    (pairs : edge_t → List (Nat × Nat))
    (h : ∀ rs e, step rs e = assignPairs rs (pairs e)) (edgeList : List edge_t)
    (rs : List (StdMap Nat)) :
    edgeList.foldl step rs = assignPairs rs (edgeList.flatMap pairs) := by
  induction edgeList generalizing rs with
  | nil => rfl
  | cons e es ih =>
    rw [List.foldl_cons, ih, h, List.flatMap_cons, assignPairs_append]

theorem assignPairs_length (ps : List (Nat × Nat)) (rs : List (StdMap Nat)) :
    (assignPairs rs ps).length = rs.length := by
  induction ps generalizing rs with
  | nil => rfl
  | cons p ps ih =>
    simp only [assignPairs, List.foldl_cons] at ih ⊢
    rw [ih, modifyAt_length]

theorem WF_nil {β : Type} : StdMap.WF ([] : StdMap β) := by
  simp [StdMap.WF, StdMap.keys]

theorem assignPairs_WF (ps : List (Nat × Nat)) (rs : List (StdMap Nat))
    (h : ∀ r, (rs.getD r []).WF) : ∀ r, ((assignPairs rs ps).getD r []).WF := by
  induction ps generalizing rs with
  | nil => exact h
  | cons p ps ih =>
    simp only [assignPairs, List.foldl_cons] at ih ⊢
    apply ih
    intro r
    rw [getD_modifyAt]
    by_cases hc : r = p.1 ∧ p.1 < rs.length
    · simp only [hc, and_self, if_true]
      exact StdMap.WF_assign _ _ _ (h p.1)
    · simp only [hc, if_false]
      exact h r

theorem assignPairs_mem_keys (ps : List (Nat × Nat)) (rs : List (StdMap Nat)) (r c : Nat) :
    c ∈ StdMap.keys ((assignPairs rs ps).getD r []) ↔
      c ∈ StdMap.keys (rs.getD r []) ∨ ((r, c) ∈ ps ∧ r < rs.length) := by
  induction ps generalizing rs with
  | nil => simp [assignPairs]
  | cons p ps ih =>
    simp only [assignPairs, List.foldl_cons] at ih ⊢
    rw [ih, modifyAt_length, getD_modifyAt]
    obtain ⟨r0, c0⟩ := p
    simp only [List.mem_cons, Prod.mk.injEq]
    by_cases hc : r = r0 ∧ r0 < rs.length
    · obtain ⟨h1, h2⟩ := hc
      subst h1
      simp only [h2, and_self, if_true, StdMap.mem_keys_assign, true_and, and_true]
      tauto
    · simp only [hc, if_false]
      constructor
      · rintro (h | ⟨h, hl⟩)
        · exact Or.inl h
        · exact Or.inr ⟨Or.inr h, hl⟩
      · rintro (h | ⟨(⟨h1, h2⟩ | h), hl⟩)
        · exact Or.inl h
        · exact absurd ⟨h1, h1 ▸ hl⟩ hc
        · exact Or.inr ⟨h, hl⟩

theorem rowCols_of_rows (Z : CSRMat) (f : Nat → List Nat) (m : Nat)
    (h1 : Z.nnzInRow = (List.range m).map (fun r => (f r).length))
    (h2 : Z.cols = (List.range m).map f) (r : Nat) (hr : r < m) : Z.rowCols r = f r := by
  have hn : Z.getNNZInRow r = (f r).length := by
    simp only [CSRMat.getNNZInRow, h1]
    exact getD_range_map _ _ _ _ hr
  have hc : Z.getCol r = fun idx => (f r).getD idx 0 := by
    funext idx
    simp only [CSRMat.getCol, h2]
    rw [getD_range_map _ _ _ _ hr]
  simp only [CSRMat.rowCols, hn, hc]
  exact range_map_getD _ _

theorem readMMMatrix_rowCols (self : CSRMat) (numVerts : Nat) (edgeList : List edge_t)
    (r : Nat) (hr : r < numVerts) :
    (readMMMatrix self numVerts edgeList).rowCols r =
      StdMap.keys ((assignPairs (List.replicate numVerts [])
        (edgeList.flatMap (mmPairs self.type))).getD r []) := by
  unfold readMMMatrix
  simp only
  rw [foldl_step_eq_assignPairs _ _ (readMMStep_eq self.type), copyRowSets_eq]
  exact rowCols_of_rows _
    (fun r => StdMap.keys ((assignPairs (List.replicate numVerts [])
      (edgeList.flatMap (mmPairs self.type))).getD r [])) numVerts
    (by simp [StdMap.keys]) rfl r hr

theorem readBinMatrix_rowCols (self : CSRMat) (numVerts : Nat) (edgeList : List edge_t)
    (r : Nat) (hr : r < numVerts) :
    (readBinMatrix self numVerts edgeList).rowCols r =
      StdMap.keys ((assignPairs (List.replicate numVerts [])
        (edgeList.flatMap (binPairs self.type))).getD r []) := by
  unfold readBinMatrix
  simp only
  rw [foldl_step_eq_assignPairs _ _ (readBinStep_eq self.type), copyRowSets_eq]
  exact rowCols_of_rows _
    (fun r => StdMap.keys ((assignPairs (List.replicate numVerts [])
      (edgeList.flatMap (binPairs self.type))).getD r [])) numVerts
    (by simp [StdMap.keys]) rfl r hr

theorem getD_replicate_nil {β : Type} (m r : Nat) :
    (List.replicate m ([] : List β)).getD r [] = [] := by
  rw [List.getD_eq_getElem?_getD]
  by_cases hr : r < m <;> simp [hr]

theorem assignPairs_replicate_keys (m : Nat) (ps : List (Nat × Nat)) (r c : Nat) (hr : r < m) :
    c ∈ StdMap.keys ((assignPairs (List.replicate m []) ps).getD r []) ↔ (r, c) ∈ ps := by
  rw [assignPairs_mem_keys, getD_replicate_nil]
  simp [StdMap.keys, hr]

theorem assignPairs_replicate_nodup (m : Nat) (ps : List (Nat × Nat)) (r : Nat) :
    (StdMap.keys ((assignPairs (List.replicate m []) ps).getD r [])).Nodup := by
  have h := assignPairs_WF ps (List.replicate m []) (fun r => by
    rw [getD_replicate_nil]; exact WF_nil) r
  unfold StdMap.WF at h
  exact h.imp (fun hab => Nat.ne_of_lt hab)

/-- Row `r` of the matrix `readMMMatrix` builds stores column `c` exactly when one of the
assignments of the edge loop targets `(r, c)`. -/
theorem readMMMatrix_stores (self : CSRMat) (numVerts : Nat) (edgeList : List edge_t)
    (r c : Nat) (hr : r < numVerts) :
    (readMMMatrix self numVerts edgeList).stores r c ↔
      (r, c) ∈ edgeList.flatMap (mmPairs self.type) := by
  unfold CSRMat.stores
  rw [readMMMatrix_rowCols self numVerts edgeList r hr, assignPairs_replicate_keys _ _ _ _ hr]

/-- Row `r` of the matrix `readBinMatrix` builds stores column `c` exactly when one of the
assignments of the edge loop targets `(r, c)`. -/
theorem readBinMatrix_stores (self : CSRMat) (numVerts : Nat) (edgeList : List edge_t)
    (r c : Nat) (hr : r < numVerts) :
    (readBinMatrix self numVerts edgeList).stores r c ↔
      (r, c) ∈ edgeList.flatMap (binPairs self.type) := by
  unfold CSRMat.stores
  rw [readBinMatrix_rowCols self numVerts edgeList r hr, assignPairs_replicate_keys _ _ _ _ hr]

/-- The `LOWERTRI` branch of the edge-list builders stores only pairs below the diagonal. -/
theorem lower_builders_ordered (numVerts : Nat) (edgeList : List edge_t) (r c : Nat)
    (hr : r < numVerts) :
    (edgesInRange1 numVerts edgeList →
      (readMMMatrix (CSRMat.fresh .LOWERTRI) numVerts edgeList).stores r c → c < r) ∧
    (edgesInRange0 numVerts edgeList →
      (readBinMatrix (CSRMat.fresh .LOWERTRI) numVerts edgeList).stores r c → c < r) := by
  constructor
  · intro hin hs
    rw [readMMMatrix_stores _ _ _ _ _ hr] at hs
    simp only [CSRMat.fresh, List.mem_flatMap, mmPairs] at hs
    obtain ⟨e, he, hp⟩ := hs
    have := hin e he
    by_cases hgt : e.v0 > e.v1
    · simp only [hgt, if_true, List.mem_singleton, Prod.mk.injEq] at hp
      omega
    · simp [hgt] at hp
  · intro _ hs
    rw [readBinMatrix_stores _ _ _ _ _ hr] at hs
    simp only [CSRMat.fresh, List.mem_flatMap, binPairs] at hs
    obtain ⟨e, he, hp⟩ := hs
    by_cases hgt : e.v0 > e.v1
    · simp only [hgt, if_true, List.mem_singleton, Prod.mk.injEq] at hp
      omega
    · simp [hgt] at hp

theorem getNNZInRow_eq_length (Z : CSRMat) (r : Nat) :
    Z.getNNZInRow r = (Z.rowCols r).length := by
  simp [CSRMat.rowCols]

theorem length_eq_of_nodup_of_mem_iff (l1 l2 : List Nat) (h1 : l1.Nodup) (h2 : l2.Nodup)
    (h : ∀ x, x ∈ l1 ↔ x ∈ l2) : l1.length = l2.length :=
  ((List.perm_ext_iff_of_nodup h1 h2).2 h).length_eq

/-- The `LOWERTRI` branch of the edge-list builders gives every row as many entries as its
vertex has distinct neighbours below it in the edge list. -/
theorem lower_builders_row_count (numVerts : Nat) (edgeList : List edge_t) (r : Nat)
    (hr : r < numVerts) :
    (edgesInRange1 numVerts edgeList →
      (readMMMatrix (CSRMat.fresh .LOWERTRI) numVerts edgeList).getNNZInRow r =
        filteredDegree .LOWERTRI edgeList (r + 1)) ∧
    (edgesInRange0 numVerts edgeList →
      (readBinMatrix (CSRMat.fresh .LOWERTRI) numVerts edgeList).getNNZInRow r =
        filteredDegree .LOWERTRI edgeList r) := by
  constructor
  · intro hin
    rw [getNNZInRow_eq_length, readMMMatrix_rowCols _ _ _ _ hr, filteredDegree,
      ← List.length_map _ (fun c => c + 1)]
    apply length_eq_of_nodup_of_mem_iff
    · exact (assignPairs_replicate_nodup _ _ _).map (fun a b h => by simpa using h)
    · exact List.nodup_dedup _
    · intro x
      simp only [List.mem_map, assignPairs_replicate_keys _ _ _ _ hr, CSRMat.fresh,
        List.mem_flatMap, mmPairs, List.mem_dedup, List.mem_filter, decide_eq_true_eq, if_true]
      constructor
      · rintro ⟨c, ⟨e, he, hp⟩, rfl⟩
        have := hin e he
        by_cases hgt : e.v0 > e.v1
        · simp only [hgt, if_true, List.mem_singleton, Prod.mk.injEq] at hp
          exact ⟨e, ⟨he, by omega, hgt⟩, by omega⟩
        · simp [hgt] at hp
      · rintro ⟨e, ⟨he, hv, hgt⟩, rfl⟩
        have := hin e he
        refine ⟨e.v1 - 1, ⟨e, he, ?_⟩, by omega⟩
        simp only [hgt, if_true, List.mem_singleton, Prod.mk.injEq]
        exact ⟨by omega, trivial⟩
  · intro _
    rw [getNNZInRow_eq_length, readBinMatrix_rowCols _ _ _ _ hr, filteredDegree]
    apply length_eq_of_nodup_of_mem_iff
    · exact assignPairs_replicate_nodup _ _ _
    · exact List.nodup_dedup _
    · intro x
      simp only [assignPairs_replicate_keys _ _ _ _ hr, CSRMat.fresh,
        List.mem_flatMap, binPairs, List.mem_dedup, List.mem_map, List.mem_filter,
        decide_eq_true_eq, if_true]
      constructor
      · rintro ⟨e, he, hp⟩
        by_cases hgt : e.v0 > e.v1
        · simp only [hgt, if_true, List.mem_singleton, Prod.mk.injEq] at hp
          exact ⟨e, ⟨he, by omega, hgt⟩, by omega⟩
        · simp [hgt] at hp
      · rintro ⟨e, ⟨he, hv, hgt⟩, rfl⟩
        refine ⟨e, he, ?_⟩
        simp only [hgt, if_true, List.mem_singleton, Prod.mk.injEq]
        exact ⟨by omega, trivial⟩

/-- C6 fails on the code: on a receiver of kind `UPPERTRI` both edge-list builders store the
edge `(v0, v1)`, `v0 < v1`, at row `v0`, column `v0`: the one-edge graph on two vertices
yields the diagonal entry `(0, 0)` and no entry `(0, 1)`. -/
theorem upper_builders_store_diagonal :
    (edgesInRange1 2 [⟨1, 2⟩] ∧
      (readMMMatrix (CSRMat.fresh .UPPERTRI) 2 [⟨1, 2⟩]).stores 0 0 ∧
      ¬ (readMMMatrix (CSRMat.fresh .UPPERTRI) 2 [⟨1, 2⟩]).stores 0 1 ∧
      (readMMMatrix (CSRMat.fresh .UPPERTRI) 2 [⟨1, 2⟩]).cols = [[0], []]) ∧
    (edgesInRange0 2 [⟨0, 1⟩] ∧
      (readBinMatrix (CSRMat.fresh .UPPERTRI) 2 [⟨0, 1⟩]).stores 0 0 ∧
      ¬ (readBinMatrix (CSRMat.fresh .UPPERTRI) 2 [⟨0, 1⟩]).stores 0 1 ∧
      (readBinMatrix (CSRMat.fresh .UPPERTRI) 2 [⟨0, 1⟩]).cols = [[0], []]) := by
  decide

/-- C7 fails on the code: on a receiver of kind `UPPERTRI` the edges `(1,2)` and `(1,3)` of
a 1-based list (vertex 1 has two neighbours above it) leave `nnzInRow[0] == 1`, and likewise
for the 0-based list `(0,1)`, `(0,2)`. -/
theorem upper_builders_row_count :
    (edgesInRange1 3 [⟨1, 2⟩, ⟨1, 3⟩] ∧
      (readMMMatrix (CSRMat.fresh .UPPERTRI) 3 [⟨1, 2⟩, ⟨1, 3⟩]).getNNZInRow 0 = 1 ∧
      filteredDegree .UPPERTRI [⟨1, 2⟩, ⟨1, 3⟩] 1 = 2) ∧
    (edgesInRange0 3 [⟨0, 1⟩, ⟨0, 2⟩] ∧
      (readBinMatrix (CSRMat.fresh .UPPERTRI) 3 [⟨0, 1⟩, ⟨0, 2⟩]).getNNZInRow 0 = 1 ∧
      filteredDegree .UPPERTRI [⟨0, 1⟩, ⟨0, 2⟩] 0 = 2) := by
  decide

/-- C8 as stated fails: on a receiver of kind `UNDEFINED` a self loop of the edge list is
stored as a diagonal entry by both edge-list builders. -/
theorem undefined_builders_keep_self_loop :
    (edgesInRange1 1 [⟨1, 1⟩] ∧ (readMMMatrix (CSRMat.fresh .UNDEFINED) 1 [⟨1, 1⟩]).stores 0 0) ∧
    (edgesInRange0 1 [⟨0, 0⟩] ∧
      (readBinMatrix (CSRMat.fresh .UNDEFINED) 1 [⟨0, 0⟩]).stores 0 0) := by
  decide

/-- C8 amended: for every in-range edge list, whatever duplicates or self loops it contains,
the edge-list builders store no `(row, col)` pair more than once, for every kind; for kind
`LOWERTRI` no stored entry has `row == col`; for kind `UNDEFINED` the entry `(r, r)` is
stored exactly when the edge list contains the self loop at that vertex. -/
theorem builders_no_parallel_edges (numVerts : Nat) (edgeList : List edge_t) (r : Nat)
    (hr : r < numVerts) :
    (edgesInRange1 numVerts edgeList →
      (∀ t, ((readMMMatrix (CSRMat.fresh t) numVerts edgeList).rowCols r).Nodup) ∧
      ¬ (readMMMatrix (CSRMat.fresh .LOWERTRI) numVerts edgeList).stores r r ∧
      ((readMMMatrix (CSRMat.fresh .UNDEFINED) numVerts edgeList).stores r r ↔
        (⟨r + 1, r + 1⟩ : edge_t) ∈ edgeList)) ∧
    (edgesInRange0 numVerts edgeList →
      (∀ t, ((readBinMatrix (CSRMat.fresh t) numVerts edgeList).rowCols r).Nodup) ∧
      ¬ (readBinMatrix (CSRMat.fresh .LOWERTRI) numVerts edgeList).stores r r ∧
      ((readBinMatrix (CSRMat.fresh .UNDEFINED) numVerts edgeList).stores r r ↔
        (⟨r, r⟩ : edge_t) ∈ edgeList)) := by
  constructor
  · intro hin
    refine ⟨?_, ?_, ?_⟩
    · intro t
      rw [readMMMatrix_rowCols _ _ _ _ hr]
      exact assignPairs_replicate_nodup _ _ _
    · intro hs
      exact absurd ((lower_builders_ordered numVerts edgeList r r hr).1 hin hs) (lt_irrefl _)
    · rw [readMMMatrix_stores _ _ _ _ _ hr]
      simp only [CSRMat.fresh, List.mem_flatMap, mmPairs, List.mem_singleton, Prod.mk.injEq]
      constructor
      · rintro ⟨e, he, h1, h2⟩
        have := hin e he
        have h3 : e = ⟨r + 1, r + 1⟩ := by
          cases e with
          | mk a b =>
            simp only at h1 h2 this
            simp only [edge_t.mk.injEq]
            omega
        rw [← h3]; exact he
      · intro he
        exact ⟨_, he, by simp, by simp⟩
  · intro _
    refine ⟨?_, ?_, ?_⟩
    · intro t
      rw [readBinMatrix_rowCols _ _ _ _ hr]
      exact assignPairs_replicate_nodup _ _ _
    · intro hs
      have := (lower_builders_ordered numVerts edgeList r r hr).2 (by assumption) hs
      exact absurd this (lt_irrefl _)
    · rw [readBinMatrix_stores _ _ _ _ _ hr]
      simp only [CSRMat.fresh, List.mem_flatMap, binPairs, List.mem_cons, Prod.mk.injEq,
        List.mem_singleton]
      constructor
      · rintro ⟨e, he, h⟩
        have h3 : e = ⟨r, r⟩ := by
          cases e with
          | mk a b =>
            simp only [List.not_mem_nil, or_false] at h
            simp only [edge_t.mk.injEq]
            omega
        rw [← h3]; exact he
      · intro he
        exact ⟨_, he, by simp⟩

theorem builders_no_parallel_edges_witness :
    (edgesInRange1 3 [⟨2, 1⟩, ⟨2, 1⟩, ⟨3, 3⟩, ⟨1, 2⟩] ∧
      (∀ t, ((readMMMatrix (CSRMat.fresh t) 3 [⟨2, 1⟩, ⟨2, 1⟩, ⟨3, 3⟩, ⟨1, 2⟩]).rowCols
        2).Nodup) ∧
      ¬ (readMMMatrix (CSRMat.fresh .LOWERTRI) 3 [⟨2, 1⟩, ⟨2, 1⟩, ⟨3, 3⟩, ⟨1, 2⟩]).stores 2 2 ∧
      ((readMMMatrix (CSRMat.fresh .UNDEFINED) 3 [⟨2, 1⟩, ⟨2, 1⟩, ⟨3, 3⟩, ⟨1, 2⟩]).stores 2 2 ↔
        (⟨2 + 1, 2 + 1⟩ : edge_t) ∈ [⟨2, 1⟩, ⟨2, 1⟩, ⟨3, 3⟩, ⟨1, 2⟩])) ∧
    (edgesInRange0 3 [⟨1, 0⟩, ⟨1, 0⟩, ⟨2, 2⟩, ⟨0, 1⟩] ∧
      (∀ t, ((readBinMatrix (CSRMat.fresh t) 3 [⟨1, 0⟩, ⟨1, 0⟩, ⟨2, 2⟩, ⟨0, 1⟩]).rowCols
        2).Nodup) ∧
      ¬ (readBinMatrix (CSRMat.fresh .LOWERTRI) 3 [⟨1, 0⟩, ⟨1, 0⟩, ⟨2, 2⟩, ⟨0, 1⟩]).stores 2 2 ∧
      ((readBinMatrix (CSRMat.fresh .UNDEFINED) 3 [⟨1, 0⟩, ⟨1, 0⟩, ⟨2, 2⟩, ⟨0, 1⟩]).stores 2 2 ↔
        (⟨2, 2⟩ : edge_t) ∈ [⟨1, 0⟩, ⟨1, 0⟩, ⟨2, 2⟩, ⟨0, 1⟩])) :=
  ⟨⟨by decide,
      (builders_no_parallel_edges 3 [⟨2, 1⟩, ⟨2, 1⟩, ⟨3, 3⟩, ⟨1, 2⟩] 2 (by decide)).1
        (by decide)⟩,
    ⟨by decide,
      (builders_no_parallel_edges 3 [⟨1, 0⟩, ⟨1, 0⟩, ⟨2, 2⟩, ⟨0, 1⟩] 2 (by decide)).2
        (by decide)⟩⟩

/-! ### createTriMatrix -/

theorem rowCols_eq_rowEntries (Z : CSRMat) (i : Nat) :
    Z.rowCols i = (Z.rowEntries i).map (fun e => e.1) := by
  simp [CSRMat.rowCols, CSRMat.rowEntries, List.map_map, Function.comp_def]

theorem range_map_getD_pair (l : List (Nat × Nat)) :
    (List.range l.length).map
      (fun idx => ((l.map (fun e => e.1)).getD idx 0, (l.map (fun e => e.2)).getD idx 0)) = l := by
  apply List.ext_getElem?
  intro i
  by_cases hi : i < l.length
  · simp [hi, List.getElem?_range, List.getD_eq_getElem?_getD]
  · have h2 : l.length ≤ i := by omega
    have h1 : (List.range l.length).length ≤ i := by simp; omega
    rw [List.getElem?_eq_none h2, List.getElem?_map, List.getElem?_eq_none h1]
    rfl

theorem rowEntries_of_rows (Z : CSRMat) (ent : Nat → List (Nat × Nat)) (m : Nat)
    (h1 : Z.nnzInRow = (List.range m).map (fun r => (ent r).length))
    (h2 : Z.cols = (List.range m).map (fun r => (ent r).map (fun e => e.1)))
    (h3 : Z.vals = (List.range m).map (fun r => (ent r).map (fun e => e.2)))
    (r : Nat) (hr : r < m) : Z.rowEntries r = ent r := by
  have hn : Z.getNNZInRow r = (ent r).length := by
    simp only [CSRMat.getNNZInRow, h1]
    exact getD_range_map _ _ _ _ hr
  have hc : (fun idx => (Z.getCol r idx, Z.getVal r idx)) =
      fun idx => (((ent r).map (fun e => e.1)).getD idx 0,
        ((ent r).map (fun e => e.2)).getD idx 0) := by
    funext idx
    simp only [CSRMat.getCol, CSRMat.getVal, h2, h3]
    rw [getD_range_map _ _ _ _ hr, getD_range_map _ _ _ _ hr]
  simp only [CSRMat.rowEntries, hn, hc]
  exact range_map_getD_pair _

theorem foldl_cond_eq_filter {α β : Type} (p : α → Bool) (f : β → α → β) (l : List α) (b : β) :
    l.foldl (fun acc x => if p x = true then f acc x else acc) b = (l.filter p).foldl f b := by
  induction l generalizing b with
  | nil => rfl
  | cons x xs ih =>
    by_cases h : p x = true
    · simp only [List.foldl_cons, h, if_true, List.filter_cons]
      exact ih _
    · simp only [List.foldl_cons, h, if_false, List.filter_cons]
      exact ih _

theorem triRowMap_eq (S : CSRMat) (kind : matrixtype) (r : Nat) :
    triRowMap S kind r =
      assignAll [] ((S.rowEntries r).filter (fun e => triKeep kind r e.1)) := by
  unfold triRowMap assignAll CSRMat.rowEntries
  rw [← foldl_cond_eq_filter, List.foldl_map]
  congr 1
  funext nzMap idx
  simp only [triKeep, decide_eq_true_eq]
  by_cases h1 : kind = .LOWERTRI ∧ r > S.getCol r idx
  · rw [if_pos h1, if_pos (Or.inl h1)]
  · by_cases h2 : kind = .UPPERTRI ∧ r < S.getCol r idx
    · rw [if_neg h1, if_pos h2, if_pos (Or.inr h2)]
    · rw [if_neg h1, if_neg h2, if_neg (by tauto)]

theorem assignAll_WF (es : List (Nat × Nat)) (mp : StdMap Nat) (h : mp.WF) :
    (assignAll mp es).WF := by
  induction es generalizing mp with
  | nil => exact h
  | cons e es ih => exact ih _ (StdMap.WF_assign mp e.1 e.2 h)

theorem assignAll_mem_keys (es : List (Nat × Nat)) (mp : StdMap Nat) (c : Nat) :
    c ∈ StdMap.keys (assignAll mp es) ↔ c ∈ StdMap.keys mp ∨ c ∈ es.map (fun e => e.1) := by
  induction es generalizing mp with
  | nil => simp [assignAll]
  | cons e es ih =>
    simp only [assignAll, List.foldl_cons] at ih ⊢
    rw [ih, StdMap.mem_keys_assign]
    simp only [List.map_cons, List.mem_cons]
    tauto

theorem assignAll_find_sound (es : List (Nat × Nat)) (mp : StdMap Nat) (c v : Nat)
    (h : StdMap.find (assignAll mp es) c = some v) : (c, v) ∈ es ∨ StdMap.find mp c = some v := by
  induction es generalizing mp with
  | nil => exact Or.inr h
  | cons e es ih =>
    simp only [assignAll, List.foldl_cons] at ih h
    rcases ih _ h with h1 | h1
    · exact Or.inl (List.mem_cons_of_mem _ h1)
    · rw [StdMap.find_assign] at h1
      by_cases hc : c = e.1
      · simp only [hc, if_true, Option.some.injEq] at h1
        left
        rw [hc, ← h1]
        exact List.mem_cons_self _ _
      · simp only [hc, if_false] at h1
        exact Or.inr h1

theorem assignAll_find_of_not_mem (es : List (Nat × Nat)) (mp : StdMap Nat) (c : Nat)
    (h : c ∉ es.map (fun e => e.1)) : StdMap.find (assignAll mp es) c = StdMap.find mp c := by
  induction es generalizing mp with
  | nil => rfl
  | cons e es ih =>
    simp only [List.map_cons, List.mem_cons, not_or] at h
    simp only [assignAll, List.foldl_cons] at ih ⊢
    rw [ih _ h.2, StdMap.find_assign]
    simp [h.1]

theorem assignAll_find_complete (es : List (Nat × Nat)) (mp : StdMap Nat) (c v : Nat)
    (hnd : (es.map (fun e => e.1)).Nodup) (h : (c, v) ∈ es) :
    StdMap.find (assignAll mp es) c = some v := by
  induction es generalizing mp with
  | nil => simp at h
  | cons e es ih =>
    simp only [List.map_cons, List.nodup_cons] at hnd
    simp only [assignAll, List.foldl_cons] at ih ⊢
    rcases List.mem_cons.1 h with h1 | h1
    · subst h1
      have := assignAll_find_of_not_mem es (StdMap.assign mp c v) c hnd.1
      simp only [assignAll] at this
      rw [this, StdMap.find_assign]
      simp
    · exact ih _ hnd.2 h1

theorem createTriMatrix_rowEntries (self S : CSRMat) (kind : matrixtype) (hsq : S.m = S.n)
    (hk : kind = .LOWERTRI ∨ kind = .UPPERTRI) :
    ∃ Z, createTriMatrix self S kind = some Z ∧ Z.m = S.m ∧ Z.n = S.n ∧ Z.type = kind ∧
      ∀ r, r < S.m → Z.rowEntries r =
        assignAll [] ((S.rowEntries r).filter (fun e => triKeep kind r e.1)) := by
  refine ⟨_, createTriMatrix_eq self S kind hsq hk, rfl, rfl, rfl, ?_⟩
  intro r hr
  rw [← triRowMap_eq]
  exact rowEntries_of_rows _ (fun r => triRowMap S kind r) S.m rfl rfl rfl r hr

/-- C9: for a square source `S` and a kind `LOWERTRI` or `UPPERTRI`, `createTriMatrix`
completes with a matrix of the same dimensions whose row `r` stores column `c` exactly when
row `r` of `S` stores `c` and `r > c` (lower) or `r < c` (upper); every stored value is a
value `S` stores at that position, and it is the value of `S` when the columns of the row are
pairwise distinct; in particular no diagonal entry is stored. -/
theorem createTriMatrix_spec (self S : CSRMat) (kind : matrixtype) (hsq : S.m = S.n)
    (hk : kind = .LOWERTRI ∨ kind = .UPPERTRI) :
    ∃ Z, createTriMatrix self S kind = some Z ∧ Z.m = S.m ∧ Z.n = S.n ∧
      ∀ r, r < S.m →
        (∀ c, Z.stores r c ↔
          (S.stores r c ∧ ((kind = .LOWERTRI ∧ r > c) ∨ (kind = .UPPERTRI ∧ r < c)))) ∧
        (∀ c v, (c, v) ∈ Z.rowEntries r → (c, v) ∈ S.rowEntries r) ∧
        ((S.rowCols r).Nodup → ∀ c v, (c, v) ∈ Z.rowEntries r ↔
          ((c, v) ∈ S.rowEntries r ∧ ((kind = .LOWERTRI ∧ r > c) ∨ (kind = .UPPERTRI ∧ r < c)))) ∧
        ¬ Z.stores r r := by
  obtain ⟨Z, hZ, hm, hn, _, hrows⟩ := createTriMatrix_rowEntries self S kind hsq hk
  refine ⟨Z, hZ, hm, hn, ?_⟩
  intro r hr
  have hre := hrows r hr
  have hwf : StdMap.WF (assignAll []
      ((S.rowEntries r).filter (fun e => triKeep kind r e.1))) := assignAll_WF _ _ WF_nil
  have hst : ∀ c, Z.stores r c ↔
      (S.stores r c ∧ ((kind = .LOWERTRI ∧ r > c) ∨ (kind = .UPPERTRI ∧ r < c))) := by
    intro c
    unfold CSRMat.stores
    rw [rowCols_eq_rowEntries, hre, rowCols_eq_rowEntries]
    have := assignAll_mem_keys ((S.rowEntries r).filter (fun e => triKeep kind r e.1)) [] c
    simp only [StdMap.keys] at this
    rw [show (fun e : Nat × Nat => e.1) = Prod.fst from rfl, this]
    simp only [List.map_nil, List.not_mem_nil, false_or, List.mem_map, List.mem_filter,
      triKeep, decide_eq_true_eq]
    constructor
    · rintro ⟨e, ⟨he, hord⟩, rfl⟩
      exact ⟨⟨e, he, rfl⟩, hord⟩
    · rintro ⟨⟨e, he, rfl⟩, hord⟩
      exact ⟨e, ⟨he, hord⟩, rfl⟩
  refine ⟨hst, ?_, ?_, ?_⟩
  · intro c v hcv
    rw [hre, StdMap.mem_iff_find _ hwf] at hcv
    rcases assignAll_find_sound _ _ _ _ hcv with h | h
    · exact (List.mem_filter.1 h).1
    · simp [StdMap.find] at h
  · intro hnd c v
    rw [hre, StdMap.mem_iff_find _ hwf]
    constructor
    · intro hcv
      rcases assignAll_find_sound _ _ _ _ hcv with h | h
      · have := List.mem_filter.1 h
        refine ⟨this.1, ?_⟩
        simpa [triKeep] using this.2
      · simp [StdMap.find] at h
    · rintro ⟨hmem, hord⟩
      apply assignAll_find_complete
      · rw [rowCols_eq_rowEntries] at hnd
        exact hnd.sublist (List.Sublist.map _ (List.filter_sublist _))
      · exact List.mem_filter.2 ⟨hmem, by simpa [triKeep] using hord⟩
  · intro hs
    have := ((hst r).1 hs).2
    omega

theorem createTriMatrix_spec_witness :
    k4Full.m = k4Full.n ∧
    ∃ Z, createTriMatrix (CSRMat.fresh .UNDEFINED) k4Full .LOWERTRI = some Z ∧
      Z.m = k4Full.m ∧ Z.n = k4Full.n ∧
      ∀ r, r < k4Full.m →
        (∀ c, Z.stores r c ↔
          (k4Full.stores r c ∧
            ((matrixtype.LOWERTRI = .LOWERTRI ∧ r > c) ∨
              (matrixtype.LOWERTRI = .UPPERTRI ∧ r < c)))) ∧
        (∀ c v, (c, v) ∈ Z.rowEntries r → (c, v) ∈ k4Full.rowEntries r) ∧
        ((k4Full.rowCols r).Nodup → ∀ c v, (c, v) ∈ Z.rowEntries r ↔
          ((c, v) ∈ k4Full.rowEntries r ∧
            ((matrixtype.LOWERTRI = .LOWERTRI ∧ r > c) ∨
              (matrixtype.LOWERTRI = .UPPERTRI ∧ r < c)))) ∧
        ¬ Z.stores r r :=
  ⟨by decide, createTriMatrix_spec (CSRMat.fresh .UNDEFINED) k4Full .LOWERTRI (by decide)
    (Or.inl rfl)⟩

/-! ### createIncidentMatrix -/

theorem StdSet.mem_insert (s : StdSet) (y x : Nat) :
    x ∈ StdSet.insert s y ↔ x = y ∨ x ∈ s := by
  induction s with
  | nil => simp [StdSet.insert]
  | cons z t ih =>
    simp only [StdSet.insert]
    by_cases h1 : y < z
    · simp [h1]
    · by_cases h2 : y = z
      · simp [h2]
      · simp only [h1, h2, if_false, List.mem_cons, ih]
        tauto

theorem StdSet.sorted_insert (s : StdSet) (y : Nat) (h : s.Pairwise (· < ·)) :
    (StdSet.insert s y).Pairwise (· < ·) := by
  induction s with
  | nil => simp [StdSet.insert]
  | cons z t ih =>
    rw [List.pairwise_cons] at h
    simp only [StdSet.insert]
    by_cases h1 : y < z
    · simp only [h1, if_true, List.pairwise_cons]
      refine ⟨?_, h.1, h.2⟩
      intro x hx
      rcases List.mem_cons.1 hx with rfl | hx
      · exact h1
      · exact lt_trans h1 (h.1 x hx)
    · by_cases h2 : y = z
      · simp only [h1, h2, if_true, if_false, List.pairwise_cons, lt_self_iff_false]
        exact ⟨h.1, h.2⟩
      · simp only [h1, h2, if_false, List.pairwise_cons]
        refine ⟨?_, ih h.2⟩
        intro x hx
        rcases (StdSet.mem_insert t y x).1 hx with rfl | hx
        · omega
        · exact h.1 x hx

theorem StdSet.length_insert (s : StdSet) (y : Nat) (h : y ∉ s) :
    (StdSet.insert s y).length = s.length + 1 := by
  induction s with
  | nil => simp [StdSet.insert]
  | cons z t ih =>
    simp only [List.mem_cons, not_or] at h
    simp only [StdSet.insert]
    by_cases h1 : y < z
    · simp [h1]
    · simp [h1, h.1, ih h.2]

theorem incidentStep_eq (r : Nat) (st : List StdSet × StdMap (StdMap Nat) × Nat) (c : Nat) :
    incidentStep r st c = if decide (r < c) = true then incInsert st (r, c) else st := by
  simp only [incidentStep, incInsert, decide_eq_true_eq]

theorem incidentScan_eq (S : CSRMat) (eIndices : StdMap (StdMap Nat)) :
    incidentScan S S.m eIndices =
      (edgePairs S).foldl incInsert (List.replicate S.m [], eIndices, 0) := by
  unfold incidentScan edgePairs
  rw [List.flatMap_def, List.foldl_flatten, List.foldl_map]
  congr 1
  funext st r
  rw [List.foldl_map, ← foldl_cond_eq_filter]
  simp only [CSRMat.rowCols, List.foldl_map, incidentStep_eq]

theorem incInsert_foldl_count (ps : List (Nat × Nat))
    (st : List StdSet × StdMap (StdMap Nat) × Nat) :
    (ps.foldl incInsert st).2.2 = st.2.2 + ps.length := by
  induction ps generalizing st with
  | nil => rfl
  | cons p ps ih =>
    rw [List.foldl_cons, ih]
    simp only [incInsert, List.length_cons]
    omega

theorem incInsert_foldl_length (ps : List (Nat × Nat))
    (st : List StdSet × StdMap (StdMap Nat) × Nat) :
    (ps.foldl incInsert st).1.length = st.1.length := by
  induction ps generalizing st with
  | nil => rfl
  | cons p ps ih =>
    rw [List.foldl_cons, ih]
    simp only [incInsert, modifyAt_length]

theorem incInsert_mem (st : List StdSet × StdMap (StdMap Nat) × Nat) (p : Nat × Nat)
    (h1 : p.1 < st.1.length) (h2 : p.2 < st.1.length) (r x : Nat) :
    x ∈ (incInsert st p).1.getD r [] ↔
      x ∈ st.1.getD r [] ∨ (x = st.2.2 ∧ (p.1 = r ∨ p.2 = r)) := by
  obtain ⟨a, b⟩ := p
  simp only at h1 h2
  simp only [incInsert]
  rw [getD_modifyAt, modifyAt_length, getD_modifyAt, getD_modifyAt]
  by_cases hb : r = b
  · by_cases ha : r = a
    · subst ha
      subst hb
      simp only [h1, and_self, if_true, StdSet.mem_insert, or_self, and_true]
      tauto
    · have ha2 : ¬ a = r := fun h => ha h.symm
      subst hb
      have hne : ¬ (r = a ∧ a < st.1.length) := fun h => ha h.1
      simp only [h2, and_self, if_true, hne, if_false, StdSet.mem_insert, ha2, false_or,
        and_true]
      tauto
  · have hb2 : ¬ b = r := fun h => hb h.symm
    simp only [hb, false_and, if_false, hb2, or_false]
    by_cases ha : r = a
    · subst ha
      simp only [h1, and_self, if_true, StdSet.mem_insert, and_true]
      tauto
    · have ha2 : ¬ a = r := fun h => ha h.symm
      simp [ha, ha2]

theorem incInsert_foldl_mem (ps : List (Nat × Nat))
    (st : List StdSet × StdMap (StdMap Nat) × Nat)
    (hin : ∀ p ∈ ps, p.1 < st.1.length ∧ p.2 < st.1.length) (r x : Nat) :
    x ∈ (ps.foldl incInsert st).1.getD r [] ↔
      x ∈ st.1.getD r [] ∨
        ∃ idx q, ps[idx]? = some q ∧ x = st.2.2 + idx ∧ (q.1 = r ∨ q.2 = r) := by
  induction ps generalizing st with
  | nil => simp
  | cons p ps ih =>
    have hp := hin p (List.mem_cons_self _ _)
    have hlen : (incInsert st p).1.length = st.1.length := by
      simp only [incInsert, modifyAt_length]
    have hk : (incInsert st p).2.2 = st.2.2 + 1 := rfl
    rw [List.foldl_cons, ih (incInsert st p) (fun q hq => by
      rw [hlen]; exact hin q (List.mem_cons_of_mem _ hq)), incInsert_mem st p hp.1 hp.2, hk]
    constructor
    · rintro ((h | ⟨h1, h2⟩) | ⟨idx, q, hq, hx, hr⟩)
      · exact Or.inl h
      · exact Or.inr ⟨0, p, by simp, by omega, h2⟩
      · exact Or.inr ⟨idx + 1, q, by simpa using hq, by omega, hr⟩
    · rintro (h | ⟨idx, q, hq, hx, hr⟩)
      · exact Or.inl (Or.inl h)
      · cases idx with
        | zero =>
          simp only [List.getElem?_cons_zero, Option.some.injEq] at hq
          subst hq
          exact Or.inl (Or.inr ⟨by omega, hr⟩)
        | succ i =>
          simp only [List.getElem?_cons_succ] at hq
          exact Or.inr ⟨i, q, hq, by omega, hr⟩

theorem incInsert_foldl_sorted (ps : List (Nat × Nat))
    (st : List StdSet × StdMap (StdMap Nat) × Nat)
    (h : ∀ r, (st.1.getD r []).Pairwise (· < ·)) :
    ∀ r, ((ps.foldl incInsert st).1.getD r []).Pairwise (· < ·) := by
  induction ps generalizing st with
  | nil => exact h
  | cons p ps ih =>
    rw [List.foldl_cons]
    apply ih
    intro r
    have h1 : ∀ r, ((modifyAt (fun s => StdSet.insert s st.2.2) st.1 p.1).getD r []).Pairwise
        (· < ·) := by
      intro r
      rw [getD_modifyAt]
      by_cases hc : r = p.1 ∧ p.1 < st.1.length
      · simp only [hc, and_self, if_true]
        exact StdSet.sorted_insert _ _ (h _)
      · simp only [hc, if_false]
        exact h r
    simp only [incInsert]
    rw [getD_modifyAt]
    by_cases hc : r = p.2 ∧ p.2 < (modifyAt (fun s => StdSet.insert s st.2.2) st.1 p.1).length
    · simp only [hc, and_self, if_true]
      exact StdSet.sorted_insert _ _ (h1 _)
    · simp only [hc, if_false]
      exact h1 r

theorem sum_length_modifyAt (f : List Nat → List Nat) (l : List (List Nat)) (i : Nat)
    (hi : i < l.length) (hf : (f (l.getD i [])).length = (l.getD i []).length + 1) :
    ((modifyAt f l i).map List.length).sum = (l.map List.length).sum + 1 := by
  induction l generalizing i with
  | nil => simp at hi
  | cons x xs ih =>
    cases i with
    | zero =>
      simp only [List.getD_cons_zero] at hf
      simp only [modifyAt, List.map_cons, List.sum_cons, hf]
      omega
    | succ j =>
      simp only [List.getD_cons_succ] at hf
      simp only [List.length_cons] at hi
      simp only [modifyAt, List.map_cons, List.sum_cons, ih j (by omega) hf]
      omega

theorem incInsert_sum (st : List StdSet × StdMap (StdMap Nat) × Nat) (p : Nat × Nat)
    (h1 : p.1 < st.1.length) (h2 : p.2 < st.1.length) (hlt : p.1 < p.2)
    (hfresh : ∀ r, ∀ x ∈ st.1.getD r [], x < st.2.2) :
    ((incInsert st p).1.map List.length).sum = (st.1.map List.length).sum + 2 := by
  simp only [incInsert]
  have hne : ¬ (p.2 = p.1 ∧ p.1 < st.1.length) := fun h => by omega
  rw [sum_length_modifyAt _ _ p.2 (by rw [modifyAt_length]; exact h2),
    sum_length_modifyAt _ _ p.1 h1]
  · apply StdSet.length_insert
    intro hmem
    exact absurd (hfresh _ _ hmem) (lt_irrefl _)
  · rw [getD_modifyAt]
    simp only [hne, if_false]
    apply StdSet.length_insert
    intro hmem
    exact absurd (hfresh _ _ hmem) (lt_irrefl _)

theorem incInsert_foldl_sum (ps : List (Nat × Nat))
    (st : List StdSet × StdMap (StdMap Nat) × Nat)
    (hin : ∀ p ∈ ps, p.1 < st.1.length ∧ p.2 < st.1.length) (hlt : ∀ p ∈ ps, p.1 < p.2)
    (hfresh : ∀ r, ∀ x ∈ st.1.getD r [], x < st.2.2) :
    ((ps.foldl incInsert st).1.map List.length).sum =
      (st.1.map List.length).sum + 2 * ps.length := by
  induction ps generalizing st with
  | nil => simp
  | cons p ps ih =>
    have hp := hin p (List.mem_cons_self _ _)
    have hlen : (incInsert st p).1.length = st.1.length := by
      simp only [incInsert, modifyAt_length]
    rw [List.foldl_cons, ih (incInsert st p)
      (fun q hq => by rw [hlen]; exact hin q (List.mem_cons_of_mem _ hq))
      (fun q hq => hlt q (List.mem_cons_of_mem _ hq)) ?_,
      incInsert_sum st p hp.1 hp.2 (hlt p (List.mem_cons_self _ _)) hfresh]
    · simp only [List.length_cons]; omega
    · intro r x hx
      rw [incInsert_mem st p hp.1 hp.2] at hx
      have hk : (incInsert st p).2.2 = st.2.2 + 1 := rfl
      rw [hk]
      rcases hx with h | ⟨h, _⟩
      · exact Nat.lt_succ_of_lt (hfresh r x h)
      · omega

theorem edgePairs_inRange (S : CSRMat) (hb : S.ColsBelow S.m) :
    ∀ p ∈ edgePairs S, p.1 < S.m ∧ p.2 < S.m ∧ p.1 < p.2 := by
  intro p hp
  simp only [edgePairs, List.mem_flatMap, List.mem_range, List.mem_map, List.mem_filter,
    decide_eq_true_eq] at hp
  obtain ⟨r, hr, c, ⟨hc, hlt⟩, rfl⟩ := hp
  exact ⟨hr, hb r hr c hc, hlt⟩

theorem range_map_getD_comp {α β : Type} (l : List α) (d : α) (f : α → β) :
    (List.range l.length).map (fun r => f (l.getD r d)) = l.map f := by
  have := congrArg (List.map f) (range_map_getD l d)
  simpa [List.map_map, Function.comp_def] using this

theorem incidentScan_facts (S : CSRMat) (eIndices : StdMap (StdMap Nat))
    (hb : S.ColsBelow S.m) :
    (incidentScan S S.m eIndices).2.2 = (edgePairs S).length ∧
    (incidentScan S S.m eIndices).1.length = S.m ∧
    (∀ r x, x ∈ (incidentScan S S.m eIndices).1.getD r [] ↔
      ∃ q, (edgePairs S)[x]? = some q ∧ (q.1 = r ∨ q.2 = r)) ∧
    (∀ r, ((incidentScan S S.m eIndices).1.getD r []).Pairwise (· < ·)) ∧
    (((incidentScan S S.m eIndices).1.map List.length).sum = 2 * (edgePairs S).length) := by
  have hin := edgePairs_inRange S hb
  have hin2 : ∀ p ∈ edgePairs S,
      p.1 < (List.replicate S.m ([] : StdSet), eIndices, 0).1.length ∧
      p.2 < (List.replicate S.m ([] : StdSet), eIndices, 0).1.length := by
    intro p hp
    simp only [List.length_replicate]
    exact ⟨(hin p hp).1, (hin p hp).2.1⟩
  rw [incidentScan_eq]
  refine ⟨?_, ?_, ?_, ?_, ?_⟩
  · rw [incInsert_foldl_count]; simp
  · rw [incInsert_foldl_length]; simp
  · intro r x
    rw [incInsert_foldl_mem _ _ hin2, getD_replicate_nil]
    simp only [List.not_mem_nil, false_or, Nat.zero_add]
    constructor
    · rintro ⟨idx, q, hq, rfl, hr⟩
      exact ⟨q, hq, hr⟩
    · rintro ⟨q, hq, hr⟩
      exact ⟨x, q, hq, rfl, hr⟩
  · apply incInsert_foldl_sorted
    intro r
    rw [getD_replicate_nil]
    exact List.Pairwise.nil
  · rw [incInsert_foldl_sum _ _ hin2 (fun p hp => (hin p hp).2.2)]
    · simp
    · intro r x hx
      rw [getD_replicate_nil] at hx
      simp at hx

/-- C10: for a source `S` with `m` rows whose column indices are all below `m`,
`createIncidentMatrix` on a receiver of kind `INCIDENCE` completes with a matrix of `m` rows
and `n` columns, `n` the number of stored pairs `(row, col)` of `S` with `row < col`; every
column `e < n` is stored in exactly the two rows `u < v` that are the endpoints of the
`e`-th such pair, once in each, every stored value is 1, and `nnz == 2*n`. -/
theorem createIncidentMatrix_spec (self S : CSRMat) (eIndices : StdMap (StdMap Nat))
    (ht : self.type = .INCIDENCE) (hb : S.ColsBelow S.m) :
    ∃ Z eI, createIncidentMatrix self S eIndices = some (Z, eI) ∧
      Z.m = S.m ∧ Z.n = (edgePairs S).length ∧
      (∀ e, e < Z.n → ∃ u v, (edgePairs S)[e]? = some (u, v) ∧ u < v ∧ v < S.m ∧
        ∀ r, r < S.m → (Z.stores r e ↔ (r = u ∨ r = v))) ∧
      (∀ r, r < S.m → (Z.rowCols r).Nodup ∧ (∀ c ∈ Z.rowCols r, c < Z.n) ∧
        ∀ cv ∈ Z.rowEntries r, cv.2 = 1) ∧
      Z.nnz = 2 * Z.n ∧ Z.nnzInRow.sum = 2 * Z.n := by
  obtain ⟨hn, hlen, hmem, hsorted, hsum⟩ := incidentScan_facts S eIndices hb
  have hin := edgePairs_inRange S hb
  have hsum2 : ((List.range S.m).map
      (fun r => ((incidentScan S S.m eIndices).1.getD r []).length)).sum =
      2 * (edgePairs S).length := by
    have := range_map_getD_comp (incidentScan S S.m eIndices).1 [] List.length
    rw [hlen] at this
    rw [this, hsum]
  refine ⟨_, _, createIncidentMatrix_eq self S eIndices ht, rfl, hn, ?_, ?_, ?_, ?_⟩
  · intro e he
    simp only [hn] at he
    obtain ⟨u, v, hq⟩ : ∃ u v, (edgePairs S)[e] = (u, v) := ⟨_, _, rfl⟩
    have hq2 : (edgePairs S)[e]? = some (u, v) := by
      rw [List.getElem?_eq_getElem he, hq]
    have hr := hin (u, v) (by rw [← hq]; exact List.getElem_mem _)
    refine ⟨u, v, hq2, hr.2.2, hr.2.1, ?_⟩
    intro r hr0
    unfold CSRMat.stores
    rw [rowCols_of_rows _ (fun r => (incidentScan S S.m eIndices).1.getD r []) S.m rfl rfl r hr0,
      hmem, hq2]
    simp only [Option.some.injEq, exists_eq_left']
    constructor
    · rintro (h | h)
      · exact Or.inl h.symm
      · exact Or.inr h.symm
    · rintro (h | h)
      · exact Or.inl h.symm
      · exact Or.inr h.symm
  · intro r hr0
    have hrc := rowCols_of_rows
      ({ self with
          m := S.m
          n := (incidentScan S S.m eIndices).2.2
          nnz := ((List.range S.m).map
            (fun r => ((incidentScan S S.m eIndices).1.getD r []).length)).sum
          nnzInRow := (List.range S.m).map
            (fun r => ((incidentScan S S.m eIndices).1.getD r []).length)
          cols := (List.range S.m).map (fun r => (incidentScan S S.m eIndices).1.getD r [])
          vals := (List.range S.m).map
            (fun r => ((incidentScan S S.m eIndices).1.getD r []).map (fun _ => 1)) } : CSRMat)
      (fun r => (incidentScan S S.m eIndices).1.getD r []) S.m rfl rfl r hr0
    refine ⟨?_, ?_, ?_⟩
    · rw [hrc]
      exact (hsorted r).imp (fun hab => Nat.ne_of_lt hab)
    · intro c hc
      rw [hrc, hmem] at hc
      obtain ⟨q, hq, _⟩ := hc
      have := (List.getElem?_eq_some_iff.1 hq).1
      simp only [hn]
      exact this
    · intro cv hcv
      rw [rowEntries_of_rows _
        (fun r => ((incidentScan S S.m eIndices).1.getD r []).map (fun e => (e, 1))) S.m
        (by simp) (by simp [List.map_map, Function.comp_def])
        (by simp [List.map_map, Function.comp_def]) r hr0] at hcv
      obtain ⟨e, _, rfl⟩ := List.mem_map.1 hcv
      rfl
  · simp only [hn]
    exact hsum2
  · simp only [hn]
    exact hsum2

theorem createIncidentMatrix_spec_witness :
    (CSRMat.fresh .INCIDENCE).type = .INCIDENCE ∧ k4Full.ColsBelow k4Full.m ∧
    ∃ Z eI, createIncidentMatrix (CSRMat.fresh .INCIDENCE) k4Full [] = some (Z, eI) ∧
      Z.m = k4Full.m ∧ Z.n = (edgePairs k4Full).length ∧
      (∀ e, e < Z.n → ∃ u v, (edgePairs k4Full)[e]? = some (u, v) ∧ u < v ∧ v < k4Full.m ∧
        ∀ r, r < k4Full.m → (Z.stores r e ↔ (r = u ∨ r = v))) ∧
      (∀ r, r < k4Full.m → (Z.rowCols r).Nodup ∧ (∀ c ∈ Z.rowCols r, c < Z.n) ∧
        ∀ cv ∈ Z.rowEntries r, cv.2 = 1) ∧
      Z.nnz = 2 * Z.n ∧ Z.nnzInRow.sum = 2 * Z.n :=
  ⟨rfl, by decide, createIncidentMatrix_spec (CSRMat.fresh .INCIDENCE) k4Full [] rfl (by decide)⟩

/-! ### choose2 -/

theorem choose2_of_le (k : Nat) (hk : k ≤ 65536) (h1 : 1 < k) : choose2 k = k * (k - 1) / 2 := by
  have hlt : k * (k - 1) < 2 ^ 32 := by
    have h2 : k * (k - 1) ≤ 65536 * 65535 := Nat.mul_le_mul hk (by omega)
    omega
  have hne : ¬ k = 1 := by omega
  simp only [choose2, hne, if_false, gt_iff_lt, h1, if_true, Nat.mod_eq_of_lt hlt]

theorem choose2_small (k : Nat) (h : k ≤ 1) : choose2 k = 0 := by
  unfold choose2
  by_cases h1 : k = 1
  · simp [h1]
  · have : ¬ k > 1 := by omega
    simp [h1, this]

/-- C15 as stated fails: for `k = 65537` the product `k*(k-1)` wraps in 32 bits and `choose2`
returns 32768, not `k*(k-1)/2 = 2147516416` (a value that fits in 32 bits). -/
theorem choose2_wraps :
    65537 < 2 ^ 32 ∧ 1 < 65537 ∧ choose2 65537 = 32768 ∧ 65537 * (65537 - 1) / 2 = 2147516416 ∧
    2147516416 < 2 ^ 32 ∧ ¬ choose2 65537 = 65537 * (65537 - 1) / 2 := by
  decide

/-- C15 amended: for every unsigned 32-bit `k`, `choose2(k)` is 0 when `k <= 1` and
`((k*(k-1)) mod 2^32) / 2` when `k > 1`, which is `k*(k-1)/2` for every `k <= 65536`; in
particular `choose2(2) == 1` and `choose2(3) == 3`. -/
theorem choose2_spec (k : Nat) (hk : k < 2 ^ 32) :
    (k ≤ 1 → choose2 k = 0) ∧
    (1 < k → choose2 k = (k * (k - 1)) % 2 ^ 32 / 2) ∧
    (1 < k → k ≤ 65536 → choose2 k = k * (k - 1) / 2) ∧
    choose2 2 = 1 ∧ choose2 3 = 3 := by
  refine ⟨choose2_small k, ?_, fun h1 h2 => choose2_of_le k h2 h1, by decide, by decide⟩
  intro h1
  have hne : ¬ k = 1 := by omega
  simp only [choose2, hne, if_false, gt_iff_lt, h1, if_true]

theorem choose2_spec_witness :
    (100 : Nat) < 2 ^ 32 ∧
    ((100 ≤ 1 → choose2 100 = 0) ∧
    (1 < 100 → choose2 100 = (100 * (100 - 1)) % 2 ^ 32 / 2) ∧
    (1 < 100 → 100 ≤ 65536 → choose2 100 = 100 * (100 - 1) / 2) ∧
    choose2 2 = 1 ∧ choose2 3 = 3) :=
  ⟨by decide, choose2_spec 100 (by decide)⟩

/-- C16 as stated fails: `choose2(65536) = 2147450880` but `choose2(65537) = 32768`. -/
theorem choose2_not_monotone :
    1 ≤ 65536 ∧ 65536 ≤ 65537 ∧ 65537 < 2 ^ 32 ∧ ¬ choose2 65536 ≤ choose2 65537 := by
  decide

theorem choose2_mono_of_le (j k : Nat) (hj : 1 ≤ j) (hjk : j ≤ k) (hk : k ≤ 65536) :
    choose2 j ≤ choose2 k := by
  by_cases h1 : j = 1
  · subst h1
    rw [choose2_small 1 (le_refl _)]
    exact Nat.zero_le _
  · have hj1 : 1 < j := by omega
    rw [choose2_of_le j (by omega) hj1, choose2_of_le k hk (by omega)]
    exact Nat.div_le_div_right (Nat.mul_le_mul hjk (by omega))

/-- C16 amended: `choose2` is non-decreasing on the range where the product does not wrap:
for all `1 <= j <= k <= 65536`, `choose2(j) <= choose2(k)`. -/
theorem choose2_monotone (j k : Nat) (hj : 1 ≤ j) (hjk : j ≤ k) (hk : k ≤ 65536) :
    choose2 j ≤ choose2 k :=
  choose2_mono_of_le j k hj hjk hk

theorem choose2_monotone_witness :
    1 ≤ 7 ∧ 7 ≤ 65536 ∧ (65536 : Nat) ≤ 65536 ∧ choose2 7 ≤ choose2 65536 :=
  ⟨by decide, by decide, by decide, choose2_monotone 7 65536 (by decide) (by decide) (by decide)⟩

/-! ### The level loop of computeKCounts -/

theorem kLoop_spec (tv te : Nat) (fuel : Nat) : ∀ (k maxK : Nat),
    (kLoop tv te fuel k maxK = maxK ∧ (fuel = 0 ∨ ¬ levelBound tv te k)) ∨
    (k ≤ kLoop tv te fuel k maxK ∧ kLoop tv te fuel k maxK < k + fuel ∧
      (∀ j, k ≤ j → j ≤ kLoop tv te fuel k maxK → levelBound tv te j) ∧
      (kLoop tv te fuel k maxK + 1 < k + fuel →
        ¬ levelBound tv te (kLoop tv te fuel k maxK + 1))) := by
  induction fuel with
  | zero => intro k maxK; left; exact ⟨rfl, Or.inl rfl⟩
  | succ fuel ih =>
    intro k maxK
    by_cases hb : levelBound tv te k
    · have hK : kLoop tv te (fuel + 1) k maxK = kLoop tv te fuel (k + 1) k := by
        simp only [kLoop, hb, if_true]
      rw [hK]
      right
      rcases ih (k + 1) k with ⟨h1, h2⟩ | ⟨h1, h2, h3, h4⟩
      · rw [h1]
        refine ⟨le_refl _, by omega, ?_, ?_⟩
        · intro j hj1 hj2
          have : j = k := by omega
          rw [this]; exact hb
        · intro hlt
          rcases h2 with h2 | h2
          · omega
          · exact h2
      · refine ⟨by omega, by omega, ?_, ?_⟩
        · intro j hj1 hj2
          by_cases hjk : j = k
          · rw [hjk]; exact hb
          · exact h3 j (by omega) hj2
        · intro hlt
          exact h4 (by omega)
    · left
      refine ⟨?_, Or.inr hb⟩
      simp only [kLoop, hb, if_false]

theorem maxKFor_facts (tvMin teMin S : Nat) (hS : 4 ≤ S) :
    3 ≤ maxKFor tvMin teMin S ∧ maxKFor tvMin teMin S < S ∧
    (¬ levelBound tvMin teMin 3 → maxKFor tvMin teMin S = 3) ∧
    (levelBound tvMin teMin 3 →
      (∀ k, 3 ≤ k → k ≤ maxKFor tvMin teMin S → levelBound tvMin teMin k) ∧
      (maxKFor tvMin teMin S < S - 1 →
        ¬ levelBound tvMin teMin (maxKFor tvMin teMin S + 1))) := by
  unfold maxKFor
  rcases kLoop_spec tvMin teMin (S - 3) 3 3 with ⟨h1, h2⟩ | ⟨h1, h2, h3, h4⟩
  · have h2b : ¬ levelBound tvMin teMin 3 := by
      rcases h2 with h2 | h2
      · omega
      · exact h2
    rw [h1]
    exact ⟨le_refl _, by omega, fun _ => rfl, fun hb => absurd hb h2b⟩
  · refine ⟨h1, by omega, ?_, ?_⟩
    · intro hnb
      exact absurd (h3 3 (le_refl _) h1) hnb
    · intro _
      exact ⟨h3, fun hlt => h4 (by omega)⟩

/-- C17: for a histogram of size `S >= 4` the credited level lies in `3..S-1`; it is 3 when
the bounds fail at 3; when they hold at 3 it is the last level of the run 3, 4, 5, ... on
which both bounds hold, and if it is below `S-1` the bounds fail at the next level. -/
theorem maxKFor_spec (tvMin teMin S : Nat) (hS : 4 ≤ S) :
    3 ≤ maxKFor tvMin teMin S ∧ maxKFor tvMin teMin S < S ∧
    (¬ levelBound tvMin teMin 3 → maxKFor tvMin teMin S = 3) ∧
    (levelBound tvMin teMin 3 →
      (∀ k, 3 ≤ k → k ≤ maxKFor tvMin teMin S → levelBound tvMin teMin k) ∧
      (maxKFor tvMin teMin S < S - 1 →
        ¬ levelBound tvMin teMin (maxKFor tvMin teMin S + 1))) :=
  maxKFor_facts tvMin teMin S hS

theorem maxKFor_spec_witness :
    4 ≤ 10 ∧
    (3 ≤ maxKFor 3 2 10 ∧ maxKFor 3 2 10 < 10 ∧
    (¬ levelBound 3 2 3 → maxKFor 3 2 10 = 3) ∧
    (levelBound 3 2 3 →
      (∀ k, 3 ≤ k → k ≤ maxKFor 3 2 10 → levelBound 3 2 k) ∧
      (maxKFor 3 2 10 < 10 - 1 → ¬ levelBound 3 2 (maxKFor 3 2 10 + 1)))) :=
  ⟨by decide, maxKFor_spec 3 2 10 (by decide)⟩

theorem levelBound_three (tvMin teMin : Nat) :
    levelBound tvMin teMin 3 ↔ (tvMin ≥ 1 ∧ teMin ≥ 1) := by
  have : choose2 2 = 1 := by decide
  simp only [levelBound, this]

/-- C18 as stated fails: on the witness matrix of the triangle 0-1-2 with all-zero degree
vectors the one cell `(2, 0, 1)` passes the test of line 678 and is credited to level 3
although `tvMin = 0 < choose2(2) = 1` and `teMin = 0 < 1`. -/
theorem credited_below_level_three :
    k3Witness.rowCells 2 = [(0, 0, 1)] ∧ k3Witness.nnz = 1 ∧
    k3Index = [(0, [(1, 0), (2, 1)]), (1, [(2, 2)])] ∧
    dedupPred 2 0 1 = true ∧
    computeKCounts k3Witness [0, 0, 0] [0, 0, 0] k3Index [0, 0, 0, 0] [[0, 1, 2]] =
      [0, 0, 0, 1] ∧
    cellTvMin [0, 0, 0] 2 0 1 = 0 ∧ cellTeMin [0, 0, 0] k3Index 2 0 1 = 0 ∧
    choose2 2 = 1 ∧
    ¬ (cellTvMin [0, 0, 0] 2 0 1 ≥ choose2 2 ∧ cellTeMin [0, 0, 0] k3Index 2 0 1 ≥ 1) := by
  decide

/-- C18 amended: for a histogram of size at least 4, a cell passing the test of line 678 is
credited to the level `maxKFor tvMin teMin size`; every cell credited to a level above 3
satisfies the level-3 bound (`tvMin >= choose2(2) = 1` and `teMin >= 1`), and a cell that
fails the level-3 bound is credited to level 3, the minimum assignable level. -/
theorem credited_level_bound (vTriDegrees eTriDegrees : Vector)
    (edgeInds : StdMap (StdMap Nat)) (size v1 v2 v3 : Nat) (localK : List Nat)
    (hS : 4 ≤ size) (hp : dedupPred v1 v2 v3 = true) :
    kCell vTriDegrees eTriDegrees edgeInds size v1 v2 v3 localK =
      modifyAt (fun x => x + 1) localK
        (maxKFor (cellTvMin vTriDegrees v1 v2 v3) (cellTeMin eTriDegrees edgeInds v1 v2 v3)
          size) ∧
    choose2 2 = 1 ∧
    (3 < maxKFor (cellTvMin vTriDegrees v1 v2 v3) (cellTeMin eTriDegrees edgeInds v1 v2 v3)
        size →
      cellTvMin vTriDegrees v1 v2 v3 ≥ choose2 2 ∧
        cellTeMin eTriDegrees edgeInds v1 v2 v3 ≥ 1) ∧
    (¬ (cellTvMin vTriDegrees v1 v2 v3 ≥ choose2 2 ∧
        cellTeMin eTriDegrees edgeInds v1 v2 v3 ≥ 1) →
      maxKFor (cellTvMin vTriDegrees v1 v2 v3) (cellTeMin eTriDegrees edgeInds v1 v2 v3)
        size = 3) := by
  have hc : choose2 2 = 1 := by decide
  obtain ⟨_, _, h3, h4⟩ := maxKFor_facts (cellTvMin vTriDegrees v1 v2 v3)
    (cellTeMin eTriDegrees edgeInds v1 v2 v3) size hS
  have hb : levelBound (cellTvMin vTriDegrees v1 v2 v3)
      (cellTeMin eTriDegrees edgeInds v1 v2 v3) 3 ↔
      (cellTvMin vTriDegrees v1 v2 v3 ≥ choose2 2 ∧
        cellTeMin eTriDegrees edgeInds v1 v2 v3 ≥ 1) := by
    rw [levelBound_three, hc]
  refine ⟨by simp only [kCell, hp, if_true], hc, ?_, ?_⟩
  · intro hgt
    by_contra hn
    have := h3 (fun h => hn (hb.1 h))
    omega
  · intro hn
    exact h3 (fun h => hn (hb.1 h))

theorem credited_level_bound_witness :
    4 ≤ 6 ∧ dedupPred 3 1 2 = true ∧
    (kCell [3, 3, 3, 3] [2, 2, 2, 2, 2, 2]
        [(0, [(1, 0), (2, 1), (3, 2)]), (1, [(2, 3), (3, 4)]), (2, [(3, 5)])] 6 3 1 2
        [0, 0, 0, 0, 0, 0] =
      modifyAt (fun x => x + 1) [0, 0, 0, 0, 0, 0]
        (maxKFor (cellTvMin [3, 3, 3, 3] 3 1 2)
          (cellTeMin [2, 2, 2, 2, 2, 2]
            [(0, [(1, 0), (2, 1), (3, 2)]), (1, [(2, 3), (3, 4)]), (2, [(3, 5)])] 3 1 2) 6) ∧
    choose2 2 = 1 ∧
    (3 < maxKFor (cellTvMin [3, 3, 3, 3] 3 1 2)
        (cellTeMin [2, 2, 2, 2, 2, 2]
          [(0, [(1, 0), (2, 1), (3, 2)]), (1, [(2, 3), (3, 4)]), (2, [(3, 5)])] 3 1 2) 6 →
      cellTvMin [3, 3, 3, 3] 3 1 2 ≥ choose2 2 ∧
        cellTeMin [2, 2, 2, 2, 2, 2]
          [(0, [(1, 0), (2, 1), (3, 2)]), (1, [(2, 3), (3, 4)]), (2, [(3, 5)])] 3 1 2 ≥ 1) ∧
    (¬ (cellTvMin [3, 3, 3, 3] 3 1 2 ≥ choose2 2 ∧
        cellTeMin [2, 2, 2, 2, 2, 2]
          [(0, [(1, 0), (2, 1), (3, 2)]), (1, [(2, 3), (3, 4)]), (2, [(3, 5)])] 3 1 2 ≥ 1) →
      maxKFor (cellTvMin [3, 3, 3, 3] 3 1 2)
        (cellTeMin [2, 2, 2, 2, 2, 2]
          [(0, [(1, 0), (2, 1), (3, 2)]), (1, [(2, 3), (3, 4)]), (2, [(3, 5)])] 3 1 2) 6 = 3)) :=
  ⟨by decide, by decide,
    credited_level_bound [3, 3, 3, 3] [2, 2, 2, 2, 2, 2]
      [(0, [(1, 0), (2, 1), (3, 2)]), (1, [(2, 3), (3, 4)]), (2, [(3, 5)])] 6 3 1 2
      [0, 0, 0, 0, 0, 0] (by decide) (by decide)⟩

/-! ### SpMV1 -/

theorem set_getD_eq_modifyAt (h : Nat → Nat) : ∀ (y : List Nat) (j : Nat),
    y.set j (h (y.getD j 0)) = modifyAt h y j := by
  intro y
  induction y with
  | nil => intro j; rfl
  | cons x xs ih =>
    intro j
    cases j with
    | zero => simp [modifyAt]
    | succ j => simp only [List.set_cons_succ, List.getD_cons_succ, modifyAt, ih]

theorem bump_foldl (cs : List Nat) (yl : List Nat) (c : Nat) :
    (cs.foldl (fun acc col => acc.set col (acc.getD col 0 + 1)) yl)[c]? =
      yl[c]?.map (fun x => x + cs.count c) := by
  induction cs generalizing yl with
  | nil => simp
  | cons col cs ih =>
    rw [List.foldl_cons, ih, set_getD_eq_modifyAt (fun x => x + 1), getElem?_modifyAt]
    by_cases hc : c = col
    · subst hc
      cases hy : yl[c]? with
      | none => simp
      | some v => simp [List.count_cons]; omega
    · have hc2 : ¬ col = c := fun h => hc h.symm
      simp [hc, List.count_cons, hc2]

theorem spmvRow_getElem? (M : CSRMat) (yl : Vector) (r c : Nat) :
    (spmvRow M yl r)[c]? = yl[c]?.map (fun x => x + (M.rowCols r).count c) := by
  have := bump_foldl (M.rowCols r) yl c
  simp only [CSRMat.rowCols, List.foldl_map] at this
  exact this

theorem spmvRows_getElem? (M : CSRMat) (rows : List Nat) (yl : Vector) (c : Nat) :
    (rows.foldl (spmvRow M) yl)[c]? = yl[c]?.map (fun x => x + colCountIn M rows c) := by
  induction rows generalizing yl with
  | nil => simp [colCountIn]
  | cons r rows ih =>
    rw [List.foldl_cons, ih, spmvRow_getElem?]
    cases yl[c]? with
    | none => rfl
    | some v => simp [colCountIn]; omega

theorem spmvWorker_getElem? (M : CSRMat) (size : Nat) (rows : List Nat) (c : Nat) :
    (spmvWorker M size rows)[c]? = if c < size then some (colCountIn M rows c) else none := by
  unfold spmvWorker
  rw [spmvRows_getElem?]
  simp only [Vector.resize, resize_nil]
  by_cases hc : c < size
  · simp [hc]
  · simp [hc]
    omega

theorem length_of_getElem? {α : Type} (l : List α) (n : Nat)
    (h : ∀ c, l[c]? = none ↔ n ≤ c) : l.length = n := by
  have h1 := (h l.length).1 (List.getElem?_eq_none (le_refl _))
  by_contra hne
  have hlt : n < l.length := by omega
  have := (h n).2 (le_refl _)
  rw [List.getElem?_eq_getElem hlt] at this
  simp at this

theorem spmvWorker_length (M : CSRMat) (size : Nat) (rows : List Nat) :
    (spmvWorker M size rows).length = size := by
  apply length_of_getElem?
  intro c
  rw [spmvWorker_getElem?]
  by_cases hc : c < size
  · simp [hc]
  · simp [hc]; omega

theorem merge_getElem? (y yl : List Nat) (j : Nat) :
    ((List.range yl.length).foldl (fun acc j => acc.set j (acc.getD j 0 + yl.getD j 0)) y)[j]? =
      if j < yl.length then y[j]?.map (fun x => x + yl.getD j 0) else y[j]? := by
  have h : (fun (acc : List Nat) (j : Nat) => acc.set j (acc.getD j 0 + yl.getD j 0)) =
      fun acc j => modifyAt (fun x => x + yl.getD j 0) acc j := by
    funext acc j
    exact set_getD_eq_modifyAt (fun x => x + yl.getD j 0) acc j
  rw [h, foldl_modifyAt_range]

theorem spmvMerge_getElem? (y yl : Vector) (j : Nat) :
    (spmvMerge y yl)[j]? =
      if j < yl.length then y[j]?.map (fun x => x + yl.getD j 0) else y[j]? :=
  merge_getElem? y yl j

theorem spmvSched_getElem? (M : CSRMat) (size : Nat) (sched : List (List Nat)) (y : Vector)
    (hy : y.length = size) (c : Nat) :
    (sched.foldl (fun acc rows => spmvMerge acc (spmvWorker M size rows)) y)[c]? =
      y[c]?.map (fun x => x + colCountIn M sched.flatten c) := by
  induction sched generalizing y with
  | nil => simp [colCountIn]
  | cons rows sched ih =>
    have hlen : (spmvMerge y (spmvWorker M size rows)).length = size := by
      apply length_of_getElem?
      intro j
      rw [spmvMerge_getElem?, spmvWorker_length]
      by_cases hj : j < size
      · have : j < y.length := by omega
        simp [hj, List.getElem?_eq_getElem this]
      · simp only [hj, if_false]
        rw [List.getElem?_eq_none_iff]; omega
    rw [List.foldl_cons, ih _ hlen, spmvMerge_getElem?, spmvWorker_length]
    by_cases hc : c < size
    · have hc2 : c < y.length := by omega
      have hw : (spmvWorker M size rows).getD c 0 = colCountIn M rows c := by
        rw [List.getD_eq_getElem?_getD, spmvWorker_getElem?]
        simp [hc]
      simp only [hc, if_true, hw, List.getElem?_eq_getElem hc2, Option.map_some',
        List.flatten_cons, colCountIn, List.map_append, List.sum_append]
      congr 1
      omega
    · have hc2 : y.length ≤ c := by omega
      simp [hc, List.getElem?_eq_none hc2]

theorem colCountIn_perm (M : CSRMat) (l1 l2 : List Nat) (c : Nat) (h : l1.Perm l2) :
    colCountIn M l1 c = colCountIn M l2 c := by
  unfold colCountIn
  exact (h.map _).sum_eq

theorem SpMV1_trans_getElem? (M : CSRMat) (y : Vector) (sched : List (List Nat))
    (hs : IsSchedule M.m sched) (c : Nat) :
    (SpMV1 M true y sched)[c]? = y[c]?.map (fun x => x + colCount M c) := by
  simp only [SpMV1, Bool.true_eq_false, if_false, Vector.getSize]
  rw [spmvSched_getElem? M y.length sched y rfl c, colCountIn_perm M _ _ c hs]
  rfl

theorem getD_of_getElem?_map (l : List Nat) (c : Nat) (f : Nat → Nat) (l2 : List Nat)
    (h : l2[c]? = l[c]?.map f) (hc : c < l.length) : l2.getD c 0 = f (l.getD c 0) := by
  rw [List.getD_eq_getElem?_getD, h, List.getD_eq_getElem?_getD, List.getElem?_eq_getElem hc]
  rfl

theorem colCount_eq_zero (M : CSRMat) (bound c : Nat) (hb : M.ColsBelow bound)
    (hc : bound ≤ c) : colCount M c = 0 := by
  unfold colCount colCountIn
  apply sum_map_eq_zero
  intro r hr
  apply List.count_eq_zero_of_not_mem
  intro hmem
  have := hb r (List.mem_range.1 hr) c hmem
  omega

/-- C12: for a matrix satisfying the row invariant with all column indices below `n`, and a
vector `y` of at least `n` entries, the transposed branch of `SpMV1` (under any schedule)
keeps the size of `y` and leaves `y[c]` equal to its previous value plus the number of
stored entries of `M` in column `c`, for every index `c`; from the zero vector, `y[c]` is
the number of nonzeros in column `c`. -/
theorem SpMV1_trans_spec (M : CSRMat) (y : Vector) (sched : List (List Nat))
    (_hM : M.RowInv) (hcols : M.ColsBelow M.n) (hy : M.n ≤ y.getSize)
    (hs : IsSchedule M.m sched) :
    (SpMV1 M true y sched).getSize = y.getSize ∧
    (∀ c, (SpMV1 M true y sched).get c = y.get c + colCount M c) ∧
    ((∀ c, y.get c = 0) → ∀ c, (SpMV1 M true y sched).get c = colCount M c) := by
  have hlen : (SpMV1 M true y sched).length = y.length := by
    apply length_of_getElem?
    intro c
    rw [SpMV1_trans_getElem? M y sched hs c]
    simp
  have hget : ∀ c, (SpMV1 M true y sched).get c = y.get c + colCount M c := by
    intro c
    by_cases hc : c < y.length
    · exact getD_of_getElem?_map y c (fun x => x + colCount M c) _
        (SpMV1_trans_getElem? M y sched hs c) hc
    · have h1 : y.length ≤ c := by omega
      have h2 : (SpMV1 M true y sched).length ≤ c := by omega
      have h3 : colCount M c = 0 := colCount_eq_zero M M.n c hcols (by
        simp only [Vector.getSize] at hy; omega)
      simp only [Vector.get, List.getD_eq_getElem?_getD, List.getElem?_eq_none h1,
        List.getElem?_eq_none h2, h3]
      rfl
  refine ⟨hlen, hget, ?_⟩
  intro hz c
  rw [hget c, hz c, Nat.zero_add]

theorem SpMV1_trans_spec_witness :
    k4Incidence.RowInv ∧ k4Incidence.ColsBelow k4Incidence.n ∧
    k4Incidence.n ≤ Vector.getSize [5, 0, 0, 0, 0, 0, 7] ∧
    IsSchedule k4Incidence.m [[3, 0], [], [2, 1]] ∧
    ((SpMV1 k4Incidence true [5, 0, 0, 0, 0, 0, 7] [[3, 0], [], [2, 1]]).getSize =
      Vector.getSize [5, 0, 0, 0, 0, 0, 7] ∧
    (∀ c, (SpMV1 k4Incidence true [5, 0, 0, 0, 0, 0, 7] [[3, 0], [], [2, 1]]).get c =
      Vector.get [5, 0, 0, 0, 0, 0, 7] c + colCount k4Incidence c) ∧
    ((∀ c, Vector.get [5, 0, 0, 0, 0, 0, 7] c = 0) →
      ∀ c, (SpMV1 k4Incidence true [5, 0, 0, 0, 0, 0, 7] [[3, 0], [], [2, 1]]).get c =
        colCount k4Incidence c)) :=
  ⟨by decide, by decide, by decide, by decide,
    SpMV1_trans_spec k4Incidence [5, 0, 0, 0, 0, 0, 7] [[3, 0], [], [2, 1]] (by decide)
      (by decide) (by decide) (by decide)⟩

theorem SpMV1_false_getElem? (M : CSRMat) (y : Vector) (sched : List (List Nat)) (i : Nat) :
    (SpMV1 M false y sched)[i]? =
      if i < M.m then y[i]?.map (fun _ => M.nnzInRow.getD i 0) else y[i]? := by
  simp only [SpMV1, if_true, CSRMat.getM, Vector.setVal]
  have h : (fun (acc : List Nat) (rowID : Nat) => acc.set rowID (M.nnzInRow.getD rowID 0)) =
      fun acc rowID => modifyAt (fun _ => M.nnzInRow.getD rowID 0) acc rowID := by
    funext acc rowID
    exact set_eq_modifyAt _ acc rowID
  rw [h, foldl_modifyAt_range]

/-- C13: for a matrix with `m` rows and a vector `y` of at least `m` entries, the
non-transposed branch of `SpMV1` keeps the size of `y`, leaves `y[r] == nnzInRow[r]` for
every row `r < m` whatever `y` held before, and leaves every entry at an index `>= m`
unchanged. -/
theorem SpMV1_rows_spec (M : CSRMat) (y : Vector) (sched : List (List Nat))
    (hy : M.m ≤ y.getSize) :
    (SpMV1 M false y sched).getSize = y.getSize ∧
    (∀ r, r < M.m → (SpMV1 M false y sched).get r = M.getNNZInRow r) ∧
    (∀ i, M.m ≤ i → (SpMV1 M false y sched).get i = y.get i) := by
  simp only [Vector.getSize] at hy
  refine ⟨?_, ?_, ?_⟩
  · show (SpMV1 M false y sched).length = y.length
    apply length_of_getElem?
    intro c
    rw [SpMV1_false_getElem?]
    by_cases hc : c < M.m
    · simp only [hc, if_true, Option.map_eq_none', List.getElem?_eq_none_iff]
    · simp only [hc, if_false, List.getElem?_eq_none_iff]
  · intro r hr
    have hr2 : r < y.length := by omega
    simp only [Vector.get, CSRMat.getNNZInRow]
    rw [List.getD_eq_getElem?_getD, SpMV1_false_getElem?]
    simp [hr, List.getElem?_eq_getElem hr2]
  · intro i hi
    have hi2 : ¬ i < M.m := by omega
    simp only [Vector.get]
    rw [List.getD_eq_getElem?_getD, SpMV1_false_getElem?]
    simp only [hi2, if_false, List.getD_eq_getElem?_getD]

theorem SpMV1_rows_spec_witness :
    k4Lower.m ≤ Vector.getSize [9, 9, 9, 9, 9, 9] ∧
    ((SpMV1 k4Lower false [9, 9, 9, 9, 9, 9] []).getSize = Vector.getSize [9, 9, 9, 9, 9, 9] ∧
    (∀ r, r < k4Lower.m →
      (SpMV1 k4Lower false [9, 9, 9, 9, 9, 9] []).get r = k4Lower.getNNZInRow r) ∧
    (∀ i, k4Lower.m ≤ i →
      (SpMV1 k4Lower false [9, 9, 9, 9, 9, 9] []).get i = Vector.get [9, 9, 9, 9, 9, 9] i)) :=
  ⟨by decide, SpMV1_rows_spec k4Lower [9, 9, 9, 9, 9, 9] [] (by decide)⟩

/-- C14: for every matrix and every initial output vector, the transposed branch of `SpMV1`
gives the same vector for every schedule (any split of the rows `0..m-1` among any number of
workers, merged in any order) as for the single worker that processes the rows in order. -/
theorem SpMV1_schedule_independent (M : CSRMat) (y : Vector) (sched : List (List Nat))
    (hs : IsSchedule M.m sched) :
    SpMV1 M true y sched = SpMV1 M true y [List.range M.m] := by
  apply List.ext_getElem?
  intro c
  rw [SpMV1_trans_getElem? M y sched hs c,
    SpMV1_trans_getElem? M y [List.range M.m] (by simp [IsSchedule]) c]

theorem SpMV1_schedule_independent_witness :
    IsSchedule k4Incidence.m [[3, 0], [], [2, 1]] ∧
    SpMV1 k4Incidence true [5, 0, 0, 0, 0, 0, 7] [[3, 0], [], [2, 1]] =
      SpMV1 k4Incidence true [5, 0, 0, 0, 0, 0, 7] [List.range k4Incidence.m] :=
  ⟨by decide,
    SpMV1_schedule_independent k4Incidence [5, 0, 0, 0, 0, 0, 7] [[3, 0], [], [2, 1]]
      (by decide)⟩

/-! ### The incidence index -/

theorem edgeFind_assign (eI : StdMap (StdMap Nat)) (a b k u v : Nat) :
    edgeFind (eI.assign a (((eI.find a).getD []).assign b k)) u v =
      if u = a ∧ v = b then some k else edgeFind eI u v := by
  unfold edgeFind
  rw [StdMap.find_assign]
  by_cases hu : u = a
  · subst hu
    simp only [if_true, Option.bind_some, StdMap.find_assign, true_and]
    by_cases hv : v = b
    · simp [hv, StdMap.find_assign]
    · simp only [hv, if_false]
      cases StdMap.find eI u with
      | none => simp [StdMap.find, StdMap.find_assign, hv]
      | some inner => simp [StdMap.find_assign, hv]
  · simp [hu]

theorem incInsert_foldl_edgeFind (ps : List (Nat × Nat))
    (st : List StdSet × StdMap (StdMap Nat) × Nat) (hnd : ps.Nodup) (u v e : Nat) :
    edgeFind (ps.foldl incInsert st).2.1 u v = some e ↔
      (∃ idx, ps[idx]? = some (u, v) ∧ e = st.2.2 + idx) ∨
        ((u, v) ∉ ps ∧ edgeFind st.2.1 u v = some e) := by
  induction ps generalizing st with
  | nil => simp
  | cons p ps ih =>
    obtain ⟨a, b⟩ := p
    rw [List.nodup_cons] at hnd
    rw [List.foldl_cons, ih (incInsert st (a, b)) hnd.2]
    have h1 : (incInsert st (a, b)).2.2 = st.2.2 + 1 := rfl
    have h2 : edgeFind (incInsert st (a, b)).2.1 u v =
        if u = a ∧ v = b then some st.2.2 else edgeFind st.2.1 u v :=
      edgeFind_assign st.2.1 a b st.2.2 u v
    rw [h1, h2]
    constructor
    · rintro (⟨idx, hidx, he⟩ | ⟨hnot, hf⟩)
      · exact Or.inl ⟨idx + 1, by simpa using hidx, by omega⟩
      · by_cases huv : u = a ∧ v = b
        · simp only [huv, and_self, if_true, Option.some.injEq] at hf
          exact Or.inl ⟨0, by simp [huv.1, huv.2], by omega⟩
        · simp only [huv, if_false] at hf
          refine Or.inr ⟨?_, hf⟩
          intro hmem
          rcases List.mem_cons.1 hmem with h | h
          · exact huv ⟨(Prod.mk.inj h).1, (Prod.mk.inj h).2⟩
          · exact hnot h
    · rintro (⟨idx, hidx, he⟩ | ⟨hnot, hf⟩)
      · cases idx with
        | zero =>
          simp only [List.getElem?_cons_zero, Option.some.injEq, Prod.mk.injEq] at hidx
          right
          refine ⟨?_, ?_⟩
          · intro hmem
            rw [← hidx.1, ← hidx.2] at hmem
            exact hnd.1 hmem
          · simp only [← hidx.1, ← hidx.2, and_self, if_true, Option.some.injEq]
            omega
        | succ i =>
          simp only [List.getElem?_cons_succ] at hidx
          exact Or.inl ⟨i, hidx, by omega⟩
      · have hne : ¬ (u = a ∧ v = b) := by
          intro h
          apply hnot
          rw [h.1, h.2]
          exact List.mem_cons_self _ _
        right
        refine ⟨fun hmem => hnot (List.mem_cons_of_mem _ hmem), ?_⟩
        simp only [hne, if_false]
        exact hf

theorem edgePairs_nodup (S : CSRMat) (hd : S.DistinctCols) : (edgePairs S).Nodup := by
  unfold edgePairs
  rw [List.nodup_flatMap]
  constructor
  · intro r hr
    exact ((hd r (List.mem_range.1 hr)).filter _).map
      (fun c1 c2 h => (Prod.mk.inj h).2)
  · apply (List.nodup_range S.m).imp
    intro r1 r2 hne p h1 h2
    simp only [List.mem_map] at h1 h2
    obtain ⟨c1, _, rfl⟩ := h1
    obtain ⟨c2, _, h⟩ := h2
    exact hne (Prod.mk.inj h).1.symm

theorem edgePairs_lt (S : CSRMat) (p : Nat × Nat) (hp : p ∈ edgePairs S) : p.1 < p.2 := by
  simp only [edgePairs, List.mem_flatMap, List.mem_range, List.mem_map, List.mem_filter,
    decide_eq_true_eq] at hp
  obtain ⟨r, _, c, ⟨_, hlt⟩, rfl⟩ := hp
  exact hlt

/-- C11: for a source with pairwise distinct columns per row and an initially empty index
map, `createIncidentMatrix` (on a receiver of kind `INCIDENCE`) completes and assigns edge
ids in discovery order: `eIndices[u][v] == e` exactly when `(u, v)` is the `e`-th stored
pair with `row < col`; so every key has `u < v`, the ids are below `n`, the map is injective
and every id `0..n-1` is the value of a key. -/
theorem createIncidentMatrix_index (self S : CSRMat) (ht : self.type = .INCIDENCE)
    (hd : S.DistinctCols) :
    ∃ Z eI, createIncidentMatrix self S [] = some (Z, eI) ∧
      Z.n = (edgePairs S).length ∧
      (∀ u v e, edgeFind eI u v = some e ↔ (edgePairs S)[e]? = some (u, v)) ∧
      (∀ u v e, edgeFind eI u v = some e → u < v ∧ e < Z.n) ∧
      (∀ u v u2 v2 e, edgeFind eI u v = some e → edgeFind eI u2 v2 = some e →
        u = u2 ∧ v = v2) ∧
      (∀ e, e < Z.n → ∃ u v, edgeFind eI u v = some e) := by
  have hn : (incidentScan S S.m []).2.2 = (edgePairs S).length := by
    rw [incidentScan_eq, incInsert_foldl_count]; simp
  have key : ∀ u v e, edgeFind (incidentScan S S.m []).2.1 u v = some e ↔
      (edgePairs S)[e]? = some (u, v) := by
    intro u v e
    rw [incidentScan_eq, incInsert_foldl_edgeFind _ _ (edgePairs_nodup S hd)]
    constructor
    · rintro (⟨idx, h, he⟩ | ⟨_, h⟩)
      · have : e = idx := by simpa using he
        rw [this]; exact h
      · simp [edgeFind, StdMap.find] at h
    · intro h; exact Or.inl ⟨e, h, by simp⟩
  refine ⟨_, _, createIncidentMatrix_eq self S [] ht, hn, key, ?_, ?_, ?_⟩
  · intro u v e h
    have h2 := (key u v e).1 h
    obtain ⟨hlt, hget⟩ := List.getElem?_eq_some_iff.1 h2
    refine ⟨?_, by simp only [hn]; exact hlt⟩
    exact edgePairs_lt S (u, v) (by rw [← hget]; exact List.getElem_mem _)
  · intro u v u2 v2 e h1 h2
    have := ((key u v e).1 h1).symm.trans ((key u2 v2 e).1 h2)
    simp only [Option.some.injEq, Prod.mk.injEq] at this
    exact this
  · intro e he
    simp only [hn] at he
    refine ⟨(edgePairs S)[e].1, (edgePairs S)[e].2, (key _ _ e).2 ?_⟩
    rw [List.getElem?_eq_getElem he]

theorem createIncidentMatrix_index_witness :
    (CSRMat.fresh .INCIDENCE).type = .INCIDENCE ∧ k4Full.DistinctCols ∧
    ∃ Z eI, createIncidentMatrix (CSRMat.fresh .INCIDENCE) k4Full [] = some (Z, eI) ∧
      Z.n = (edgePairs k4Full).length ∧
      (∀ u v e, edgeFind eI u v = some e ↔ (edgePairs k4Full)[e]? = some (u, v)) ∧
      (∀ u v e, edgeFind eI u v = some e → u < v ∧ e < Z.n) ∧
      (∀ u v u2 v2 e, edgeFind eI u v = some e → edgeFind eI u2 v2 = some e →
        u = u2 ∧ v = v2) ∧
      (∀ e, e < Z.n → ∃ u v, edgeFind eI u v = some e) :=
  ⟨rfl, by decide, createIncidentMatrix_index (CSRMat.fresh .INCIDENCE) k4Full rfl (by decide)⟩

/-! ### The histogram of computeKCounts -/

theorem kCell_cases (vT eT : Vector) (eI : StdMap (StdMap Nat)) (S v1 v2 v3 : Nat)
    (localK : List Nat) (hS : 4 ≤ S) :
    (dedupPred v1 v2 v3 = false ∧ kCell vT eT eI S v1 v2 v3 localK = localK) ∨
    (dedupPred v1 v2 v3 = true ∧ ∃ K, 3 ≤ K ∧ K < S ∧
      kCell vT eT eI S v1 v2 v3 localK = modifyAt (fun x => x + 1) localK K) := by
  by_cases hp : dedupPred v1 v2 v3 = true
  · right
    obtain ⟨h1, h2, _, _⟩ := maxKFor_facts (cellTvMin vT v1 v2 v3) (cellTeMin eT eI v1 v2 v3) S hS
    exact ⟨hp, _, h1, h2, by simp only [kCell, hp, if_true]⟩
  · left
    refine ⟨by simpa using hp, ?_⟩
    simp only [kCell, hp]
    rfl

theorem sum_modifyAt_succ (l : List Nat) (i : Nat) (hi : i < l.length) :
    (modifyAt (fun x => x + 1) l i).sum = l.sum + 1 := by
  induction l generalizing i with
  | nil => simp at hi
  | cons x xs ih =>
    cases i with
    | zero => simp only [modifyAt, List.sum_cons]; omega
    | succ j =>
      simp only [List.length_cons] at hi
      simp only [modifyAt, List.sum_cons, ih j (by omega)]
      omega

/-- What one cell does to a private histogram of size `S >= 4`: the size is kept, the
entries 0, 1, 2 are kept, and the total grows by one exactly when the cell passes the test
of line 678. -/
theorem kCell_effect (vT eT : Vector) (eI : StdMap (StdMap Nat)) (S v1 v2 v3 : Nat)
    (localK : List Nat) (hS : 4 ≤ S) (hl : localK.length = S) :
    (kCell vT eT eI S v1 v2 v3 localK).length = S ∧
    (∀ j, j < 3 → (kCell vT eT eI S v1 v2 v3 localK).getD j 0 = localK.getD j 0) ∧
    (kCell vT eT eI S v1 v2 v3 localK).sum =
      localK.sum + (if dedupPred v1 v2 v3 = true then 1 else 0) := by
  rcases kCell_cases vT eT eI S v1 v2 v3 localK hS with ⟨hp, h⟩ | ⟨hp, K, h1, h2, h⟩
  · rw [h]
    simp [hp, hl]
  · rw [h]
    refine ⟨by rw [modifyAt_length, hl], ?_, ?_⟩
    · intro j hj
      rw [getD_modifyAt]
      have : ¬ (j = K ∧ K < localK.length) := fun h => by omega
      simp only [this, if_false]
    · rw [sum_modifyAt_succ _ _ (by omega)]
      simp [hp]

theorem kCells_effect (vT eT : Vector) (eI : StdMap (StdMap Nat)) (S r : Nat)
    (cells : List (Nat × Nat)) (localK : List Nat) (hS : 4 ≤ S) (hl : localK.length = S) :
    (cells.foldl (fun lk p => kCell vT eT eI S r p.1 p.2 lk) localK).length = S ∧
    (∀ j, j < 3 →
      (cells.foldl (fun lk p => kCell vT eT eI S r p.1 p.2 lk) localK).getD j 0 =
        localK.getD j 0) ∧
    (cells.foldl (fun lk p => kCell vT eT eI S r p.1 p.2 lk) localK).sum =
      localK.sum + (cells.filter (fun p => dedupPred r p.1 p.2)).length := by
  induction cells generalizing localK with
  | nil => simp [hl]
  | cons p cells ih =>
    obtain ⟨h1, h2, h3⟩ := kCell_effect vT eT eI S r p.1 p.2 localK hS hl
    obtain ⟨g1, g2, g3⟩ := ih (kCell vT eT eI S r p.1 p.2 localK) h1
    rw [List.foldl_cons]
    refine ⟨g1, fun j hj => (g2 j hj).trans (h2 j hj), ?_⟩
    rw [g3, h3, List.filter_cons]
    by_cases hp : dedupPred r p.1 p.2 = true
    · simp only [hp, if_true, List.length_cons]; omega
    · simp only [hp, if_false]
      simp

theorem kRow_eq (Z : CSRMat) (vT eT : Vector) (eI : StdMap (StdMap Nat)) (S : Nat)
    (localK : List Nat) (r : Nat) :
    kRow Z vT eT eI S localK r =
      (Z.rowWitnesses r).foldl (fun lk p => kCell vT eT eI S r p.1 p.2 lk) localK := by
  simp only [kRow, CSRMat.rowWitnesses, List.foldl_map, CSRMat.getNNZInRow, CSRMat.getVal,
    CSRMat.getVal2]

theorem kRows_effect (Z : CSRMat) (vT eT : Vector) (eI : StdMap (StdMap Nat)) (S : Nat)
    (rows : List Nat) (localK : List Nat) (hS : 4 ≤ S) (hl : localK.length = S) :
    (rows.foldl (kRow Z vT eT eI S) localK).length = S ∧
    (∀ j, j < 3 → (rows.foldl (kRow Z vT eT eI S) localK).getD j 0 = localK.getD j 0) ∧
    (rows.foldl (kRow Z vT eT eI S) localK).sum =
      localK.sum + (rows.map (passCount Z)).sum := by
  induction rows generalizing localK with
  | nil => simp [hl]
  | cons r rows ih =>
    obtain ⟨h1, h2, h3⟩ := kCells_effect vT eT eI S r (Z.rowWitnesses r) localK hS hl
    rw [← kRow_eq] at h1 h2 h3
    obtain ⟨g1, g2, g3⟩ := ih (kRow Z vT eT eI S localK r) h1
    rw [List.foldl_cons]
    refine ⟨g1, fun j hj => (g2 j hj).trans (h2 j hj), ?_⟩
    rw [g3, h3]
    simp only [List.map_cons, List.sum_cons, passCount]
    omega

theorem kWorker_effect (Z : CSRMat) (vT eT : Vector) (eI : StdMap (StdMap Nat)) (S : Nat)
    (rows : List Nat) (hS : 4 ≤ S) :
    (kWorker Z vT eT eI S rows).length = S ∧
    (∀ j, j < 3 → (kWorker Z vT eT eI S rows).getD j 0 = 0) ∧
    (kWorker Z vT eT eI S rows).sum = (rows.map (passCount Z)).sum := by
  obtain ⟨h1, h2, h3⟩ := kRows_effect Z vT eT eI S rows (resize [] S 0) hS (resize_length _ _ _)
  refine ⟨h1, ?_, ?_⟩
  · intro j hj
    rw [kWorker, h2 j hj, resize_nil, List.getD_eq_getElem?_getD]
    by_cases hjs : j < S <;> simp [hjs]
  · rw [kWorker, h3, resize_nil]
    simp

theorem sum_of_getElem?_add : ∀ (r l1 l2 : List Nat), l2.length = l1.length →
    (∀ j, r[j]? = l1[j]?.map (fun x => x + l2.getD j 0)) → r.sum = l1.sum + l2.sum := by
  intro r
  induction r with
  | nil =>
    intro l1 l2 hlen h
    have h0 := h 0
    cases l1 with
    | nil =>
      have : l2 = [] := List.length_eq_zero.1 hlen
      simp [this]
    | cons x xs => simp at h0
  | cons y ys ih =>
    intro l1 l2 hlen h
    cases l1 with
    | nil =>
      have h0 := h 0
      simp at h0
    | cons x xs =>
      cases l2 with
      | nil => simp at hlen
      | cons z zs =>
        have h0 := h 0
        simp only [List.getElem?_cons_zero, Option.map_some', List.getD_cons_zero,
          Option.some.injEq] at h0
        have ht := ih xs zs (by simpa using hlen) (fun j => by
          have := h (j + 1)
          simpa using this)
        simp only [List.sum_cons, ht, h0]
        omega

theorem kMerge_effect (kCounts localK : List Nat) (hl : localK.length = kCounts.length) :
    (kMerge kCounts localK).length = kCounts.length ∧
    (∀ j, (kMerge kCounts localK).getD j 0 = kCounts.getD j 0 + localK.getD j 0) ∧
    (kMerge kCounts localK).sum = kCounts.sum + localK.sum := by
  have key : ∀ j, (kMerge kCounts localK)[j]? =
      kCounts[j]?.map (fun x => x + localK.getD j 0) := by
    intro j
    rw [kMerge, merge_getElem?]
    by_cases hj : j < localK.length
    · simp [hj]
    · have : kCounts.length ≤ j := by omega
      simp [hj, List.getElem?_eq_none this]
  refine ⟨?_, ?_, sum_of_getElem?_add _ _ _ hl key⟩
  · apply length_of_getElem?
    intro j
    rw [key]
    simp
  · intro j
    by_cases hj : j < kCounts.length
    · exact getD_of_getElem?_map kCounts j (fun x => x + localK.getD j 0) _ (key j) hj
    · have h1 : kCounts.length ≤ j := by omega
      have h2 : localK.length ≤ j := by omega
      have h3 : (kMerge kCounts localK)[j]? = none := by
        rw [key, List.getElem?_eq_none h1]; rfl
      simp only [List.getD_eq_getElem?_getD, h3, List.getElem?_eq_none h1,
        List.getElem?_eq_none h2]
      rfl

theorem kSched_effect (Z : CSRMat) (vT eT : Vector) (eI : StdMap (StdMap Nat)) (S : Nat)
    (sched : List (List Nat)) (kCounts : List Nat) (hS : 4 ≤ S) (hl : kCounts.length = S) :
    (sched.foldl (fun acc rows => kMerge acc (kWorker Z vT eT eI S rows)) kCounts).length = S ∧
    (∀ j, j < 3 →
      (sched.foldl (fun acc rows => kMerge acc (kWorker Z vT eT eI S rows)) kCounts).getD j 0 =
        kCounts.getD j 0) ∧
    (sched.foldl (fun acc rows => kMerge acc (kWorker Z vT eT eI S rows)) kCounts).sum =
      kCounts.sum + (sched.flatten.map (passCount Z)).sum := by
  induction sched generalizing kCounts with
  | nil => simp [hl]
  | cons rows sched ih =>
    obtain ⟨w1, w2, w3⟩ := kWorker_effect Z vT eT eI S rows hS
    obtain ⟨m1, m2, m3⟩ := kMerge_effect kCounts (kWorker Z vT eT eI S rows) (by rw [w1, hl])
    obtain ⟨g1, g2, g3⟩ := ih (kMerge kCounts (kWorker Z vT eT eI S rows)) (by rw [m1, hl])
    rw [List.foldl_cons]
    refine ⟨g1, ?_, ?_⟩
    · intro j hj
      rw [g2 j hj, m2 j, w2 j hj, Nat.add_zero]
    · rw [g3, m3, w3]
      simp only [List.flatten_cons, List.map_append, List.sum_append]
      omega

/-- C19: for a histogram of size `S >= 4` and every input and schedule, every cell either
leaves the private histogram alone or increments one entry at a level `K` with
`3 <= K < S`; `computeKCounts` keeps the size of the histogram and leaves the entries 0, 1
and 2 unchanged. -/
theorem computeKCounts_levels (Z : CSRMat) (vTriDegrees eTriDegrees : Vector)
    (edgeInds : StdMap (StdMap Nat)) (kCounts : List Nat) (sched : List (List Nat))
    (hS : 4 ≤ kCounts.length) :
    (∀ v1 v2 v3 localK,
      kCell vTriDegrees eTriDegrees edgeInds kCounts.length v1 v2 v3 localK = localK ∨
      ∃ K, 3 ≤ K ∧ K < kCounts.length ∧
        kCell vTriDegrees eTriDegrees edgeInds kCounts.length v1 v2 v3 localK =
          modifyAt (fun x => x + 1) localK K) ∧
    (computeKCounts Z vTriDegrees eTriDegrees edgeInds kCounts sched).length =
      kCounts.length ∧
    (∀ j, j < 3 →
      (computeKCounts Z vTriDegrees eTriDegrees edgeInds kCounts sched).getD j 0 =
        kCounts.getD j 0) := by
  obtain ⟨h1, h2, _⟩ := kSched_effect Z vTriDegrees eTriDegrees edgeInds kCounts.length sched
    kCounts hS rfl
  refine ⟨?_, h1, h2⟩
  intro v1 v2 v3 localK
  rcases kCell_cases vTriDegrees eTriDegrees edgeInds kCounts.length v1 v2 v3 localK hS with
    ⟨_, h⟩ | ⟨_, K, k1, k2, h⟩
  · exact Or.inl h
  · exact Or.inr ⟨K, k1, k2, h⟩

theorem computeKCounts_levels_witness :
    4 ≤ [7, 8, 9, 0, 0, 0].length ∧
    ((∀ v1 v2 v3 localK,
      kCell [1, 1, 1] [1, 1, 1] k3Index [7, 8, 9, 0, 0, 0].length v1 v2 v3 localK = localK ∨
      ∃ K, 3 ≤ K ∧ K < [7, 8, 9, 0, 0, 0].length ∧
        kCell [1, 1, 1] [1, 1, 1] k3Index [7, 8, 9, 0, 0, 0].length v1 v2 v3 localK =
          modifyAt (fun x => x + 1) localK K) ∧
    (computeKCounts k3Witness [1, 1, 1] [1, 1, 1] k3Index [7, 8, 9, 0, 0, 0]
      [[2], [0, 1]]).length = [7, 8, 9, 0, 0, 0].length ∧
    (∀ j, j < 3 →
      (computeKCounts k3Witness [1, 1, 1] [1, 1, 1] k3Index [7, 8, 9, 0, 0, 0]
        [[2], [0, 1]]).getD j 0 = [7, 8, 9, 0, 0, 0].getD j 0)) :=
  ⟨by decide,
    computeKCounts_levels k3Witness [1, 1, 1] [1, 1, 1] k3Index [7, 8, 9, 0, 0, 0] [[2], [0, 1]]
      (by decide)⟩

theorem sum_range_ite (m a x : Nat) (ha : a < m) :
    ((List.range m).map (fun r => if r = a then x else 0)).sum = x := by
  induction m with
  | zero => omega
  | succ m ih =>
    rw [List.range_succ, List.map_append, List.sum_append]
    by_cases h : a = m
    · subst h
      have : ((List.range a).map (fun r => if r = a then x else 0)).sum = 0 := by
        apply sum_map_eq_zero
        intro r hr
        have := List.mem_range.1 hr
        have hne : ¬ r = a := by omega
        simp [hne]
      simp [this]
    · have hne : ¬ m = a := fun h2 => h h2.symm
      rw [ih (by omega)]
      simp [hne]

theorem dedupPred_once (a b c : Nat) (hab : a ≠ b) (hac : a ≠ c) (hbc : b ≠ c) :
    (if dedupPred a b c = true then 1 else 0) + (if dedupPred b a c = true then 1 else 0) +
      (if dedupPred c a b = true then 1 else 0) = 1 := by
  simp only [dedupPred, decide_eq_true_eq]
  split_ifs <;> omega

theorem passCount_sum (Z : CSRMat) (a b c : Nat) (hab : a ≠ b) (hac : a ≠ c) (hbc : b ≠ c)
    (hZ : HoldsTriangle Z a b c) : ((List.range Z.m).map (passCount Z)).sum = 1 := by
  obtain ⟨ha, hb, hc, hrows⟩ := hZ
  have h : ∀ r ∈ List.range Z.m, passCount Z r =
      (if r = a then (if dedupPred a b c = true then 1 else 0) else 0) +
      ((if r = b then (if dedupPred b a c = true then 1 else 0) else 0) +
      (if r = c then (if dedupPred c a b = true then 1 else 0) else 0)) := by
    intro r hr
    rw [passCount, hrows r (List.mem_range.1 hr)]
    by_cases h1 : r = a
    · have h2 : ¬ r = b := fun h => hab (h1.symm.trans h)
      have h3 : ¬ r = c := fun h => hac (h1.symm.trans h)
      simp only [h1, if_true, h2, h3, if_false, List.filter_cons, List.filter_nil]
      rw [← h1]
      by_cases hp : dedupPred r b c = true <;> simp [hp, h2, h3]
    · by_cases h2 : r = b
      · have h3 : ¬ r = c := fun h => hbc (h2.symm.trans h)
        simp only [h1, if_false, h2, if_true, List.filter_cons, List.filter_nil]
        rw [← h2]
        by_cases hp : dedupPred r a c = true <;> simp [hp, h1, h3]
      · by_cases h3 : r = c
        · simp only [h1, h2, if_false, h3, if_true, List.filter_cons, List.filter_nil]
          rw [← h3]
          by_cases hp : dedupPred r a b = true <;> simp [hp, h1, h2]
        · simp [h1, h2, h3]
  rw [List.map_congr_left h, List.sum_map_add, List.sum_map_add, sum_range_ite _ _ _ ha,
    sum_range_ite _ _ _ hb, sum_range_ite _ _ _ hc]
  have := dedupPred_once a b c hab hac hbc
  omega

/-- C20: for three pairwise distinct vertices exactly one of the three row-perspective cells
passes the test `v1 > v2 && v1 > v3`, and `computeKCounts`, run under any schedule with a
histogram of size at least 4 on a witness matrix holding those three cells, adds exactly 1 to
the histogram total. -/
theorem dedup_counts_once (Z : CSRMat) (vTriDegrees eTriDegrees : Vector)
    (edgeInds : StdMap (StdMap Nat)) (kCounts : List Nat) (sched : List (List Nat))
    (a b c : Nat) (hab : a ≠ b) (hac : a ≠ c) (hbc : b ≠ c) (hZ : HoldsTriangle Z a b c)
    (hS : 4 ≤ kCounts.length) (hs : IsSchedule Z.m sched) :
    ((dedupPred a b c = true ∧ dedupPred b a c = false ∧ dedupPred c a b = false) ∨
      (dedupPred a b c = false ∧ dedupPred b a c = true ∧ dedupPred c a b = false) ∨
      (dedupPred a b c = false ∧ dedupPred b a c = false ∧ dedupPred c a b = true)) ∧
    (computeKCounts Z vTriDegrees eTriDegrees edgeInds kCounts sched).sum =
      kCounts.sum + 1 := by
  constructor
  · simp only [dedupPred, decide_eq_true_eq, decide_eq_false_iff_not]
    omega
  · obtain ⟨_, _, h3⟩ := kSched_effect Z vTriDegrees eTriDegrees edgeInds kCounts.length sched
      kCounts hS rfl
    rw [computeKCounts, h3, (List.Perm.map (passCount Z) hs).sum_eq,
      passCount_sum Z a b c hab hac hbc hZ]

theorem dedup_counts_once_witness :
    (0 : Nat) ≠ 1 ∧ (0 : Nat) ≠ 2 ∧ (1 : Nat) ≠ 2 ∧ HoldsTriangle threeCells 0 1 2 ∧
    4 ≤ [0, 0, 0, 0, 0].length ∧ IsSchedule threeCells.m [[1], [2, 0]] ∧
    (((dedupPred 0 1 2 = true ∧ dedupPred 1 0 2 = false ∧ dedupPred 2 0 1 = false) ∨
      (dedupPred 0 1 2 = false ∧ dedupPred 1 0 2 = true ∧ dedupPred 2 0 1 = false) ∨
      (dedupPred 0 1 2 = false ∧ dedupPred 1 0 2 = false ∧ dedupPred 2 0 1 = true)) ∧
    (computeKCounts threeCells [1, 1, 1] [1, 1, 1] k3Index [0, 0, 0, 0, 0] [[1], [2, 0]]).sum =
      [0, 0, 0, 0, 0].sum + 1) :=
  ⟨by decide, by decide, by decide, by decide, by decide, by decide,
    dedup_counts_once threeCells [1, 1, 1] [1, 1, 1] k3Index [0, 0, 0, 0, 0] [[1], [2, 0]] 0 1 2
      (by decide) (by decide) (by decide) (by decide) (by decide) (by decide)⟩

/-! ### Further claims on computeKCounts -/

theorem kRow_empty (Z : CSRMat) (vT eT : Vector) (eI : StdMap (StdMap Nat)) (S : Nat)
    (localK : List Nat) (r : Nat) (h : Z.getNNZInRow r = 0) :
    kRow Z vT eT eI S localK r = localK := by
  simp only [CSRMat.getNNZInRow] at h
  simp only [kRow, h, List.range_zero, List.foldl_nil]

theorem kWorker_empty (Z : CSRMat) (vT eT : Vector) (eI : StdMap (StdMap Nat)) (S : Nat)
    (rows : List Nat) (h : ∀ r ∈ rows, Z.getNNZInRow r = 0) :
    kWorker Z vT eT eI S rows = List.replicate S 0 := by
  unfold kWorker
  rw [resize_nil]
  induction rows with
  | nil => rfl
  | cons r rows ih =>
    rw [List.foldl_cons, kRow_empty Z vT eT eI S _ r (h r (List.mem_cons_self _ _))]
    exact ih (fun x hx => h x (List.mem_cons_of_mem _ hx))

theorem kMerge_zeros (kCounts : List Nat) :
    kMerge kCounts (List.replicate kCounts.length 0) = kCounts := by
  apply List.ext_getElem?
  intro j
  rw [kMerge, merge_getElem?]
  by_cases hj : j < kCounts.length
  · simp [hj, List.getD_eq_getElem?_getD, List.getElem?_eq_getElem hj]
  · simp [hj]

/-- C21: for a witness matrix with no stored cells (`nnzInRow[r] == 0` for every row), every
degree vectors, index map and schedule, `computeKCounts` leaves the histogram unchanged; a
histogram that starts all zeros stays all zeros. -/
theorem computeKCounts_empty (Z : CSRMat) (vTriDegrees eTriDegrees : Vector)
    (edgeInds : StdMap (StdMap Nat)) (kCounts : List Nat) (sched : List (List Nat))
    (hZ : ∀ r, r < Z.m → Z.getNNZInRow r = 0) (hs : IsSchedule Z.m sched) :
    computeKCounts Z vTriDegrees eTriDegrees edgeInds kCounts sched = kCounts ∧
    ((∀ j, kCounts.getD j 0 = 0) →
      ∀ j, (computeKCounts Z vTriDegrees eTriDegrees edgeInds kCounts sched).getD j 0 = 0) := by
  have hrows : ∀ rows ∈ sched, ∀ r ∈ rows, Z.getNNZInRow r = 0 := by
    intro rows hrows r hr
    apply hZ
    have : r ∈ sched.flatten := List.mem_flatten.2 ⟨rows, hrows, hr⟩
    exact List.mem_range.1 ((List.Perm.mem_iff hs).1 this)
  have key : ∀ (sc : List (List Nat)) (acc : List Nat), acc.length = kCounts.length →
      (∀ rows ∈ sc, ∀ r ∈ rows, Z.getNNZInRow r = 0) →
      sc.foldl (fun acc rows =>
        kMerge acc (kWorker Z vTriDegrees eTriDegrees edgeInds kCounts.length rows)) acc =
        acc := by
    intro sc
    induction sc with
    | nil => intro acc _ _; rfl
    | cons rows sc ih =>
      intro acc hacc h
      rw [List.foldl_cons, kWorker_empty Z _ _ _ _ rows (h rows (List.mem_cons_self _ _)),
        ← hacc, kMerge_zeros]
      rw [hacc]
      exact ih acc hacc (fun x hx => h x (List.mem_cons_of_mem _ hx))
  have heq : computeKCounts Z vTriDegrees eTriDegrees edgeInds kCounts sched = kCounts :=
    key sched kCounts rfl hrows
  refine ⟨heq, ?_⟩
  intro h0 j
  rw [heq]
  exact h0 j

theorem computeKCounts_empty_witness :
    (∀ r, r < (matmat (CSRMat.fresh .UNDEFINED) p3Lower p3Lower).m →
      (matmat (CSRMat.fresh .UNDEFINED) p3Lower p3Lower).getNNZInRow r = 0) ∧
    IsSchedule (matmat (CSRMat.fresh .UNDEFINED) p3Lower p3Lower).m [[2], [0, 1]] ∧
    (computeKCounts (matmat (CSRMat.fresh .UNDEFINED) p3Lower p3Lower) [0, 0, 0] [0, 0] []
        [0, 0, 0, 0, 0] [[2], [0, 1]] = [0, 0, 0, 0, 0] ∧
    ((∀ j, [0, 0, 0, 0, 0].getD j 0 = 0) →
      ∀ j, (computeKCounts (matmat (CSRMat.fresh .UNDEFINED) p3Lower p3Lower) [0, 0, 0] [0, 0]
        [] [0, 0, 0, 0, 0] [[2], [0, 1]]).getD j 0 = 0)) :=
  ⟨by decide, by decide,
    computeKCounts_empty (matmat (CSRMat.fresh .UNDEFINED) p3Lower p3Lower) [0, 0, 0] [0, 0] []
      [0, 0, 0, 0, 0] [[2], [0, 1]] (by decide) (by decide)⟩

/-- C22: for a cell `(v1, v2, v3)` with `v2 != v3` that passes the test of line 678, the
three incidence-index lookups use three distinct keys `(x, y)`, all with `x < y`, and a pair
`(x, y)` is one of them exactly when `x < y` and both `x` and `y` are vertices of the cell:
the keys are the three unordered pairs of `{v1, v2, v3}` written as `(min, max)`. -/
theorem cellKeys_ordered (v1 v2 v3 : Nat) (hne : v2 ≠ v3) (hp : dedupPred v1 v2 v3 = true) :
    (∀ key ∈ cellKeys v1 v2 v3, key.1 < key.2) ∧
    (∀ x y, (x, y) ∈ cellKeys v1 v2 v3 ↔
      (x < y ∧ (x = v1 ∨ x = v2 ∨ x = v3) ∧ (y = v1 ∨ y = v2 ∨ y = v3))) ∧
    (cellKeys v1 v2 v3).length = 3 ∧ (cellKeys v1 v2 v3).Nodup := by
  simp only [dedupPred, decide_eq_true_eq] at hp
  obtain ⟨h12, h13⟩ := hp
  by_cases h : v2 < v3
  · simp only [cellKeys, h, if_true]
    refine ⟨?_, ?_, rfl, ?_⟩
    · intro key hk
      simp only [List.mem_cons, List.mem_singleton, List.not_mem_nil, or_false] at hk
      rcases hk with rfl | rfl | rfl <;> simp only <;> omega
    · intro x y
      simp only [List.mem_cons, List.mem_singleton, Prod.mk.injEq, List.not_mem_nil, or_false]
      omega
    · simp only [List.nodup_cons, List.mem_cons, List.mem_singleton, Prod.mk.injEq,
        List.not_mem_nil, or_false, List.nodup_nil, and_true, not_false_eq_true]
      omega
  · have h2 : v3 < v2 := by omega
    simp only [cellKeys, h, if_false]
    refine ⟨?_, ?_, rfl, ?_⟩
    · intro key hk
      simp only [List.mem_cons, List.mem_singleton, List.not_mem_nil, or_false] at hk
      rcases hk with rfl | rfl | rfl <;> simp only <;> omega
    · intro x y
      simp only [List.mem_cons, List.mem_singleton, Prod.mk.injEq, List.not_mem_nil, or_false]
      omega
    · simp only [List.nodup_cons, List.mem_cons, List.mem_singleton, Prod.mk.injEq,
        List.not_mem_nil, or_false, List.nodup_nil, and_true, not_false_eq_true]
      omega

theorem cellKeys_ordered_witness :
    (1 : Nat) ≠ 0 ∧ dedupPred 5 1 0 = true ∧
    ((∀ key ∈ cellKeys 5 1 0, key.1 < key.2) ∧
    (∀ x y, (x, y) ∈ cellKeys 5 1 0 ↔
      (x < y ∧ (x = 5 ∨ x = 1 ∨ x = 0) ∧ (y = 5 ∨ y = 1 ∨ y = 0))) ∧
    (cellKeys 5 1 0).length = 3 ∧ (cellKeys 5 1 0).Nodup) :=
  ⟨by decide, by decide, cellKeys_ordered 5 1 0 (by decide) (by decide)⟩

/-! ### Assertions and bounds -/

theorem readsInBounds_of_rowInv (S : CSRMat) (h : S.RowInv) (withVals : Bool) :
    S.readsInBounds withVals := by
  obtain ⟨h1, h2, h3, h4, _⟩ := h
  intro r hr
  have hr2 : r < S.m := hr
  refine ⟨by rw [h1]; exact hr2, ?_⟩
  intro nz hnz
  have hnz2 : nz < S.nnzInRow.getD r 0 := hnz
  refine ⟨⟨by rw [h2]; exact hr2, by rw [(h4 r hr2).1]; exact hnz2⟩, ?_⟩
  intro _
  exact ⟨by rw [h3]; exact hr2, by rw [(h4 r hr2).2]; exact hnz2⟩

theorem incidentInBounds_iff (S : CSRMat) :
    incidentInBounds S ↔ ∀ r, r < S.m → ∀ c ∈ S.rowCols r, r < c → c < S.m := by
  simp only [incidentInBounds, CSRMat.getM, CSRMat.rowCols, List.mem_map, List.mem_range]
  constructor
  · rintro h r hr c ⟨nz, hnz, rfl⟩ hlt
    exact h r hr nz hnz hlt
  · intro h r hr nz hnz hlt
    exact h r hr _ ⟨nz, hnz, rfl⟩ hlt

theorem createTriMatrix_none_iff (self S : CSRMat) (kind : matrixtype) :
    createTriMatrix self S kind = none ↔
      (S.m ≠ S.n ∨ ¬ (kind = .LOWERTRI ∨ kind = .UPPERTRI)) := by
  by_cases hsq : S.m = S.n
  · by_cases hk : kind = .LOWERTRI ∨ kind = .UPPERTRI
    · rw [createTriMatrix_eq self S kind hsq hk]
      simp [hsq, hk]
    · simp only [createTriMatrix, CSRMat.getM, CSRMat.getN, hsq, ne_eq, not_true_eq_false,
        if_false, hk, not_false_eq_true, if_true, false_or]
  · simp only [createTriMatrix, CSRMat.getM, CSRMat.getN, ne_eq, hsq, not_false_eq_true,
      if_true, true_or]

theorem createIncidentMatrix_none_iff (self S : CSRMat) (eIndices : StdMap (StdMap Nat)) :
    createIncidentMatrix self S eIndices = none ↔ self.type ≠ .INCIDENCE := by
  by_cases ht : self.type = .INCIDENCE
  · rw [createIncidentMatrix_eq self S eIndices ht]
    simp [ht]
  · simp only [createIncidentMatrix, ne_eq, ht, not_false_eq_true, if_true]

theorem createTriMatrixRun_cases (self S : CSRMat) (kind : matrixtype) :
    (createTriMatrixRun self S kind = .assertFailed ↔ createTriMatrix self S kind = none) ∧
    ((∃ Z, createTriMatrixRun self S kind = .completed Z) ↔
      ((∃ Z, createTriMatrix self S kind = some Z) ∧ S.readsInBounds true)) := by
  unfold createTriMatrixRun
  cases h : createTriMatrix self S kind with
  | none => simp
  | some Z =>
    by_cases hb : S.readsInBounds true
    · simp [hb]
    · simp [hb]

theorem createIncidentMatrixRun_cases (self S : CSRMat) (eIndices : StdMap (StdMap Nat)) :
    (createIncidentMatrixRun self S eIndices = .assertFailed ↔
      createIncidentMatrix self S eIndices = none) ∧
    ((∃ r, createIncidentMatrixRun self S eIndices = .completed r) ↔
      ((∃ r, createIncidentMatrix self S eIndices = some r) ∧
        S.readsInBounds false ∧ incidentInBounds S)) := by
  unfold createIncidentMatrixRun
  cases h : createIncidentMatrix self S eIndices with
  | none => simp
  | some r =>
    by_cases hb : S.readsInBounds false ∧ incidentInBounds S
    · simp [hb]
    · simp [hb]

theorem createTriMatrixRun_completed (self S : CSRMat) (kind : matrixtype) (Z : CSRMat)
    (h : createTriMatrixRun self S kind = .completed Z) :
    createTriMatrix self S kind = some Z := by
  unfold createTriMatrixRun at h
  cases hc : createTriMatrix self S kind with
  | none => rw [hc] at h; exact Outcome.noConfusion h
  | some Z2 =>
    rw [hc] at h
    by_cases hb : S.readsInBounds true
    · simp only [hb, if_true, Outcome.completed.injEq] at h
      rw [h]
    · simp only [hb, if_false] at h
      exact Outcome.noConfusion h

theorem createIncidentMatrixRun_completed (self S : CSRMat) (eIndices : StdMap (StdMap Nat))
    (r : CSRMat × StdMap (StdMap Nat))
    (h : createIncidentMatrixRun self S eIndices = .completed r) :
    createIncidentMatrix self S eIndices = some r := by
  unfold createIncidentMatrixRun at h
  cases hc : createIncidentMatrix self S eIndices with
  | none => rw [hc] at h; exact Outcome.noConfusion h
  | some r2 =>
    rw [hc] at h
    by_cases hb : S.readsInBounds false ∧ incidentInBounds S
    · simp only [hb, and_self, if_true, Outcome.completed.injEq] at h
      rw [h]
    · simp only [hb, if_false] at h
      exact Outcome.noConfusion h

/-- C28: for `3 <= n <= 65537` (so that `choose2(n-1)` does not wrap) and a histogram of size
`S > n`, a triangle with `tvMin = choose2(n-1)` and `teMin = n-2` is credited by the level
loop to level exactly `n`. -/
theorem complete_graph_level (n S : Nat) (hn : 3 ≤ n) (hw : n ≤ 65537) (hS : n < S) :
    maxKFor (choose2 (n - 1)) (n - 2) S = n := by
  obtain ⟨h1, h2, h3, h4⟩ := maxKFor_facts (choose2 (n - 1)) (n - 2) S (by omega)
  have hb : ∀ k, 3 ≤ k → k ≤ n → levelBound (choose2 (n - 1)) (n - 2) k := by
    intro k hk1 hk2
    exact ⟨choose2_mono_of_le (k - 1) (n - 1) (by omega) (by omega) (by omega), by omega⟩
  have hnb : ∀ k, n < k → ¬ levelBound (choose2 (n - 1)) (n - 2) k := by
    intro k hk hbk
    have := hbk.2
    omega
  obtain ⟨h5, h6⟩ := h4 (hb 3 (le_refl _) hn)
  by_contra hne
  by_cases hlt : maxKFor (choose2 (n - 1)) (n - 2) S < n
  · exact h6 (by omega) (hb _ (by omega) (by omega))
  · exact hnb (n + 1) (by omega) (h5 (n + 1) (by omega) (by omega))

theorem complete_graph_level_witness :
    3 ≤ 4 ∧ 4 ≤ 65537 ∧ 4 < 6 ∧ maxKFor (choose2 (4 - 1)) (4 - 2) 6 = 4 :=
  ⟨by decide, by decide, by decide, complete_graph_level 4 6 (by decide) (by decide) (by decide)⟩

/-! ### matmat on a receiver that already holds a witness matrix -/

theorem getD_resize {α : Type} (l : List α) (m r : Nat) (d : α) (hr : r < m) :
    (resize l m d).getD r d = l.getD r d := by
  simp only [resize, List.getD_eq_getElem?_getD]
  by_cases h : r < l.length
  · rw [List.getElem?_append_left (by simp; omega), List.getElem?_take_of_lt hr]
  · have h2 : l.length ≤ r := by omega
    rw [List.getElem?_append_right (by simp; omega), List.getElem?_eq_none h2]
    simp only [List.length_take, List.getElem?_replicate, Option.getD_none]
    split <;> rfl

/-- Closed form of `matmat` on a receiver whose four row vectors have `self.m` entries: a
row that ends with no nonzero keeps the vectors the receiver had. -/
theorem matmat_general (self A B : CSRMat) (h1 : self.nnzInRow.length = self.m)
    (h2 : self.cols.length = self.m) (h3 : self.vals.length = self.m)
    (h4 : self.vals2.length = self.m) :
    matmat self A B =
      { type := self.type
        m := A.m
        n := B.n
        nnz := ((List.range A.m).map (fun r => (newNZs A B r).length)).sum
        nnzInRow := (List.range A.m).map (fun r => (newNZs A B r).length)
        cols := (List.range A.m).map
          (fun r => if 0 < (newNZs A B r).length then zCols A B r else self.cols.getD r [])
        vals := (List.range A.m).map
          (fun r => if 0 < (newNZs A B r).length then zVals A B r else self.vals.getD r [])
        vals2 := (List.range A.m).map
          (fun r => if 0 < (newNZs A B r).length then zVals2 A B r
            else self.vals2.getD r []) } := by
  simp only [matmat, CSRMat.getM, CSRMat.getN]
  by_cases h : self.m = A.m
  · simp only [h, ne_eq, not_true_eq_false, if_false, foldl_matmatRow]
    rw [foldl_modifyAt_range_eq _ A.m _ 0 (by rw [h1, h]),
      foldl_modifyAt_range_eq _ A.m _ [] (by rw [h2, h]),
      foldl_modifyAt_range_eq _ A.m _ [] (by rw [h3, h]),
      foldl_modifyAt_range_eq _ A.m _ [] (by rw [h4, h])]
    simp
  · simp only [ne_eq, h, not_false_eq_true, if_true, foldl_matmatRow]
    rw [foldl_modifyAt_range_eq _ A.m _ 0 (by simp [resize_length]),
      foldl_modifyAt_range_eq _ A.m _ [] (by simp [resize_length]),
      foldl_modifyAt_range_eq _ A.m _ [] (by simp [resize_length]),
      foldl_modifyAt_range_eq _ A.m _ [] (by simp [resize_length])]
    simp only [Nat.zero_add, CSRMat.mk.injEq, true_and]
    refine ⟨?_, ?_, ?_⟩
    · apply List.map_congr_left; intro r hr
      rw [getD_resize _ _ _ _ (List.mem_range.1 hr)]
    · apply List.map_congr_left; intro r hr
      rw [getD_resize _ _ _ _ (List.mem_range.1 hr)]
    · apply List.map_congr_left; intro r hr
      rw [getD_resize _ _ _ _ (List.mem_range.1 hr)]

theorem matmat_general_rowCells (self A B : CSRMat) (h1 : self.nnzInRow.length = self.m)
    (h2 : self.cols.length = self.m) (h3 : self.vals.length = self.m)
    (h4 : self.vals2.length = self.m) (i : Nat) (hi : i < A.m) :
    (matmat self A B).rowCells i =
      (newNZs A B i).map (fun e => (e.1, e.2.getD 0 0, e.2.getD 1 0)) := by
  rw [matmat_general self A B h1 h2 h3 h4]
  simp only [CSRMat.rowCells, CSRMat.getNNZInRow, CSRMat.getCol, CSRMat.getVal, CSRMat.getVal2]
  rw [getD_range_map _ _ _ _ hi, getD_range_map _ _ _ _ hi, getD_range_map _ _ _ _ hi,
    getD_range_map _ _ _ _ hi]
  apply List.ext_getElem?
  intro idx
  by_cases h : idx < (newNZs A B i).length
  · have hpos : 0 < (newNZs A B i).length := by omega
    simp [h, hpos, List.getElem?_range, zCols, zVals, zVals2, List.getD_eq_getElem?_getD]
  · have hle : (newNZs A B i).length ≤ idx := by omega
    simp [List.getElem?_eq_none, hle]

/-! ### The receiver passed as an operand of matmat -/

theorem newNZs_of_empty_row (A B : CSRMat) (r : Nat) (h : A.getNNZInRow r = 0) :
    newNZs A B r = [] := by
  simp only [newNZs, matmatAccum, h, List.range_zero, List.foldl_nil, stripSingles]

theorem matmatRowAliased_eq (B : CSRMat) (Z : CSRMat) (t r : Nat) :
    matmatRowAliased B (Z, t) r =
      ({ Z with nnzInRow := modifyAt (fun _ => 0) Z.nnzInRow r }, t) := by
  have h0 : ({ Z with nnzInRow := Z.nnzInRow.set r 0 } : CSRMat).getNNZInRow r = 0 := by
    simp only [CSRMat.getNNZInRow, List.getD_eq_getElem?_getD, List.getElem?_set]
    by_cases hr : r < Z.nnzInRow.length
    · simp [hr]
    · simp [hr]
  have hn := newNZs_of_empty_row { Z with nnzInRow := Z.nnzInRow.set r 0 } B r h0
  simp only [matmatRowAliased]
  rw [matmatRow_eq, hn]
  simp only [List.length_nil, lt_irrefl, if_false, Nat.add_zero, modifyAt_id]

theorem foldl_matmatRowAliased (B : CSRMat) (rs : List Nat) (Z : CSRMat) (t : Nat) :
    rs.foldl (matmatRowAliased B) (Z, t) =
      ({ Z with nnzInRow := rs.foldl (fun l r => modifyAt (fun _ => 0) l r) Z.nnzInRow }, t) := by
  induction rs generalizing Z with
  | nil => rfl
  | cons r rs ih =>
    rw [List.foldl_cons, matmatRowAliased_eq, ih]
    rfl

theorem matmatAliased_eq (self B : CSRMat) (h1 : self.nnzInRow.length = self.m) :
    matmatAliased self B =
      { self with n := B.n, nnz := 0, nnzInRow := List.replicate self.m 0 } := by
  simp only [matmatAliased, CSRMat.getM, CSRMat.getN, foldl_matmatRowAliased]
  rw [foldl_modifyAt_range_eq (fun _ _ => 0) self.m self.nnzInRow 0 h1]
  congr 1
  apply List.ext_getElem?
  intro i
  by_cases hi : i < self.m
  · simp [hi]
  · simp [hi]

/-- C27 as stated fails: the receiver `k3Witness` holds a witness matrix (row 2 has one
cell); after `matmat` with two operands of the same row count whose product is empty, row 2
has `nnzInRow[2] == 0` but keeps the old one-entry vectors `cols[2]`, `vals[2]`, `vals2[2]`,
so the row invariant fails and the state differs from a fresh receiver's. -/
theorem matmat_keeps_stale_rows :
    k3Witness.RowInv2 ∧ k3Witness.m = p3Lower.m ∧
    (matmat k3Witness p3Lower p3Lower).nnzInRow = [0, 0, 0] ∧
    (matmat k3Witness p3Lower p3Lower).cols = [[], [], [0]] ∧
    (matmat k3Witness p3Lower p3Lower).vals = [[], [], [0]] ∧
    (matmat k3Witness p3Lower p3Lower).vals2 = [[], [], [1]] ∧
    ¬ (matmat k3Witness p3Lower p3Lower).RowInv2 ∧
    k3Witness.type = .UNDEFINED ∧
    matmat k3Witness p3Lower p3Lower ≠ matmat (CSRMat.fresh .UNDEFINED) p3Lower p3Lower := by
  decide

/-- C27 amended: on a receiver that holds a witness matrix (row invariant with `vals2`) and
is an object distinct from `A` and `B`, `matmat(A,B)` leaves dimensions, `nnzInRow`, `nnz`
(the sum of `nnzInRow`) and the cells the accessors read in every row equal to those of a
fresh receiver, hence determined by `A` and `B` alone; for every row with `nnzInRow[r] > 0`
the lengths of `cols[r]`, `vals[r]` and `vals2[r]` equal `nnzInRow[r]`, while a row with
`nnzInRow[r] == 0` keeps the vectors the receiver had. When the receiver is itself passed as
`A`, the call `Z.matmat(Z, B)` returns the empty product instead: `nnz == 0`, every
`nnzInRow[r] == 0`, and the row vectors are left as they were. -/
theorem matmat_reused_receiver (self A B : CSRMat) (t : matrixtype) (hself : self.RowInv2) :
    (matmat self A B).m = A.m ∧ (matmat self A B).n = B.n ∧
    (matmat self A B).nnzInRow = (matmat (CSRMat.fresh t) A B).nnzInRow ∧
    (matmat self A B).nnz = (matmat self A B).nnzInRow.sum ∧
    (matmat self A B).nnz = (matmat (CSRMat.fresh t) A B).nnz ∧
    (∀ r, r < A.m →
      (matmat self A B).rowCells r = (matmat (CSRMat.fresh t) A B).rowCells r) ∧
    (∀ r, r < A.m → 0 < (matmat self A B).nnzInRow.getD r 0 →
      ((matmat self A B).cols.getD r []).length = (matmat self A B).nnzInRow.getD r 0 ∧
      ((matmat self A B).vals.getD r []).length = (matmat self A B).nnzInRow.getD r 0 ∧
      ((matmat self A B).vals2.getD r []).length = (matmat self A B).nnzInRow.getD r 0) ∧
    (∀ r, r < A.m → (matmat self A B).nnzInRow.getD r 0 = 0 →
      (matmat self A B).cols.getD r [] = self.cols.getD r [] ∧
      (matmat self A B).vals.getD r [] = self.vals.getD r [] ∧
      (matmat self A B).vals2.getD r [] = self.vals2.getD r []) ∧
    matmatAliased self B =
      { self with n := B.n, nnz := 0, nnzInRow := List.replicate self.m 0 } := by
  obtain ⟨⟨h1, h2, h3, _, _⟩, h4, _⟩ := hself
  have hg := matmat_general self A B h1 h2 h3 h4
  refine ⟨by rw [hg], by rw [hg], by rw [hg, matmat_fresh], by rw [hg],
    by rw [hg, matmat_fresh], ?_, ?_, ?_, matmatAliased_eq self B h1⟩
  · intro r hr
    rw [matmat_general_rowCells self A B h1 h2 h3 h4 r hr, matmat_fresh_rowCells t A B r hr]
  · intro r hr
    rw [hg]
    simp only
    rw [getD_range_map _ _ _ _ hr, getD_range_map _ _ _ _ hr, getD_range_map _ _ _ _ hr,
      getD_range_map _ _ _ _ hr]
    intro hpos
    simp only [hpos, if_true, zCols_length, zVals_length, zVals2_length, and_self]
  · intro r hr
    rw [hg]
    simp only
    rw [getD_range_map _ _ _ _ hr, getD_range_map _ _ _ _ hr, getD_range_map _ _ _ _ hr,
      getD_range_map _ _ _ _ hr]
    intro h0
    simp only [h0, lt_self_iff_false, if_false, and_self]

theorem matmat_reused_receiver_witness :
    k3Witness.RowInv2 ∧
    ((matmat k3Witness k4Lower k4Incidence).m = k4Lower.m ∧
    (matmat k3Witness k4Lower k4Incidence).n = k4Incidence.n ∧
    (matmat k3Witness k4Lower k4Incidence).nnzInRow =
      (matmat (CSRMat.fresh .UNDEFINED) k4Lower k4Incidence).nnzInRow ∧
    (matmat k3Witness k4Lower k4Incidence).nnz =
      (matmat k3Witness k4Lower k4Incidence).nnzInRow.sum ∧
    (matmat k3Witness k4Lower k4Incidence).nnz =
      (matmat (CSRMat.fresh .UNDEFINED) k4Lower k4Incidence).nnz ∧
    (∀ r, r < k4Lower.m →
      (matmat k3Witness k4Lower k4Incidence).rowCells r =
        (matmat (CSRMat.fresh .UNDEFINED) k4Lower k4Incidence).rowCells r) ∧
    (∀ r, r < k4Lower.m → 0 < (matmat k3Witness k4Lower k4Incidence).nnzInRow.getD r 0 →
      ((matmat k3Witness k4Lower k4Incidence).cols.getD r []).length =
        (matmat k3Witness k4Lower k4Incidence).nnzInRow.getD r 0 ∧
      ((matmat k3Witness k4Lower k4Incidence).vals.getD r []).length =
        (matmat k3Witness k4Lower k4Incidence).nnzInRow.getD r 0 ∧
      ((matmat k3Witness k4Lower k4Incidence).vals2.getD r []).length =
        (matmat k3Witness k4Lower k4Incidence).nnzInRow.getD r 0) ∧
    (∀ r, r < k4Lower.m → (matmat k3Witness k4Lower k4Incidence).nnzInRow.getD r 0 = 0 →
      (matmat k3Witness k4Lower k4Incidence).cols.getD r [] = k3Witness.cols.getD r [] ∧
      (matmat k3Witness k4Lower k4Incidence).vals.getD r [] = k3Witness.vals.getD r [] ∧
      (matmat k3Witness k4Lower k4Incidence).vals2.getD r [] = k3Witness.vals2.getD r []) ∧
    matmatAliased k3Witness k4Incidence =
      { k3Witness with
        n := k4Incidence.n
        nnz := 0
        nnzInRow := List.replicate k3Witness.m 0 }) :=
  ⟨by decide, matmat_reused_receiver k3Witness k4Lower k4Incidence .UNDEFINED (by decide)⟩

/-! ### Sorted rows -/

theorem distinct_of_sorted (A : CSRMat) (h : A.SortedRows) : A.DistinctCols :=
  fun r hr => (h r hr).imp (fun hab => Nat.ne_of_lt hab)

theorem readMMMatrix_sorted (self : CSRMat) (numVerts : Nat) (edgeList : List edge_t) :
    (readMMMatrix self numVerts edgeList).SortedRows := by
  intro r hr
  have hm : (readMMMatrix self numVerts edgeList).m = numVerts := by
    simp only [readMMMatrix, copyRowSets_eq]
  rw [hm] at hr
  rw [readMMMatrix_rowCols _ _ _ _ hr]
  exact assignPairs_WF _ _ (fun r => by rw [getD_replicate_nil]; exact WF_nil) r

theorem readBinMatrix_sorted (self : CSRMat) (numVerts : Nat) (edgeList : List edge_t) :
    (readBinMatrix self numVerts edgeList).SortedRows := by
  intro r hr
  have hm : (readBinMatrix self numVerts edgeList).m = numVerts := by
    simp only [readBinMatrix, copyRowSets_eq]
  rw [hm] at hr
  rw [readBinMatrix_rowCols _ _ _ _ hr]
  exact assignPairs_WF _ _ (fun r => by rw [getD_replicate_nil]; exact WF_nil) r

theorem createTriMatrix_sorted (self S : CSRMat) (kind : matrixtype) (hsq : S.m = S.n)
    (hk : kind = .LOWERTRI ∨ kind = .UPPERTRI) :
    ∃ Z, createTriMatrix self S kind = some Z ∧ Z.m = S.m ∧ Z.SortedRows := by
  obtain ⟨Z, hZ, hm, _, _, hrows⟩ := createTriMatrix_rowEntries self S kind hsq hk
  refine ⟨Z, hZ, hm, ?_⟩
  intro r hr
  rw [hm] at hr
  rw [rowCols_eq_rowEntries, hrows r hr]
  exact assignAll_WF _ _ WF_nil

theorem incidentScan_sorted (S : CSRMat) (eIndices : StdMap (StdMap Nat)) (r : Nat) :
    ((incidentScan S S.m eIndices).1.getD r []).Pairwise (· < ·) := by
  rw [incidentScan_eq]
  apply incInsert_foldl_sorted
  intro r
  rw [getD_replicate_nil]
  exact List.Pairwise.nil

theorem createIncidentMatrix_rowCols (self S : CSRMat) (eIndices : StdMap (StdMap Nat))
    (ht : self.type = .INCIDENCE) :
    ∃ Z eI, createIncidentMatrix self S eIndices = some (Z, eI) ∧ Z.m = S.m ∧
      Z.n = (incidentScan S S.m eIndices).2.2 ∧ eI = (incidentScan S S.m eIndices).2.1 ∧
      ∀ r, r < S.m → Z.rowCols r = (incidentScan S S.m eIndices).1.getD r [] := by
  refine ⟨_, _, createIncidentMatrix_eq self S eIndices ht, rfl, rfl, rfl, ?_⟩
  intro r hr
  exact rowCols_of_rows _ (fun r => (incidentScan S S.m eIndices).1.getD r []) S.m rfl rfl r hr

theorem createIncidentMatrix_sorted (self S : CSRMat) (eIndices : StdMap (StdMap Nat))
    (ht : self.type = .INCIDENCE) :
    ∃ Z eI, createIncidentMatrix self S eIndices = some (Z, eI) ∧ Z.m = S.m ∧ Z.SortedRows := by
  obtain ⟨Z, eI, hZ, hm, _, _, hrows⟩ := createIncidentMatrix_rowCols self S eIndices ht
  refine ⟨Z, eI, hZ, hm, ?_⟩
  intro r hr
  rw [hm] at hr
  rw [hrows r hr]
  exact incidentScan_sorted S eIndices r

theorem matmat_sorted (self A B : CSRMat) (hself : self.RowInv2) :
    (matmat self A B).SortedRows := by
  obtain ⟨⟨h1, h2, h3, _, _⟩, h4, _⟩ := hself
  intro r hr
  have hm : (matmat self A B).m = A.m := by rw [matmat_general self A B h1 h2 h3 h4]
  rw [hm] at hr
  rw [rowCols_eq_rowCells, matmat_general_rowCells self A B h1 h2 h3 h4 r hr, List.map_map]
  exact newNZs_WF A B r

theorem fresh_rowInv2 (t : matrixtype) : (CSRMat.fresh t).RowInv2 := by
  refine ⟨⟨rfl, rfl, rfl, ?_, rfl⟩, rfl, ?_⟩
  · intro r hr; exact absurd hr (Nat.not_lt_zero r)
  · intro r hr; exact absurd hr (Nat.not_lt_zero r)

/-- C23: every construction operation that completes yields a matrix whose rows store their
column indices in strictly increasing order, hence pairwise distinct: the two edge-list
builders and `createTriMatrix`, `createIncidentMatrix` on any receiver, and `matmat` on a
fresh receiver or one that holds a witness matrix. -/
theorem rows_strictly_increasing :
    (∀ (self : CSRMat) (numVerts : Nat) (edgeList : List edge_t),
      (readMMMatrix self numVerts edgeList).SortedRows ∧
      (readMMMatrix self numVerts edgeList).DistinctCols) ∧
    (∀ (self : CSRMat) (numVerts : Nat) (edgeList : List edge_t),
      (readBinMatrix self numVerts edgeList).SortedRows ∧
      (readBinMatrix self numVerts edgeList).DistinctCols) ∧
    (∀ (self S : CSRMat) (kind : matrixtype),
      S.m = S.n → (kind = .LOWERTRI ∨ kind = .UPPERTRI) →
        ∃ Z, createTriMatrix self S kind = some Z ∧ Z.SortedRows ∧ Z.DistinctCols) ∧
    (∀ (self S : CSRMat) (eIndices : StdMap (StdMap Nat)),
      self.type = .INCIDENCE →
        ∃ Z eI, createIncidentMatrix self S eIndices = some (Z, eI) ∧ Z.SortedRows ∧
          Z.DistinctCols) ∧
    (∀ (t : matrixtype) (A B : CSRMat),
      (matmat (CSRMat.fresh t) A B).SortedRows ∧ (matmat (CSRMat.fresh t) A B).DistinctCols) ∧
    (∀ (self A B : CSRMat), self.RowInv2 →
      (matmat self A B).SortedRows ∧ (matmat self A B).DistinctCols) := by
  refine ⟨?_, ?_, ?_, ?_, ?_, ?_⟩
  · intro self nv es
    exact ⟨readMMMatrix_sorted self nv es, distinct_of_sorted _ (readMMMatrix_sorted self nv es)⟩
  · intro self nv es
    exact ⟨readBinMatrix_sorted self nv es,
      distinct_of_sorted _ (readBinMatrix_sorted self nv es)⟩
  · intro self S kind hsq hk
    obtain ⟨Z, hZ, _, hs⟩ := createTriMatrix_sorted self S kind hsq hk
    exact ⟨Z, hZ, hs, distinct_of_sorted _ hs⟩
  · intro self S eI ht
    obtain ⟨Z, eI2, hZ, _, hs⟩ := createIncidentMatrix_sorted self S eI ht
    exact ⟨Z, eI2, hZ, hs, distinct_of_sorted _ hs⟩
  · intro t A B
    have := matmat_sorted (CSRMat.fresh t) A B (fresh_rowInv2 t)
    exact ⟨this, distinct_of_sorted _ this⟩
  · intro self A B hself
    have := matmat_sorted self A B hself
    exact ⟨this, distinct_of_sorted _ this⟩

theorem rows_strictly_increasing_witness :
    ((readMMMatrix (CSRMat.fresh .UNDEFINED) 3 [⟨3, 2⟩, ⟨3, 1⟩, ⟨3, 2⟩]).SortedRows ∧
      (readMMMatrix (CSRMat.fresh .UNDEFINED) 3 [⟨3, 2⟩, ⟨3, 1⟩, ⟨3, 2⟩]).DistinctCols) ∧
    ((readBinMatrix (CSRMat.fresh .UNDEFINED) 4 k4Edges).SortedRows ∧
      (readBinMatrix (CSRMat.fresh .UNDEFINED) 4 k4Edges).DistinctCols) ∧
    (k4Full.m = k4Full.n ∧
      ∃ Z, createTriMatrix (CSRMat.fresh .UNDEFINED) k4Full .UPPERTRI = some Z ∧
        Z.SortedRows ∧ Z.DistinctCols) ∧
    ((CSRMat.fresh .INCIDENCE).type = .INCIDENCE ∧
      ∃ Z eI, createIncidentMatrix (CSRMat.fresh .INCIDENCE) k4Full [] = some (Z, eI) ∧
        Z.SortedRows ∧ Z.DistinctCols) ∧
    ((matmat (CSRMat.fresh .UNDEFINED) k4Lower k4Incidence).SortedRows ∧
      (matmat (CSRMat.fresh .UNDEFINED) k4Lower k4Incidence).DistinctCols) ∧
    (k3Witness.RowInv2 ∧ (matmat k3Witness k4Lower k4Incidence).SortedRows ∧
      (matmat k3Witness k4Lower k4Incidence).DistinctCols) :=
  ⟨rows_strictly_increasing.1 _ 3 _, rows_strictly_increasing.2.1 _ 4 k4Edges,
    ⟨by decide, rows_strictly_increasing.2.2.1 _ k4Full .UPPERTRI (by decide) (Or.inr rfl)⟩,
    ⟨rfl, rows_strictly_increasing.2.2.2.1 _ k4Full [] rfl⟩,
    rows_strictly_increasing.2.2.2.2.1 .UNDEFINED k4Lower k4Incidence,
    ⟨by decide, rows_strictly_increasing.2.2.2.2.2 k3Witness k4Lower k4Incidence (by decide)⟩⟩

/-- C26: for `A` with strictly increasing rows whose columns are rows of `B`, and `B` with
pairwise distinct columns per row, every cell stored by `matmat(A,B)` on a fresh receiver has
`vals < vals2`; so `computeKCounts` meets `v2 < v3` on every cell of the product and looks up
the keys `(v2, v3)`, `(v2, v1)`, `(v3, v1)`. -/
theorem matmat_witnesses_ordered (t : matrixtype) (A B : CSRMat) (hA : A.SortedRows)
    (hBd : B.DistinctCols) (hAB : A.ColsBelow B.m) (i : Nat) (hi : i < A.m)
    (c : Nat × Nat × Nat) (hc : c ∈ (matmat (CSRMat.fresh t) A B).rowCells i) :
    c.2.1 < c.2.2 ∧ cellKeys i c.2.1 c.2.2 = [(c.2.1, c.2.2), (c.2.1, i), (c.2.2, i)] := by
  obtain ⟨rest, hw⟩ := mem_rowCells_matmat t A B i hi c hc
  rw [wedgeWitnesses_eq A B i c.1 (nodup_rows_of A B hBd hAB i hi)] at hw
  have hs : (witnesses A B i c.1).Pairwise (· < ·) := (hA i hi).filter _
  rw [hw, List.pairwise_cons] at hs
  have hlt : c.2.1 < c.2.2 := hs.1 _ (List.mem_cons_self _ _)
  exact ⟨hlt, by simp only [cellKeys, hlt, if_true]⟩

theorem matmat_witnesses_ordered_witness :
    k4Lower.SortedRows ∧ k4Incidence.DistinctCols ∧ k4Lower.ColsBelow k4Incidence.m ∧
    3 < k4Lower.m ∧
    (1, 0, 2) ∈ (matmat (CSRMat.fresh .UNDEFINED) k4Lower k4Incidence).rowCells 3 ∧
    ((1, 0, 2) : Nat × Nat × Nat).2.1 < ((1, 0, 2) : Nat × Nat × Nat).2.2 ∧
    cellKeys 3 ((1, 0, 2) : Nat × Nat × Nat).2.1 ((1, 0, 2) : Nat × Nat × Nat).2.2 =
      [(((1, 0, 2) : Nat × Nat × Nat).2.1, ((1, 0, 2) : Nat × Nat × Nat).2.2),
        (((1, 0, 2) : Nat × Nat × Nat).2.1, 3), (((1, 0, 2) : Nat × Nat × Nat).2.2, 3)] :=
  ⟨by decide, by decide, by decide, by decide, by decide,
    matmat_witnesses_ordered .UNDEFINED k4Lower k4Incidence (by decide) (by decide) (by decide)
      3 (by decide) (1, 0, 2) (by decide)⟩

/-! ### The product of the lower triangle with the incidence matrix -/

theorem mem_edgePairs_iff (S : CSRMat) (u v : Nat) :
    (u, v) ∈ edgePairs S ↔ u < S.m ∧ S.stores u v ∧ u < v := by
  simp only [edgePairs, List.mem_flatMap, List.mem_range, List.mem_map, List.mem_filter,
    decide_eq_true_eq, Prod.mk.injEq, CSRMat.stores]
  constructor
  · rintro ⟨r, hr, c, ⟨hc, hlt⟩, rfl, rfl⟩
    exact ⟨hr, hc, hlt⟩
  · rintro ⟨hr, hc, hlt⟩
    exact ⟨u, hr, v, ⟨hc, hlt⟩, rfl, rfl⟩

theorem symmetric_colsBelow (S : CSRMat) (hsym : S.StructSymmetric) : S.ColsBelow S.m :=
  fun r hr c hc => (hsym r hr c hc).1

theorem incidence_facts (self S : CSRMat) (ht : self.type = .INCIDENCE)
    (hd : S.DistinctCols) (hb : S.ColsBelow S.m) :
    ∃ B eI, createIncidentMatrix self S [] = some (B, eI) ∧ B.m = S.m ∧
      B.n = (edgePairs S).length ∧ B.SortedRows ∧
      (∀ k e, k < S.m →
        (B.stores k e ↔ ∃ q, (edgePairs S)[e]? = some q ∧ (q.1 = k ∨ q.2 = k))) ∧
      (∀ u v e, edgeFind eI u v = some e ↔ (edgePairs S)[e]? = some (u, v)) := by
  obtain ⟨B, eI, hB, hm, hn, heI, hrows⟩ := createIncidentMatrix_rowCols self S [] ht
  obtain ⟨hcnt, _, hmem, hsorted, _⟩ := incidentScan_facts S [] hb
  refine ⟨B, eI, hB, hm, hn.trans hcnt, ?_, ?_, ?_⟩
  · intro r hr
    rw [hm] at hr
    rw [hrows r hr]
    exact hsorted r
  · intro k e hk
    unfold CSRMat.stores
    rw [hrows k hk]
    exact hmem k e
  · intro u v e
    rw [heI, incidentScan_eq, incInsert_foldl_edgeFind _ _ (edgePairs_nodup S hd)]
    constructor
    · rintro (⟨idx, h, he⟩ | ⟨_, h⟩)
      · have : e = idx := by simpa using he
        rw [this]; exact h
      · simp [edgeFind, StdMap.find] at h
    · intro h; exact Or.inl ⟨e, h, by simp⟩

theorem lower_facts (self S : CSRMat) (hsq : S.m = S.n) :
    ∃ L, createTriMatrix self S .LOWERTRI = some L ∧ L.m = S.m ∧ L.SortedRows ∧
      ∀ r, r < S.m → ∀ c, c ∈ L.rowCols r ↔ (S.stores r c ∧ c < r) := by
  obtain ⟨L, hL, hm, _, _, hrows⟩ := createTriMatrix_rowEntries self S .LOWERTRI hsq (Or.inl rfl)
  refine ⟨L, hL, hm, ?_, ?_⟩
  · intro r hr
    rw [hm] at hr
    rw [rowCols_eq_rowEntries, hrows r hr]
    exact assignAll_WF _ _ WF_nil
  · intro r hr c
    unfold CSRMat.stores
    rw [rowCols_eq_rowEntries, hrows r hr, rowCols_eq_rowEntries]
    have := assignAll_mem_keys
      ((S.rowEntries r).filter (fun e => triKeep .LOWERTRI r e.1)) [] c
    simp only [StdMap.keys] at this
    rw [show (fun e : Nat × Nat => e.1) = Prod.fst from rfl, this]
    simp only [List.map_nil, List.not_mem_nil, false_or, List.mem_map, List.mem_filter,
      triKeep, decide_eq_true_eq]
    constructor
    · rintro ⟨e, ⟨he, hord⟩, rfl⟩
      refine ⟨⟨e, he, rfl⟩, ?_⟩
      rcases hord with h | h
      · exact h.2
      · exact absurd h.1 (by simp)
    · rintro ⟨⟨e, he, rfl⟩, hord⟩
      exact ⟨e, ⟨he, Or.inl ⟨trivial, hord⟩⟩, rfl⟩

theorem product_cell (t : matrixtype) (S A B : CSRMat) (hb : S.ColsBelow S.m)
    (hAm : A.m = S.m) (hAd : A.DistinctCols)
    (hAS : ∀ r, r < S.m → ∀ c ∈ A.rowCols r, S.stores r c)
    (hBm : B.m = S.m) (hBs : B.SortedRows)
    (hBst : ∀ k e, k < S.m →
      (B.stores k e ↔ ∃ q, (edgePairs S)[e]? = some q ∧ (q.1 = k ∨ q.2 = k)))
    (i : Nat) (hi : i < S.m) (c : Nat × Nat × Nat)
    (hc : c ∈ (matmat (CSRMat.fresh t) A B).rowCells i) :
    c.2.1 ≠ c.2.2 ∧ c.2.1 ∈ A.rowCols i ∧ c.2.2 ∈ A.rowCols i ∧
      ∃ rest, witnesses A B i c.1 = c.2.1 :: c.2.2 :: rest ∧
      ((edgePairs S)[c.1]? = some (c.2.1, c.2.2) ∨
        (edgePairs S)[c.1]? = some (c.2.2, c.2.1)) := by
  have hiA : i < A.m := by rw [hAm]; exact hi
  have hAB : A.ColsBelow B.m := by
    intro r hr k hk
    rw [hAm] at hr
    rw [hBm]
    exact hb r hr k (hAS r hr k hk)
  obtain ⟨rest, hw⟩ := mem_rowCells_matmat t A B i hiA c hc
  rw [wedgeWitnesses_eq A B i c.1 (nodup_rows_of A B (distinct_of_sorted B hBs) hAB i hiA)]
    at hw
  have hnd : (witnesses A B i c.1).Nodup := (hAd i hiA).filter _
  have h1 : c.2.1 ∈ witnesses A B i c.1 := by rw [hw]; exact List.mem_cons_self _ _
  have h2 : c.2.2 ∈ witnesses A B i c.1 := by
    rw [hw]; exact List.mem_cons_of_mem _ (List.mem_cons_self _ _)
  have hne : c.2.1 ≠ c.2.2 := by
    rw [hw, List.nodup_cons] at hnd
    intro h
    exact hnd.1 (by rw [h]; exact List.mem_cons_self _ _)
  simp only [witnesses, List.mem_filter, decide_eq_true_eq] at h1 h2
  have hk1 : c.2.1 < S.m := hb i hi _ (hAS i hi _ h1.1)
  have hk2 : c.2.2 < S.m := hb i hi _ (hAS i hi _ h2.1)
  obtain ⟨q, hq, hq1⟩ := (hBst _ _ hk1).1 h1.2
  obtain ⟨q2, hq2, hq3⟩ := (hBst _ _ hk2).1 h2.2
  have hqq : q2 = q := by
    rw [hq] at hq2
    exact (Option.some.inj hq2).symm
  rw [hqq] at hq3
  refine ⟨hne, h1.1, h2.1, rest, hw, ?_⟩
  obtain ⟨qa, qb⟩ := q
  simp only at hq1 hq3
  rcases hq1 with h | h <;> rcases hq3 with h3 | h3
  · exact absurd (h.symm.trans h3) hne
  · left; rw [hq, h, h3]
  · right; rw [hq, h, h3]
  · exact absurd (h.symm.trans h3) hne

theorem cellKeys_found (S : CSRMat) (hsym : S.StructSymmetric) (A : CSRMat)
    (hAS : ∀ r, r < S.m → ∀ c ∈ A.rowCols r, S.stores r c)
    (i : Nat) (hi : i < S.m) (e v2 v3 : Nat)
    (h2 : v2 ∈ A.rowCols i) (h3 : v3 ∈ A.rowCols i)
    (hq : (edgePairs S)[e]? = some (v2, v3) ∨ (edgePairs S)[e]? = some (v3, v2))
    (hp : dedupPred i v2 v3 = true) :
    ∀ key ∈ cellKeys i v2 v3, ∃ idx : Nat, (edgePairs S)[idx]? = some key := by
  simp only [dedupPred, decide_eq_true_eq] at hp
  have hs2 := hsym i hi v2 (hAS i hi v2 h2)
  have hs3 := hsym i hi v3 (hAS i hi v3 h3)
  have e2 : ∃ idx : Nat, (edgePairs S)[idx]? = some (v2, i) :=
    List.mem_iff_getElem?.1 ((mem_edgePairs_iff S v2 i).2 ⟨hs2.1, hs2.2, hp.1⟩)
  have e3 : ∃ idx : Nat, (edgePairs S)[idx]? = some (v3, i) :=
    List.mem_iff_getElem?.1 ((mem_edgePairs_iff S v3 i).2 ⟨hs3.1, hs3.2, hp.2⟩)
  have hlt : ∀ a b, (edgePairs S)[e]? = some (a, b) → a < b := by
    intro a b h
    exact edgePairs_lt S (a, b) (List.mem_iff_getElem?.2 ⟨e, h⟩)
  intro key hkey
  by_cases h : v2 < v3
  · simp only [cellKeys, h, if_true, List.mem_cons, List.mem_singleton, List.not_mem_nil,
      or_false] at hkey
    rcases hkey with rfl | rfl | rfl
    · rcases hq with hq | hq
      · exact ⟨e, hq⟩
      · exact absurd (hlt _ _ hq) (by omega)
    · exact e2
    · exact e3
  · simp only [cellKeys, h, if_false, List.mem_cons, List.mem_singleton, List.not_mem_nil,
      or_false] at hkey
    rcases hkey with rfl | rfl | rfl
    · rcases hq with hq | hq
      · exact absurd (hlt _ _ hq) (by omega)
      · exact ⟨e, hq⟩
    · exact e3
    · exact e2

/-- C29: for a square, structurally symmetric `S` with pairwise distinct columns per row,
`L = createTriMatrix(S, LOWERTRI)` completes, `createIncidentMatrix(S)` completes with the
incidence matrix `B` and the index `eI`, and for `A = S` or `A = L`, every cell of
`matmat(A,B)` on a fresh receiver that passes the test of line 678 has its three lookups of
lines 693-704 find an entry (outer and inner key), the edge id found being below `B.n`. -/
theorem lookups_find_entries (self1 self2 S : CSRMat) (t : matrixtype) (hsq : S.m = S.n)
    (hsym : S.StructSymmetric) (hd : S.DistinctCols) (ht : self2.type = .INCIDENCE) :
    ∃ L B eI, createTriMatrix self1 S .LOWERTRI = some L ∧
      createIncidentMatrix self2 S [] = some (B, eI) ∧
      ∀ A, (A = S ∨ A = L) → ∀ i, i < A.m →
        ∀ c ∈ (matmat (CSRMat.fresh t) A B).rowCells i, dedupPred i c.2.1 c.2.2 = true →
          ∀ key ∈ cellKeys i c.2.1 c.2.2,
            ∃ e, edgeFind eI key.1 key.2 = some e ∧ e < B.n := by
  have hb := symmetric_colsBelow S hsym
  obtain ⟨L, hL, hLm, hLs, hLmem⟩ := lower_facts self1 S hsq
  obtain ⟨B, eI, hB, hBm, hBn, hBs, hBst, hfind⟩ := incidence_facts self2 S ht hd hb
  refine ⟨L, B, eI, hL, hB, ?_⟩
  have main : ∀ A : CSRMat, A.m = S.m → A.DistinctCols →
      (∀ r, r < S.m → ∀ c ∈ A.rowCols r, S.stores r c) → ∀ i, i < A.m →
        ∀ c ∈ (matmat (CSRMat.fresh t) A B).rowCells i, dedupPred i c.2.1 c.2.2 = true →
          ∀ key ∈ cellKeys i c.2.1 c.2.2,
            ∃ e, edgeFind eI key.1 key.2 = some e ∧ e < B.n := by
    intro A hAm hAd hAS i hi c hc hp key hkey
    rw [hAm] at hi
    obtain ⟨_, h2, h3, _, _, hq⟩ := product_cell t S A B hb hAm hAd hAS hBm hBs hBst i hi c hc
    obtain ⟨idx, hidx⟩ := cellKeys_found S hsym A hAS i hi c.1 c.2.1 c.2.2 h2 h3 hq hp key hkey
    refine ⟨idx, (hfind key.1 key.2 idx).2 hidx, ?_⟩
    rw [hBn]
    exact (List.getElem?_eq_some_iff.1 hidx).1
  intro A hA
  rcases hA with rfl | rfl
  · exact main A rfl hd (fun r _ c hc => hc)
  · exact main A hLm (distinct_of_sorted A hLs) (fun r hr c hc => ((hLmem r hr c).1 hc).1)

theorem lookups_find_entries_witness :
    k4Full.m = k4Full.n ∧ k4Full.StructSymmetric ∧ k4Full.DistinctCols ∧
    (CSRMat.fresh .INCIDENCE).type = .INCIDENCE ∧
    ∃ L B eI, createTriMatrix (CSRMat.fresh .UNDEFINED) k4Full .LOWERTRI = some L ∧
      createIncidentMatrix (CSRMat.fresh .INCIDENCE) k4Full [] = some (B, eI) ∧
      ∀ A, (A = k4Full ∨ A = L) → ∀ i, i < A.m →
        ∀ c ∈ (matmat (CSRMat.fresh .UNDEFINED) A B).rowCells i,
          dedupPred i c.2.1 c.2.2 = true →
            ∀ key ∈ cellKeys i c.2.1 c.2.2,
              ∃ e, edgeFind eI key.1 key.2 = some e ∧ e < B.n :=
  ⟨by decide, by decide, by decide, rfl,
    lookups_find_entries (CSRMat.fresh .UNDEFINED) (CSRMat.fresh .INCIDENCE) k4Full .UNDEFINED
      (by decide) (by decide) (by decide) rfl⟩

theorem sorted_pair_eq (l : List Nat) (a b : Nat) (hs : l.Pairwise (· < ·)) (hab : a < b)
    (hmem : ∀ x, x ∈ l ↔ x = a ∨ x = b) : l = [a, b] := by
  have hs2 : [a, b].Pairwise (· < ·) := by simp [hab]
  have hp : l.Perm [a, b] := by
    rw [List.perm_ext_iff_of_nodup (hs.imp (fun h => Nat.ne_of_lt h))
      (hs2.imp (fun h => Nat.ne_of_lt h))]
    intro x
    rw [hmem x]
    simp
  exact List.eq_of_perm_of_sorted hp hs hs2

theorem cell_filter (t : matrixtype) (A B : CSRMat) (i j : Nat) (hi : i < A.m)
    (k1 k2 : Nat) (rest : List Nat) (hw : wedgeWitnesses A B i j = k1 :: k2 :: rest) :
    ((matmat (CSRMat.fresh t) A B).rowCells i).filter (fun c => decide (c.1 = j)) =
      [(j, k1, k2)] := by
  have hmem : (j, wedgeWitnesses A B i j) ∈ newNZs A B i :=
    (mem_newNZs A B i j _).2 ⟨rfl, by rw [hw]; simp⟩
  have hfind := (StdMap.mem_iff_find _ (newNZs_WF A B i) j _).1 hmem
  have hfil := StdMap.filter_key _ (newNZs_WF A B i) j
  rw [hfind] at hfil
  simp only at hfil
  rw [matmat_fresh_rowCells t A B i hi, List.filter_map]
  have : ((fun c : Nat × Nat × Nat => decide (c.1 = j)) ∘
      fun e : Nat × List Nat => (e.1, e.2.getD 0 0, e.2.getD 1 0)) =
      fun e => decide (e.1 = j) := rfl
  rw [this, hfil, hw]
  rfl

theorem mem_trianglesAt (S : CSRMat) (a b c : Nat) :
    (a, b) ∈ trianglesAt S c ↔ S.IsTriangle a b c := by
  simp only [trianglesAt, List.mem_flatMap, List.mem_range, List.mem_map, List.mem_filter,
    decide_eq_true_eq, Prod.mk.injEq]
  constructor
  · rintro ⟨b2, _, a2, ⟨_, h⟩, rfl, rfl⟩
    exact h
  · intro h
    exact ⟨b, h.2.1, a, ⟨h.1, h⟩, rfl, rfl⟩

theorem trianglesAt_nodup (S : CSRMat) (c : Nat) : (trianglesAt S c).Nodup := by
  unfold trianglesAt
  rw [List.nodup_flatMap]
  constructor
  · intro b _
    exact ((List.nodup_range b).filter _).map (fun a1 a2 h => (Prod.mk.inj h).1)
  · apply (List.nodup_range c).imp
    intro b1 b2 hne p h1 h2
    simp only [List.mem_map] at h1 h2
    obtain ⟨a1, _, rfl⟩ := h1
    obtain ⟨a2, _, h⟩ := h2
    exact hne (Prod.mk.inj h).2.symm

theorem rowCells_nodup_of_sorted (Z : CSRMat) (i : Nat) (h : (Z.rowCols i).Pairwise (· < ·)) :
    (Z.rowCells i).Nodup := by
  rw [rowCols_eq_rowCells] at h
  exact List.Nodup.of_map _ (h.imp (fun hab => Nat.ne_of_lt hab))

theorem lower_product_sound (t : matrixtype) (S L B : CSRMat) (eI : StdMap (StdMap Nat))
    (hsym : S.StructSymmetric) (hLm : L.m = S.m) (hLs : L.SortedRows)
    (hLmem : ∀ r, r < S.m → ∀ c, c ∈ L.rowCols r ↔ (S.stores r c ∧ c < r))
    (hBm : B.m = S.m) (hBs : B.SortedRows)
    (hBst : ∀ k e, k < S.m →
      (B.stores k e ↔ ∃ q, (edgePairs S)[e]? = some q ∧ (q.1 = k ∨ q.2 = k)))
    (hfind : ∀ u v e, edgeFind eI u v = some e ↔ (edgePairs S)[e]? = some (u, v))
    (i : Nat) (hi : i < S.m) (x : Nat × Nat × Nat)
    (hx : x ∈ (matmat (CSRMat.fresh t) L B).rowCells i) :
    S.IsTriangle x.2.1 x.2.2 i ∧ edgeFind eI x.2.1 x.2.2 = some x.1 := by
  have hb := symmetric_colsBelow S hsym
  have hiL : i < L.m := by rw [hLm]; exact hi
  obtain ⟨_, h2, h3, rest, hw, hq⟩ := product_cell t S L B hb hLm (distinct_of_sorted L hLs)
    (fun r hr c hc => ((hLmem r hr c).1 hc).1) hBm hBs hBst i hi x hx
  have hs : (witnesses L B i x.1).Pairwise (· < ·) := (hLs i hiL).filter _
  rw [hw, List.pairwise_cons] at hs
  have hlt : x.2.1 < x.2.2 := hs.1 _ (List.mem_cons_self _ _)
  have hq2 : (edgePairs S)[x.1]? = some (x.2.1, x.2.2) := by
    rcases hq with hq | hq
    · exact hq
    · have := edgePairs_lt S (x.2.2, x.2.1) (List.mem_iff_getElem?.2 ⟨x.1, hq⟩)
      simp only at this
      omega
  have hst := (mem_edgePairs_iff S x.2.1 x.2.2).1 (List.mem_iff_getElem?.2 ⟨x.1, hq2⟩)
  have a2 := (hLmem i hi _).1 h2
  have a3 := (hLmem i hi _).1 h3
  exact ⟨⟨hlt, a3.2, hi, hst.2.1, (hsym i hi _ a2.1).2, (hsym i hi _ a3.1).2⟩,
    (hfind _ _ _).2 hq2⟩

theorem lower_product_complete (t : matrixtype) (S L B : CSRMat) (eI : StdMap (StdMap Nat))
    (hsym : S.StructSymmetric) (hLm : L.m = S.m) (hLs : L.SortedRows)
    (hLmem : ∀ r, r < S.m → ∀ c, c ∈ L.rowCols r ↔ (S.stores r c ∧ c < r))
    (hBm : B.m = S.m) (hBs : B.SortedRows)
    (hBst : ∀ k e, k < S.m →
      (B.stores k e ↔ ∃ q, (edgePairs S)[e]? = some q ∧ (q.1 = k ∨ q.2 = k)))
    (hfind : ∀ u v e, edgeFind eI u v = some e ↔ (edgePairs S)[e]? = some (u, v))
    (a b c : Nat) (htri : S.IsTriangle a b c) :
    ∃ e, edgeFind eI a b = some e ∧
      ((matmat (CSRMat.fresh t) L B).rowCells c).filter (fun x => decide (x.1 = e)) =
        [(e, a, b)] := by
  obtain ⟨hab, hbc, hc, sab, sac, sbc⟩ := htri
  have hb := symmetric_colsBelow S hsym
  have hcL : c < L.m := by rw [hLm]; exact hc
  have ha : a < S.m := by omega
  have hbm : b < S.m := by omega
  obtain ⟨e, he⟩ : ∃ e : Nat, (edgePairs S)[e]? = some (a, b) :=
    List.mem_iff_getElem?.1 ((mem_edgePairs_iff S a b).2 ⟨ha, sab, hab⟩)
  refine ⟨e, (hfind a b e).2 he, ?_⟩
  have hAB : L.ColsBelow B.m := by
    intro r hr k hk
    rw [hLm] at hr
    rw [hBm]
    exact hb r hr k ((hLmem r hr k).1 hk).1
  have hww := wedgeWitnesses_eq L B c e
    (nodup_rows_of L B (distinct_of_sorted B hBs) hAB c hcL)
  have hwit : witnesses L B c e = [a, b] := by
    apply sorted_pair_eq _ a b ((hLs c hcL).filter _) hab
    intro k
    simp only [witnesses, List.mem_filter, decide_eq_true_eq]
    constructor
    · rintro ⟨hk, hBk⟩
      have hkc := ((hLmem c hc k).1 hk).2
      obtain ⟨q, hq, hq1⟩ := (hBst k e (by omega)).1 hBk
      rw [he] at hq
      have := Option.some.inj hq
      rw [← this] at hq1
      simp only at hq1
      rcases hq1 with h | h
      · exact Or.inl h.symm
      · exact Or.inr h.symm
    · rintro (rfl | rfl)
      · exact ⟨(hLmem c hc k).2 ⟨(hsym k ha c sac).2, by omega⟩,
          (hBst k e ha).2 ⟨(k, b), he, Or.inl rfl⟩⟩
      · exact ⟨(hLmem c hc k).2 ⟨(hsym k hbm c sbc).2, hbc⟩,
          (hBst k e hbm).2 ⟨(a, k), he, Or.inr rfl⟩⟩
  exact cell_filter t L B c e hcL a b [] (by rw [hww, hwit])

theorem length_eq_of_nodup_pairs (l1 l2 : List (Nat × Nat)) (h1 : l1.Nodup) (h2 : l2.Nodup)
    (h : ∀ x, x ∈ l1 ↔ x ∈ l2) : l1.length = l2.length :=
  ((List.perm_ext_iff_of_nodup h1 h2).2 h).length_eq

/-- C25: for a square, structurally symmetric `S` with pairwise distinct columns per row,
`L = createTriMatrix(S, LOWERTRI)`, `(B, eI) = createIncidentMatrix(S)` and
`Z = matmat(L,B)` on a fresh receiver exist, `Z` has the rows of `S`, and the cells of `Z`
are in bijection with the triangles of `S`: for every triangle `a < b < c` the lookup
`eI[a][b]` finds an edge id `e` and row `c` of `Z` holds exactly one cell at column `e`, which
is `(e, a, b)`; every cell `(e, v2, v3)` of a row `i` comes from the triangle
`v2 < v3 < i` with `eI[v2][v3] = e`; and `Z.nnz` is the number of triangles. -/
theorem triangle_cells (self1 self2 S : CSRMat) (t : matrixtype) (hsq : S.m = S.n)
    (hsym : S.StructSymmetric) (hd : S.DistinctCols) (ht : self2.type = .INCIDENCE) :
    ∃ L B eI, createTriMatrix self1 S .LOWERTRI = some L ∧
      createIncidentMatrix self2 S [] = some (B, eI) ∧
      (matmat (CSRMat.fresh t) L B).m = S.m ∧
      (∀ a b c, S.IsTriangle a b c →
        ∃ e, edgeFind eI a b = some e ∧
          ((matmat (CSRMat.fresh t) L B).rowCells c).filter (fun x => decide (x.1 = e)) =
            [(e, a, b)]) ∧
      (∀ i, i < S.m → ∀ x ∈ (matmat (CSRMat.fresh t) L B).rowCells i,
        S.IsTriangle x.2.1 x.2.2 i ∧ edgeFind eI x.2.1 x.2.2 = some x.1) ∧
      (matmat (CSRMat.fresh t) L B).nnz = numTriangles S := by
  have hb := symmetric_colsBelow S hsym
  obtain ⟨L, hL, hLm, hLs, hLmem⟩ := lower_facts self1 S hsq
  obtain ⟨B, eI, hB, hBm, hBn, hBs, hBst, hfind⟩ := incidence_facts self2 S ht hd hb
  have hcomp := lower_product_complete t S L B eI hsym hLm hLs hLmem hBm hBs hBst hfind
  have hsound := lower_product_sound t S L B eI hsym hLm hLs hLmem hBm hBs hBst hfind
  have hZm : (matmat (CSRMat.fresh t) L B).m = S.m := by rw [matmat_fresh]; exact hLm
  refine ⟨L, B, eI, hL, hB, hZm, hcomp, hsound, ?_⟩
  have hrow : ∀ r, r < S.m → (newNZs L B r).length = (trianglesAt S r).length := by
    intro r hr
    have hrL : r < L.m := by rw [hLm]; exact hr
    have hcells := matmat_fresh_rowCells t L B r hrL
    have hlen : (newNZs L B r).length =
        (((matmat (CSRMat.fresh t) L B).rowCells r).map (fun x => (x.2.1, x.2.2))).length := by
      rw [hcells, List.length_map, List.length_map]
    rw [hlen]
    have hsorted : ((matmat (CSRMat.fresh t) L B).rowCols r).Pairwise (· < ·) :=
      matmat_sorted (CSRMat.fresh t) L B (fresh_rowInv2 t) r (by rw [hZm]; exact hr)
    have hnd := rowCells_nodup_of_sorted _ r hsorted
    apply length_eq_of_nodup_pairs _ _ _ (trianglesAt_nodup S r)
    · rintro ⟨a, b⟩
      rw [mem_trianglesAt, List.mem_map]
      constructor
      · rintro ⟨x, hx, hxe⟩
        have := (hsound r hr x hx).1
        rw [(Prod.mk.inj hxe).1, (Prod.mk.inj hxe).2] at this
        exact this
      · intro htri
        obtain ⟨e, _, hfil⟩ := hcomp a b r htri
        have : (e, a, b) ∈ ((matmat (CSRMat.fresh t) L B).rowCells r).filter
            (fun x => decide (x.1 = e)) := by rw [hfil]; exact List.mem_singleton_self _
        exact ⟨(e, a, b), (List.mem_filter.1 this).1, rfl⟩
    · apply List.Nodup.map_on _ hnd
      intro x hx y hy hxy
      have h1 := (hsound r hr x hx).2
      have h2 := (hsound r hr y hy).2
      rw [(Prod.mk.inj hxy).1, (Prod.mk.inj hxy).2, h2] at h1
      have h3 : y.1 = x.1 := Option.some.inj h1
      exact Prod.ext h3.symm (Prod.ext (Prod.mk.inj hxy).1 (Prod.mk.inj hxy).2)
  rw [matmat_fresh]
  simp only [numTriangles, hLm]
  congr 1
  apply List.map_congr_left
  intro r hr
  exact hrow r (List.mem_range.1 hr)

theorem triangle_cells_witness :
    k4Full.m = k4Full.n ∧ k4Full.StructSymmetric ∧ k4Full.DistinctCols ∧
    (CSRMat.fresh .INCIDENCE).type = .INCIDENCE ∧ numTriangles k4Full = 4 ∧
    ∃ L B eI, createTriMatrix (CSRMat.fresh .UNDEFINED) k4Full .LOWERTRI = some L ∧
      createIncidentMatrix (CSRMat.fresh .INCIDENCE) k4Full [] = some (B, eI) ∧
      (matmat (CSRMat.fresh .UNDEFINED) L B).m = k4Full.m ∧
      (∀ a b c, k4Full.IsTriangle a b c →
        ∃ e, edgeFind eI a b = some e ∧
          ((matmat (CSRMat.fresh .UNDEFINED) L B).rowCells c).filter
            (fun x => decide (x.1 = e)) = [(e, a, b)]) ∧
      (∀ i, i < k4Full.m → ∀ x ∈ (matmat (CSRMat.fresh .UNDEFINED) L B).rowCells i,
        k4Full.IsTriangle x.2.1 x.2.2 i ∧ edgeFind eI x.2.1 x.2.2 = some x.1) ∧
      (matmat (CSRMat.fresh .UNDEFINED) L B).nnz = numTriangles k4Full :=
  ⟨by decide, by decide, by decide, rfl, by decide,
    triangle_cells (CSRMat.fresh .UNDEFINED) (CSRMat.fresh .INCIDENCE) k4Full .UNDEFINED
      (by decide) (by decide) (by decide) rfl⟩

end MiniTri
